import Mathlib

/-!
# Table/bijection framework of `wab2_DDimpl/BijectiveAlgorithm.h`

A shallow embedding of the generic classes `AttributePath`, the filters, `SelectiveView`,
`BijeciveModifier`, `Column` and `BijectiveAlgorithm`, followed by theorems about them.

Conventions of the embedding.

* The tree the node pointers point into is an explicit state `S`; a node pointer is a
  handle `N`.  A getter reads the state, a setter returns its `bool` and the new state.
* Every caller-supplied `std::function` may raise: it returns `Except E _`.  The
  framework functions return `Except (Failure E) _`, where `Failure` records which
  callback raised, or that `vector::at` raised, or that the behaviour is undefined.
* `size_t` is 64 bits wide; `x.size() - 1` is computed modulo `2^64`.
* `std::unordered_map` is an association list with `find` and a non-overwriting `insert`.
* The recursion of `apply_filter` through the child accessor takes a fuel that bounds its
  depth; `none` stands for a traversal deeper than the fuel. A finite tree is a `Hierarchy`
  that the child accessor describes, and the fuel it needs is its height.
-/

namespace WAB

/-! ## Failures -/

/-- Ways in which a call can end without returning a value. -/
inductive Failure (E : Type) where
  /-- The getter raised and `get_value` had no default to substitute. -/
  | getter (e : E)
  /-- One of `func_apply`, `func_revert` raised. -/
  | transform (e : E)
  /-- The setter raised. -/
  | setter (e : E)
  /-- A call of `std::vector::at` with an index past the end. -/
  | out_of_range
  /-- The call `erase(begin())` on an empty vector. -/
  | undefined
  /-- The child accessor `func_get_children` raised. -/
  | children (e : E)
  /-- The function of a `FilterFunction` raised. -/
  | filter (e : E)
  deriving DecidableEq, Repr

/-- The constant `2^64`: the number of values of `size_t`. -/
def SIZE_MOD : Nat := 18446744073709551616

/-- The expression `n - 1` on `size_t`. -/
def size_sub_one (n : Nat) : Nat := (n + (SIZE_MOD - 1)) % SIZE_MOD

/-- The call `v.at(i)`. -/
def vec_at {E α : Type} : List α → Nat → Except (Failure E) α
  | [], _ => .error .out_of_range
  | x :: _, 0 => .ok x
  | _ :: xs, i + 1 => vec_at xs i

/-- The call `v.erase(v.begin())`. -/
def erase_begin {E α : Type} : List α → Except (Failure E) (List α)
  | [] => .error .undefined
  | _ :: xs => .ok xs

/-! ## `std::unordered_map` -/

/-- The call `m.find(k)`: the value stored under `k`, if any. -/
def umap_find {K V : Type} [DecidableEq K] : List (K × V) → K → Option V
  | [], _ => none
  | (k', v) :: rest, k => if k' = k then some v else umap_find rest k

/-- The call `m.insert({k, v})`: nothing happens when `k` is already a key. -/
def umap_insert {K V : Type} [DecidableEq K] (m : List (K × V)) (k : K) (v : V) :
    List (K × V) :=
  match umap_find m k with
  | some _ => m
  | none => (k, v) :: m

/-- The test `it != m.end() && it->second != v` for `it = m.find(k)`. -/
def umap_conflict {K V : Type} [DecidableEq K] [DecidableEq V] (m : List (K × V)) (k : K)
    (v : V) : Bool :=
  match umap_find m k with
  | some second => decide (second ≠ v)
  | none => false

/-! ## `AttributePath` -/

/-- The class `AttributePath<T_node, T_out>`. -/
structure AttributePath (S N V E : Type) where
  default_value : Option V
  func_get : S → N → Except E V
  func_set : S → N → V → Except E (Bool × S)

namespace AttributePath

variable {S N V E : Type}

/-- The method `get_value`: the getter's value, or the default if the getter raised and a
default is set, else the getter's exception again. -/
def get_value (p : AttributePath S N V E) (s : S) (node : N) : Except (Failure E) V :=
  match p.func_get s node with
  | .ok v => .ok v
  | .error e =>
    match p.default_value with
    | some d => .ok d
    | none => .error (.getter e)

/-- The method `set_value`. -/
def set_value (p : AttributePath S N V E) (s : S) (node : N) (val : V) :
    Except (Failure E) (Bool × S) :=
  match p.func_set s node val with
  | .ok r => .ok r
  | .error e => .error (.setter e)

/-- The method `has_value`. -/
def has_value (p : AttributePath S N V E) (s : S) (node : N) : Bool :=
  match p.func_get s node with
  | .ok _ => true
  | .error _ => false

end AttributePath

/-! ## `BijeciveModifier` -/

/-- The class `BijeciveModifier<T_node, T_in, T_out>`. -/
structure BijeciveModifier (I O E : Type) where
  func_apply : I → Except E O
  func_revert : O → Except E I

namespace BijeciveModifier

variable {S N I O E : Type}

/-- The method `apply`. -/
def apply (m : BijeciveModifier I O E) (value : I) : Except (Failure E) O :=
  match m.func_apply value with
  | .ok r => .ok r
  | .error e => .error (.transform e)

/-- The method `revert`. -/
def revert (m : BijeciveModifier I O E) (value : O) : Except (Failure E) I :=
  match m.func_revert value with
  | .ok r => .ok r
  | .error e => .error (.transform e)

/-- The loop of `is_valid` over the nodes still to visit, with the two maps built so far. -/
def is_valid_loop [DecidableEq I] [DecidableEq O] (m : BijeciveModifier I O E)
    (path : AttributePath S N I E) (s : S) :
    List N → List (I × O) → List (O × I) → Except (Failure E) Bool
  | [], _, _ => .ok true
  | node :: rest, mapping_apply, mapping_reverse => do
    let val ← path.get_value s node
    let val_modified ← m.apply val
    let val_reversed ← m.revert val_modified
    if val ≠ val_reversed then pure false
    else if umap_conflict mapping_apply val val_modified then pure false
    else
      let mapping_apply := umap_insert mapping_apply val val_modified
      if umap_conflict mapping_reverse val_modified val then pure false
      else
        let mapping_reverse := umap_insert mapping_reverse val_modified val
        is_valid_loop m path s rest mapping_apply mapping_reverse

/-- The method `is_valid`, the bijectivity check over the values of a view. -/
def is_valid [DecidableEq I] [DecidableEq O] (m : BijeciveModifier I O E)
    (path : AttributePath S N I E) (s : S) (values : List N) : Except (Failure E) Bool :=
  is_valid_loop m path s values [] []

/-- The function `passthrough`: the same function for transforming and reverting. -/
def passthrough (func_passthrough : I → Except E I) : BijeciveModifier I I E where
  func_apply := func_passthrough
  func_revert := func_passthrough

/-- The method `chain_with`: the new modifier applies this one, then the second, and
reverts the second, then this one. -/
def chain_with {O2 : Type} (modifier_first : BijeciveModifier I O E)
    (modifier_second : BijeciveModifier O O2 E) : BijeciveModifier I O2 E where
  func_apply := fun val =>
    match modifier_first.func_apply val with
    | .error e => .error e
    | .ok cache => modifier_second.func_apply cache
  func_revert := fun val =>
    match modifier_second.func_revert val with
    | .error e => .error e
    | .ok cache_reverse => modifier_first.func_revert cache_reverse

end BijeciveModifier

/-! ## `SelectiveView` -/

/-- The class `SelectiveView<T_node>`: the selected nodes and the child accessor. -/
structure SelectiveView (S N E : Type) where
  view_nodes : List N
  func_get_children : S → N → Except E (List N)

/-! ## `Column` -/

/-- The class `Column<T_node, T_val>`. -/
structure Column (S N V E : Type) where
  linked_attr : AttributePath S N V E
  modifier_pipe : BijeciveModifier V String E
  _header : String

namespace Column

variable {S N V E : Type}

/-- The method `header`. -/
def header (c : Column S N V E) : String := c._header

/-- The loop of `build`: one `push_back` per node of the view. -/
def build_loop (c : Column S N V E) (s : S) :
    List N → List String → Except (Failure E) (List String)
  | [], ret_vector => .ok ret_vector
  | node :: rest, ret_vector => do
    let val ← c.linked_attr.get_value s node
    let val_modified ← c.modifier_pipe.apply val
    build_loop c s rest (ret_vector ++ [val_modified])

/-- The method `build`. -/
def build (c : Column S N V E) (s : S) (values : SelectiveView S N E) :
    Except (Failure E) (List String) :=
  build_loop c s values.view_nodes [c.header]

/-- The first loop of `is_valid`: `false` at the first node without value and default. -/
def has_all_values (c : Column S N V E) (s : S) : List N → Bool
  | [] => true
  | node :: rest =>
    if !c.linked_attr.has_value s node && !c.linked_attr.default_value.isSome then false
    else has_all_values c s rest

/-- The method `is_valid`. -/
def is_valid [DecidableEq V] (c : Column S N V E) (s : S) (values : SelectiveView S N E) :
    Except (Failure E) Bool :=
  if !has_all_values c s values.view_nodes then .ok false
  else c.modifier_pipe.is_valid c.linked_attr s values.view_nodes

/-- The loop of `sync_with` that fills `col_originals`. -/
def originals_loop (c : Column S N V E) : List String → List V → Except (Failure E) (List V)
  | [], col_originals => .ok col_originals
  | val :: rest, col_originals => do
    let r ← c.modifier_pipe.revert val
    originals_loop c rest (col_originals ++ [r])

/-- The loop of `sync_with` over the edited cells that vets the cells absent from the built
column; `none` stands for its `return false`, `some` carries `reached_vals` and
`reached_val_keys`. -/
def collision_loop [DecidableEq V] (c : Column S N V E) (col_build : List String)
    (col_originals : List V) :
    List String → List V → List String → Except (Failure E) (Option (List V × List String))
  | [], reached_vals, reached_val_keys => .ok (some (reached_vals, reached_val_keys))
  | val :: rest, reached_vals, reached_val_keys =>
    if val ∉ col_build then do
      let reverted ← c.modifier_pipe.revert val
      let applied ← c.modifier_pipe.apply reverted
      if applied ≠ val then pure none
      else if reverted ∈ col_originals then pure none
      else
        let reached_vals := reached_vals ++ [reverted]
        let reached_val_keys := reached_val_keys ++ [applied]
        collision_loop c col_build col_originals rest reached_vals reached_val_keys
    else collision_loop c col_build col_originals rest reached_vals reached_val_keys

/-- The loop of `sync_with` that compares counts in `reached_vals` and `reached_val_keys`:
`k` iterations are left, starting at index `i`. -/
def count_loop [DecidableEq V] (reached_vals : List V) (reached_val_keys : List String) :
    Nat → Nat → Except (Failure E) Bool
  | 0, _ => .ok true
  | k + 1, i => do
    let v ← vec_at reached_vals i
    let key ← vec_at reached_val_keys i
    let count_val := reached_vals.count v
    let count_key := reached_val_keys.count key
    if count_val ≠ count_key then pure false
    else count_loop reached_vals reached_val_keys k (i + 1)

/-- The last loop of `sync_with`, which writes: `k` iterations are left, starting at row
`i`, with the flag and the tree as they are now. -/
def write_loop [DecidableEq V] (c : Column S N V E) (values : SelectiveView S N E)
    (col_out : List String) : Nat → Nat → Bool → S → Except (Failure E) (Bool × S)
  | 0, _, success_flag, s => .ok (success_flag, s)
  | k + 1, i, success_flag, s => do
    let node ← vec_at values.view_nodes i
    let cell ← vec_at col_out i
    let val_new ← c.modifier_pipe.revert cell
    let val_old ← c.linked_attr.get_value s node
    if val_old ≠ val_new then do
      let r ← c.linked_attr.set_value s node val_new
      write_loop c values col_out k (i + 1) (success_flag && r.1) r.2
    else write_loop c values col_out k (i + 1) success_flag s

/-- The part of `sync_with` before `bool success_flag = true`: every check that can end the
call with `return false`. The value `none` stands for `return false`, the value `some` carries
`col_out` without its header, as the loop that writes will see it. -/
def admission [DecidableEq V] (c : Column S N V E) (s : S) (values : SelectiveView S N E)
    (col_out : List String) : Except (Failure E) (Option (List String)) := do
  let valid ← c.is_valid s values
  if !valid then pure none
  else if values.view_nodes.length ≠ size_sub_one col_out.length then pure none
  else do
    let col_build ← c.build s values
    let col_build ← erase_begin col_build
    let col_originals ← originals_loop c col_build []
    let col_out ← erase_begin col_out
    let reached ← collision_loop c col_build col_originals col_out [] []
    match reached with
    | none => pure none
    | some (reached_vals, reached_val_keys) => do
      let counts_ok ← count_loop reached_vals reached_val_keys reached_vals.length 0
      if !counts_ok then pure none
      else pure (some col_out)

/-- The method `sync_with`: the checks of `admission`, then the loop that writes. -/
def sync_with [DecidableEq V] (c : Column S N V E) (s : S) (values : SelectiveView S N E)
    (col_out : List String) : Except (Failure E) (Bool × S) := do
  let admitted ← admission c s values col_out
  match admitted with
  | none => pure (false, s)
  | some col_out => write_loop c values col_out col_out.length 0 true s

/-- The write phase as the specification words it (§4.5 step 6), to be compared with
`write_loop`: the rows are taken in view order; the stored value is read afresh; the setter
is called with the reverted cell exactly when that differs from the stored value; a setter
returning `false` does not stop the rows that follow. The result lists the setter calls in
order, each with its result, and the tree they leave. -/
def write_calls [DecidableEq V] (c : Column S N V E) :
    List (N × String) → S → Except (Failure E) (List (N × V × Bool) × S)
  | [], s => .ok ([], s)
  | (node, cell) :: rest, s => do
    let val_new ← c.modifier_pipe.revert cell
    let val_old ← c.linked_attr.get_value s node
    if val_old ≠ val_new then do
      let r ← c.linked_attr.set_value s node val_new
      let later ← write_calls c rest r.2
      pure ((node, val_new, r.1) :: later.1, later.2)
    else write_calls c rest s

/-- The boolean the write phase returns according to the specification: the conjunction of
the results of all setter calls. -/
def calls_flag {N V : Type} (calls : List (N × V × Bool)) : Bool :=
  calls.all fun call => call.2.2

/-- The collision loop of `sync_with` without its test `reverted value already in set`: the
variant that `sync_with_without_alias` is built from. -/
def collision_loop_without_alias [DecidableEq V] (c : Column S N V E)
    (col_build : List String) :
    List String → List V → List String → Except (Failure E) (Option (List V × List String))
  | [], reached_vals, reached_val_keys => .ok (some (reached_vals, reached_val_keys))
  | val :: rest, reached_vals, reached_val_keys =>
    if val ∉ col_build then do
      let reverted ← c.modifier_pipe.revert val
      let applied ← c.modifier_pipe.apply reverted
      if applied ≠ val then pure none
      else
        let reached_vals := reached_vals ++ [reverted]
        let reached_val_keys := reached_val_keys ++ [applied]
        collision_loop_without_alias c col_build rest reached_vals reached_val_keys
    else collision_loop_without_alias c col_build rest reached_vals reached_val_keys

/-- The checks of `sync_with` with the collision loop that lacks the test `reverted value
already in set`; everything else is as in `admission`. -/
def admission_without_alias [DecidableEq V] (c : Column S N V E) (s : S)
    (values : SelectiveView S N E) (col_out : List String) :
    Except (Failure E) (Option (List String)) := do
  let valid ← c.is_valid s values
  if !valid then pure none
  else if values.view_nodes.length ≠ size_sub_one col_out.length then pure none
  else do
    let col_build ← c.build s values
    let col_build ← erase_begin col_build
    let _col_originals ← originals_loop c col_build []
    let col_out ← erase_begin col_out
    let reached ← collision_loop_without_alias c col_build col_out [] []
    match reached with
    | none => pure none
    | some (reached_vals, reached_val_keys) => do
      let counts_ok ← count_loop reached_vals reached_val_keys reached_vals.length 0
      if !counts_ok then pure none
      else pure (some col_out)

/-- The variant of `sync_with` without the test `reverted value already in set`. -/
def sync_with_without_alias [DecidableEq V] (c : Column S N V E) (s : S)
    (values : SelectiveView S N E) (col_out : List String) : Except (Failure E) (Bool × S) := do
  let admitted ← admission_without_alias c s values col_out
  match admitted with
  | none => pure (false, s)
  | some col_out => write_loop c values col_out col_out.length 0 true s

/-- A cell that is the rendering of the value read at a node and that reverts to it. -/
def cell_of (c : Column S N V E) (s : S) (cell : String) (node : N) : Prop :=
  ∃ v, c.linked_attr.get_value s node = .ok v ∧ c.modifier_pipe.apply v = .ok cell ∧
    c.modifier_pipe.revert cell = .ok v

end Column

/-! ## `ColumnBase` and `BijectiveAlgorithm` -/

/-- The class `ColumnBase<T_node>`: the virtual methods of a registered column. -/
structure ColumnBase (S N E : Type) where
  build : S → SelectiveView S N E → Except (Failure E) (List String)
  header : String
  is_valid : S → SelectiveView S N E → Except (Failure E) Bool
  sync_with : S → SelectiveView S N E → List String → Except (Failure E) (Bool × S)

/-- A `Column<T_node, T_val>` seen through a `ColumnBase<T_node>*`. -/
def Column.toColumnBase {S N V E : Type} [DecidableEq V] (c : Column S N V E) :
    ColumnBase S N E where
  build := c.build
  header := c.header
  is_valid := c.is_valid
  sync_with := c.sync_with

/-- The class `BijectiveAlgorithm<T_node>`. -/
structure BijectiveAlgorithm (S N E : Type) where
  view : SelectiveView S N E
  columns : List (ColumnBase S N E)

namespace BijectiveAlgorithm

variable {S N E : Type}

/-- The loop of `apply`. -/
def apply_loop (a : BijectiveAlgorithm S N E) (s : S) :
    List (ColumnBase S N E) → List (List String) → Except (Failure E) (List (List String))
  | [], table => .ok table
  | col :: rest, table => do
    let res ← col.build s a.view
    apply_loop a s rest (table ++ [res])

/-- The method `apply`. -/
def apply (a : BijectiveAlgorithm S N E) (s : S) : Except (Failure E) (List (List String)) :=
  apply_loop a s a.columns []

/-- The method `register_column`. -/
def register_column (a : BijectiveAlgorithm S N E) (col : ColumnBase S N E) :
    BijectiveAlgorithm S N E :=
  { a with columns := a.columns ++ [col] }

/-- The loop of `is_valid`. -/
def is_valid_loop (a : BijectiveAlgorithm S N E) (s : S) :
    List (ColumnBase S N E) → Except (Failure E) Bool
  | [] => .ok true
  | col :: rest => do
    let v ← col.is_valid s a.view
    if !v then pure false else is_valid_loop a s rest

/-- The method `is_valid`. -/
def is_valid (a : BijectiveAlgorithm S N E) (s : S) : Except (Failure E) Bool :=
  is_valid_loop a s a.columns

/-- The loop of `sync_with` over the supplied columns that compares their sizes with the
size of the view: `false` stands for its `return false`. -/
def sizes_loop (view_size : Nat) : List (List String) → Bool
  | [] => true
  | col_output :: rest =>
    if size_sub_one col_output.length ≠ view_size then false else sizes_loop view_size rest

/-- The loop of `sync_with` that syncs column after column: `k` iterations are left,
starting at column `i`. -/
def sync_loop (a : BijectiveAlgorithm S N E) (table : List (List String)) :
    Nat → Nat → Bool → S → Except (Failure E) (Bool × S)
  | 0, _, success_flag, s => .ok (success_flag, s)
  | k + 1, i, success_flag, s => do
    let col ← vec_at a.columns i
    let col_output ← vec_at table i
    let r ← col.sync_with s a.view col_output
    sync_loop a table k (i + 1) (success_flag && r.1) r.2

/-- The method `sync_with`; the parameter `tree` is not used by the code. -/
def sync_with (a : BijectiveAlgorithm S N E) (s : S) (_tree : N) (table : List (List String)) :
    Except (Failure E) (Bool × S) := do
  let valid ← a.is_valid s
  if !valid then pure (false, s)
  else if table.length ≠ a.columns.length then pure (false, s)
  else if !sizes_loop a.view.view_nodes.length table then pure (false, s)
  else sync_loop a table table.length 0 true s

/-- The column syncs as the specification words them (§4.6), to be compared with `sync_loop`:
every registered column is synced with the supplied column at its position, in order, on
the tree the columns before it have left, whether or not those returned `true`. The result
lists what each column returned, and the tree they leave. -/
def sync_columns (a : BijectiveAlgorithm S N E) :
    List (ColumnBase S N E × List String) → S → Except (Failure E) (List Bool × S)
  | [], s => .ok ([], s)
  | (col, col_output) :: rest, s => do
    let r ← col.sync_with s a.view col_output
    let later ← sync_columns a rest r.2
    pure (r.1 :: later.1, later.2)

end BijectiveAlgorithm

/-! ## Filters -/

/-- The class `FilterBase<T_node>`: the virtual method `is_within`. -/
structure FilterBase (S N E : Type) where
  is_within : S → N → Except (Failure E) Bool

/-- The class `FilterFunction<T_node>`. -/
structure FilterFunction (S N E : Type) where
  func : S → N → Except E Bool

namespace FilterFunction

variable {S N E : Type}

/-- The method `is_within`: the result of the stored function. -/
def is_within (f : FilterFunction S N E) (s : S) (node : N) : Except (Failure E) Bool :=
  match f.func s node with
  | .ok b => .ok b
  | .error e => .error (.filter e)

/-- The function `accept_all`. -/
def accept_all : FilterFunction S N E where
  func := fun _ _ => .ok true

/-- The function `accept_none`. -/
def accept_none : FilterFunction S N E where
  func := fun _ _ => .ok false

/-- A `FilterFunction` seen through a `FilterBase<T_node>*`. -/
def toFilterBase (f : FilterFunction S N E) : FilterBase S N E where
  is_within := f.is_within

end FilterFunction

/-- The class `FilterAttributePath<T_node, T_out>`. -/
structure FilterAttributePath (S N V E : Type) where
  allowed_vals : List V
  path : AttributePath S N V E

namespace FilterAttributePath

variable {S N V E : Type}

/-- The loop of `is_within` over `allowed_vals`: `true` at the first value equal to `val`. -/
def allowed_loop [DecidableEq V] (val : V) : List V → Bool
  | [] => false
  | comp_val :: rest => if val = comp_val then true else allowed_loop val rest

/-- The method `is_within`. -/
def is_within [DecidableEq V] (f : FilterAttributePath S N V E) (s : S) (node : N) :
    Except (Failure E) Bool := do
  let val ← f.path.get_value s node
  pure (allowed_loop val f.allowed_vals)

/-- A `FilterAttributePath` seen through a `FilterBase<T_node>*`. -/
def toFilterBase [DecidableEq V] (f : FilterAttributePath S N V E) : FilterBase S N E where
  is_within := f.is_within

end FilterAttributePath

/-! ## `SelectiveView::apply_filter` -/

namespace SelectiveView

variable {S N E : Type}

/-- The loop `for (T_node* child : _nodes)` of `node_traverser`, with the recursive call as
a parameter: each child is registered, then traversed. The value `none` stands for a
recursion that is deeper than the fuel allows. -/
def traverse_children (traverse : N → List N → Except (Failure E) (Option (List N))) :
    List N → List N → Except (Failure E) (Option (List N))
  | [], nodes => .ok (some nodes)
  | child :: rest, nodes => do
    let r ← traverse child (nodes ++ [child])
    match r with
    | none => pure none
    | some nodes => traverse_children traverse rest nodes

/-- The recursive lambda `node_traverser` of `apply_filter`, with the vector `nodes` it
captures passed through; the fuel bounds the depth of the recursion. -/
def node_traverser (v : SelectiveView S N E) (s : S) :
    Nat → N → List N → Except (Failure E) (Option (List N))
  | 0, _, _ => .ok none
  | fuel + 1, parent, nodes =>
    match v.func_get_children s parent with
    | .error e => .error (.children e)
    | .ok _nodes => traverse_children (node_traverser v s fuel) _nodes nodes

/-- The inner loop of `apply_filter` over the filters: the value of `flag` after it. -/
def filters_flag (s : S) : List (FilterBase S N E) → N → Except (Failure E) Bool
  | [], _ => .ok true
  | filter :: rest, node => do
    let within ← filter.is_within s node
    if !within then pure false
    else filters_flag s rest node

/-- The outer loop of `apply_filter` over the collected nodes, filling `view_nodes`. -/
def filter_loop (s : S) (filters : List (FilterBase S N E)) :
    List N → List N → Except (Failure E) (List N)
  | [], view_nodes => .ok view_nodes
  | node :: rest, view_nodes => do
    let flag ← filters_flag s filters node
    if flag then filter_loop s filters rest (view_nodes ++ [node])
    else filter_loop s filters rest view_nodes

/-- The method `apply_filter`: the view after the call, or `none` when the traversal is
deeper than the fuel allows. -/
def apply_filter (v : SelectiveView S N E) (s : S) (fuel : Nat) (root : N)
    (filters : List (FilterBase S N E)) :
    Except (Failure E) (Option (SelectiveView S N E)) := do
  let cleared : List N := []
  let traversed ← node_traverser v s fuel root []
  match traversed with
  | none => pure none
  | some nodes => do
    let view_nodes ← filter_loop s filters nodes cleared
    pure (some { v with view_nodes := view_nodes })

end SelectiveView

/-! ## Finite trees, for the specification of `apply_filter` -/

/-- A finite ordered tree of node handles. -/
inductive Hierarchy (N : Type) where
  | node (label : N) (owned : List (Hierarchy N))

namespace Hierarchy

variable {N E : Type}

/-- The handle at the root. -/
def label : Hierarchy N → N
  | node x _ => x

mutual
/-- The nodes of a tree in pre-order: the root, then the subtrees from left to right. -/
def preorder : Hierarchy N → List N
  | node x ts => x :: preorder_list ts
/-- The nodes of a list of trees in pre-order. -/
def preorder_list : List (Hierarchy N) → List N
  | [] => []
  | t :: ts => preorder t ++ preorder_list ts
end

/-- The proper descendants of the root in pre-order, as the specification words the view
(§3, §4.3): depth first, root excluded, children in the order of the child list. -/
def descendants : Hierarchy N → List N
  | node _ ts => preorder_list ts

mutual
/-- The number of levels of a tree. -/
def height : Hierarchy N → Nat
  | node _ ts => height_list ts + 1
/-- The greatest number of levels among a list of trees. -/
def height_list : List (Hierarchy N) → Nat
  | [] => 0
  | t :: ts => max (height t) (height_list ts)
end

mutual
/-- The child accessor returns, at every node of the tree, the roots of its subtrees. -/
def described (children : N → Except E (List N)) : Hierarchy N → Prop
  | node x ts => children x = .ok (List.map label ts) ∧ described_list children ts
/-- The child accessor describes every tree of the list. -/
def described_list (children : N → Except E (List N)) : List (Hierarchy N) → Prop
  | [] => True
  | t :: ts => described children t ∧ described_list children ts
end

end Hierarchy

/-! ## The modifiers of `main.cpp` and a test tree -/

/-- The exceptions raised by the callbacks of `main.cpp`. -/
inductive Exn where
  | logic_error (what : String)
  | invalid_argument
  | out_of_range
  /-- Not an exception: the signed overflow of `++val` or `--val`, which has no value. -/
  | signed_overflow
  deriving DecidableEq, Repr

/-- The least value of `int`. -/
def INT_MIN : Int := -2147483648

/-- The greatest value of `int`. -/
def INT_MAX : Int := 2147483647

/-- The function `std::to_string(int)`: the decimal digits, after a minus sign if negative. -/
def to_string (i : Int) : String :=
  if i < 0 then "-" ++ Nat.repr i.natAbs else Nat.repr i.natAbs

/-- The white space skipped by `strtol`. -/
def isspace (c : Char) : Bool :=
  c = ' ' || c = '\t' || c = '\n' || c = '\x0b' || c = '\x0c' || c = '\r'

/-- The number written by a list of decimal digits. -/
def digits_value (ds : List Char) : Nat :=
  ds.foldl (fun acc d => 10 * acc + (d.toNat - 48)) 0

/-- The function `std::stoi(str)` in base 10: white space, an optional sign, then the
longest run of digits; `invalid_argument` without a digit, `out_of_range` outside `int`. -/
def stoi (str : String) : Except Exn Int :=
  let cs := str.toList.dropWhile isspace
  let signed : Bool × List Char :=
    match cs with
    | '-' :: r => (true, r)
    | '+' :: r => (false, r)
    | _ => (false, cs)
  let ds := signed.2.takeWhile Char.isDigit
  if ds = [] then .error .invalid_argument
  else
    let n : Int := digits_value ds
    let v : Int := if signed.1 then -n else n
    if v < INT_MIN ∨ INT_MAX < v then .error .out_of_range else .ok v

/-- The modifier `m_int_to_str` of `main.cpp`. -/
def m_int_to_str : BijeciveModifier Int String Exn where
  func_apply := fun i => .ok (to_string i)
  func_revert := fun i => stoi i

/-- The modifier `m_str_passthrough` of `main.cpp`. -/
def m_str_passthrough : BijeciveModifier String String Exn where
  func_apply := fun val => .ok val
  func_revert := fun val => .ok val

/-- The modifier `m_int_add_one` of `main.cpp`: `++val` and `--val` on `int`. -/
def m_int_add_one : BijeciveModifier Int Int Exn where
  func_apply := fun val => if val = INT_MAX then .error .signed_overflow else .ok (val + 1)
  func_revert := fun val => if val = INT_MIN then .error .signed_overflow else .ok (val - 1)

/-- The modifier `chain` of `main.cpp`. -/
def chain : BijeciveModifier Int String Exn :=
  m_int_add_one.chain_with m_int_to_str

/-- A test tree: node `i` carries the `i`-th integer of the list. The getter raises on a
node that is not there. -/
def cell_get (s : List Int) (node : Nat) : Except Exn Int :=
  match s[node]? with
  | some v => .ok v
  | none => .error (.logic_error "value not present")

/-- A setter that stores the value and returns `true`. -/
def cell_set (s : List Int) (node : Nat) (val : Int) : Except Exn (Bool × List Int) :=
  .ok (true, s.set node val)

/-- The attribute path of the test tree. -/
def p_cell : AttributePath (List Int) Nat Int Exn where
  default_value := none
  func_get := cell_get
  func_set := cell_set

/-- The integer column of the test tree, rendered by `m_int_to_str`. -/
def col_cell : Column (List Int) Nat Int Exn where
  linked_attr := p_cell
  modifier_pipe := m_int_to_str
  _header := "Header"

/-- A setter that refuses node 0, returning `false` and the tree as it is, and stores the
value at every other node. -/
def cell_set_locked (s : List Int) (node : Nat) (val : Int) : Except Exn (Bool × List Int) :=
  if node = 0 then .ok (false, s) else .ok (true, s.set node val)

/-- The integer column of the test tree with the setter that refuses node 0. -/
def col_locked : Column (List Int) Nat Int Exn where
  linked_attr := { default_value := none, func_get := cell_get, func_set := cell_set_locked }
  modifier_pipe := m_int_to_str
  _header := "Header"

/-- An algorithm over the first three nodes of the test tree with two registered columns. -/
def alg_cells : BijectiveAlgorithm (List Int) Nat Exn where
  view := { view_nodes := List.range 3, func_get_children := fun _ _ => .ok [] }
  columns := [col_cell.toColumnBase, col_locked.toColumnBase]

/-- The view of the first `n` nodes of the test tree. -/
def view_cells (n : Nat) : SelectiveView (List Int) Nat Exn where
  view_nodes := List.range n
  func_get_children := fun _ _ => .ok []

/-- The attribute path of the test tree with the default 0. -/
def p_cell_default : AttributePath (List Int) Nat Int Exn where
  default_value := some 0
  func_get := cell_get
  func_set := cell_set

/-- A store that holds an integer at every node: its getter never raises. -/
def store_get (s : Nat → Int) (node : Nat) : Except Exn Int :=
  .ok (s node)

/-- The setter of the store: it stores the value at the node, leaves the other nodes and
returns `true`. -/
def store_set (s : Nat → Int) (node : Nat) (val : Int) : Except Exn (Bool × (Nat → Int)) :=
  .ok (true, fun n => if n = node then val else s n)

/-- The integer column of the store, rendered by `m_int_to_str`. -/
def col_store : Column (Nat → Int) Nat Int Exn where
  linked_attr := { default_value := none, func_get := store_get, func_set := store_set }
  modifier_pipe := m_int_to_str
  _header := "Header"

/-- The view of the first three nodes of the store. -/
def view_store : SelectiveView (Nat → Int) Nat Exn where
  view_nodes := [0, 1, 2]
  func_get_children := fun _ _ => .ok []

/-- The store with the values 5, 7, 9 at the nodes 0, 1, 2 and 0 elsewhere. -/
def store_579 : Nat → Int :=
  fun n => if n = 0 then 5 else if n = 1 then 7 else if n = 2 then 9 else 0

/-! ## A second test tree, with owned elements and several properties -/

/-- An element of the second test tree: its properties by position, some of them absent,
and the handles of the elements it owns. -/
structure Element where
  properties : List (Option Int)
  owned_elements : List Nat
  deriving DecidableEq, Repr

/-- The getter of property `k`: it raises when the element or the property is not there. -/
def prop_get (k : Nat) (s : List Element) (node : Nat) : Except Exn Int :=
  match s[node]? with
  | some e =>
    match e.properties[k]? with
    | some (some v) => .ok v
    | _ => .error (.logic_error "value not present")
  | none => .error (.logic_error "value not present")

/-- A setter of property `k` that stores the value and returns `true`. -/
def prop_set (k : Nat) (s : List Element) (node : Nat) (val : Int) :
    Except Exn (Bool × List Element) :=
  match s[node]? with
  | some e => .ok (true, s.set node { e with properties := e.properties.set k (some val) })
  | none => .ok (false, s)

/-- A setter that refuses every value, as `vertex_set` of `main.cpp` does. -/
def prop_set_refused (s : List Element) (_node : Nat) (_val : Int) :
    Except Exn (Bool × List Element) :=
  .ok (false, s)

/-- The child accessor `func_get_childs` of `main.cpp` on the second test tree. -/
def func_get_childs (s : List Element) (node : Nat) : Except Exn (List Nat) :=
  match s[node]? with
  | some e => .ok e.owned_elements
  | none => .error (.logic_error "Can't iterate over nullptr")

/-- The path to property `k`, without default. -/
def p_prop (k : Nat) : AttributePath (List Element) Nat Int Exn where
  default_value := none
  func_get := prop_get k
  func_set := prop_set k

/-- The column of property `k`, rendered by `m_int_to_str`. -/
def col_prop (k : Nat) (header : String) : Column (List Element) Nat Int Exn where
  linked_attr := p_prop k
  modifier_pipe := m_int_to_str
  _header := header

/-- The column of property `k` with the setter that refuses every value. -/
def col_prop_refused (k : Nat) (header : String) : Column (List Element) Nat Int Exn where
  linked_attr := { default_value := none, func_get := prop_get k, func_set := prop_set_refused }
  modifier_pipe := m_int_to_str
  _header := header

/-- The second test tree: element 0 owns 1 and 4, element 1 owns 2 and 3. Property 0 is 0 on
the elements 1 and 3 and 1 on the elements 2 and 4; only the elements 2 and 4 have the
properties 1 and 2. -/
def forest : List Element :=
  [ { properties := [], owned_elements := [1, 4] },
    { properties := [some 0], owned_elements := [2, 3] },
    { properties := [some 1, some 20, some 200], owned_elements := [] },
    { properties := [some 0], owned_elements := [] },
    { properties := [some 1, some 40, some 400], owned_elements := [] } ]

/-- The second test tree as a finite tree of handles. -/
def forest_tree : Hierarchy Nat :=
  .node 0 [.node 1 [.node 2 [], .node 3 []], .node 4 []]

/-- A view over the second test tree with the given selection. -/
def view_forest (view_nodes : List Nat) : SelectiveView (List Element) Nat Exn where
  view_nodes := view_nodes
  func_get_children := func_get_childs

/-- The filter `property 0 is 1` on the second test tree. -/
def f_kind : FilterAttributePath (List Element) Nat Int Exn where
  allowed_vals := [1]
  path := p_prop 0

/-- The filter `property 1 is 20 or 40` on the second test tree; the property is absent on
the elements 1 and 3 and the path has no default. -/
def f_size : FilterAttributePath (List Element) Nat Int Exn where
  allowed_vals := [20, 40]
  path := p_prop 1

/-- An algorithm over the elements 2 and 4 of the second test tree with three columns, the
second of which has the setter that refuses every value. -/
def alg_forest : BijectiveAlgorithm (List Element) Nat Exn where
  view := view_forest [2, 4]
  columns := [(col_prop 1 "A").toColumnBase, (col_prop_refused 0 "B").toColumnBase,
    (col_prop 2 "C").toColumnBase]

/-- An algorithm over the elements 2 and 4 of the second test tree with the columns of the
properties 1 and 2. -/
def alg_pair : BijectiveAlgorithm (List Element) Nat Exn where
  view := view_forest [2, 4]
  columns := [(col_prop 1 "A").toColumnBase, (col_prop 2 "C").toColumnBase]

/-! ## The drawio import: `find_node_with` and `iterate_resolve_arrows`

The elements live in an arena; a pointer to an element is its index, `none` is `nullptr`.
The recursions through `owned_elements` take a fuel that bounds their depth, and `none` as
result stands for a recursion deeper than the fuel. -/

/-- Ways in which the drawio functions end without returning. -/
inductive DrawioFailure where
  /-- The exception `std::logic_error` with its message. -/
  | logic_error (what : String)
  /-- The exception of `unordered_map::at` on a key that is not there. -/
  | out_of_range
  /-- The dereference of `nullptr` or of a pointer to no element. -/
  | null_dereference
  deriving DecidableEq, Repr

/-- The members `source` and `target` of `DI::Edge`. -/
structure Edge where
  source : Option Nat
  target : Option Nat
  deriving DecidableEq, Repr

/-- The class `DI::DiagramElement` with what `DrawioArrow` adds: the properties of its local
style, the elements it owns, and, for an arrow, the members of `DI::Edge`. The cast
`dynamic_cast<DrawioArrow*>` succeeds exactly on the elements with `arrow` set. -/
structure DiagramElement where
  properties : List (String × String)
  owned_elements : List (Option Nat)
  arrow : Option Edge
  deriving DecidableEq, Repr

/-- The call `m.at(key)`. -/
def umap_at (m : List (String × String)) (key : String) : Except DrawioFailure String :=
  match umap_find m key with
  | some v => .ok v
  | none => .error .out_of_range

/-- The call `m.erase(key)`. -/
def umap_erase (m : List (String × String)) (key : String) : List (String × String) :=
  m.filter fun entry => decide (entry.1 ≠ key)

/-- The loop of `find_node_with` over the owned elements, with the recursive call as a
parameter: the first match found below a child is returned, `nullptr` if there is none. -/
def find_loop (find : Nat → Except DrawioFailure (Option (Option Nat))) :
    List (Option Nat) → Except DrawioFailure (Option (Option Nat))
  | [] => .ok (some none)
  | none :: _ => .error .null_dereference
  | some node :: rest =>
    match find node with
    | .error e => .error e
    | .ok none => .ok none
    | .ok (some (some ret_val)) => .ok (some (some ret_val))
    | .ok (some none) => find_loop find rest

/-- The function `find_node_with`: the first element, depth first, whose property `key` is
`val`, or `nullptr`. -/
def find_node_with (s : List DiagramElement) :
    Nat → Nat → String → String → Except DrawioFailure (Option (Option Nat))
  | 0, _, _, _ => .ok none
  | fuel + 1, root, key, val =>
    match s[root]? with
    | none => .error .null_dereference
    | some element =>
      if umap_find element.properties key = some val then .ok (some (some root))
      else find_loop (fun node => find_node_with s fuel node key val) element.owned_elements

/-- The body of `if (arrow != nullptr)` in `iterate_resolve_arrows` for the arrow at `node`:
both ids are read, both are looked up from the root, `target` and `source` are set behind
the two tests, which both look at `target`, and the two keys are erased. -/
def resolve_arrow (s : List DiagramElement) (depth : Nat) (root node : Nat)
    (element : DiagramElement) (edge : Edge) :
    Except DrawioFailure (Option (List DiagramElement)) :=
  match umap_at element.properties "target" with
  | .error e => .error e
  | .ok id_target =>
    match umap_at element.properties "source" with
    | .error e => .error e
    | .ok id_source =>
      match find_node_with s depth root "id" id_target with
      | .error e => .error e
      | .ok none => .ok none
      | .ok (some target) =>
        match find_node_with s depth root "id" id_source with
        | .error e => .error e
        | .ok none => .ok none
        | .ok (some source) =>
          if target ≠ none then
            let edge := { edge with target := target }
            if target ≠ none then
              let edge := { edge with source := source }
              let properties := umap_erase (umap_erase element.properties "target") "source"
              .ok (some (s.set node
                { element with properties := properties, arrow := some edge }))
            else .error (.logic_error "Arrow source could not be resolved")
          else .error (.logic_error "Arrow sarget could not be resolved")

/-- The loop of `iterate_resolve_arrows` over the owned elements of `parent`, with the
recursive call as a parameter. The owned elements of a node are not changed by the
resolution of the node, so their number is read before it. -/
def resolve_loop (depth : Nat) (root : Nat)
    (recurse : List DiagramElement → Nat → Except DrawioFailure (Option (List DiagramElement))) :
    List (Option Nat) → List DiagramElement →
      Except DrawioFailure (Option (List DiagramElement))
  | [], s => .ok (some s)
  | none :: rest, s => resolve_loop depth root recurse rest s
  | some node :: rest, s =>
    match s[node]? with
    | none => .error .null_dereference
    | some element =>
      let resolved : Except DrawioFailure (Option (List DiagramElement)) :=
        match element.arrow with
        | none => .ok (some s)
        | some edge => resolve_arrow s depth root node element edge
      match resolved with
      | .error e => .error e
      | .ok none => .ok none
      | .ok (some s) =>
        if element.owned_elements.length > 0 then
          match recurse s node with
          | .error e => .error e
          | .ok none => .ok none
          | .ok (some s) => resolve_loop depth root recurse rest s
        else resolve_loop depth root recurse rest s

/-- The function `iterate_resolve_arrows`: the arena after the call. The code has no
`return` statement; no value of it is modelled. The fuel `depth` is the one every call of
`find_node_with` gets. -/
def iterate_resolve_arrows (depth : Nat) (root : Nat) :
    Nat → List DiagramElement → Nat → Except DrawioFailure (Option (List DiagramElement))
  | 0, _, _ => .ok none
  | fuel + 1, s, parent =>
    match s[parent]? with
    | none => .error .null_dereference
    | some element =>
      resolve_loop depth root (iterate_resolve_arrows depth root fuel) element.owned_elements s

/-- A diagram with the element `n1` and an arrow from `source` to `target`, both given by
id, owned by the root element. -/
def diagram_with_arrow (source target : String) : List DiagramElement :=
  [ { properties := [("id", "0")], owned_elements := [some 1, some 2], arrow := none },
    { properties := [("id", "n1")], owned_elements := [], arrow := none },
    { properties := [("id", "a"), ("source", source), ("target", target), ("edge", "1")],
      owned_elements := [], arrow := some { source := none, target := none } } ]

/-! ## Auxiliary lemmas -/

section Lemmas

variable {S N V I O E : Type}

theorem bind_ok_eq {ε α β : Type} (a : α) (f : α → Except ε β) :
    (Except.ok a >>= f) = f a := rfl

theorem bind_error_eq {ε α β : Type} (e : ε) (f : α → Except ε β) :
    (Except.error e >>= f) = Except.error e := rfl

theorem pure_eq_ok {ε α : Type} (a : α) : (pure a : Except ε α) = Except.ok a := rfl

/-- A run of the loop of `BijeciveModifier.is_valid` that ends with `true` has read a value
at every node, and `revert` has taken the applied value back to it. -/
theorem BijeciveModifier.is_valid_loop_round_trip [DecidableEq I] [DecidableEq O]
    (m : BijeciveModifier I O E) (path : AttributePath S N I E) (s : S) :
    ∀ (nodes : List N) (ma : List (I × O)) (mr : List (O × I)),
      m.is_valid_loop path s nodes ma mr = .ok true →
      ∀ n ∈ nodes, ∃ v out, path.get_value s n = .ok v ∧ m.apply v = .ok out ∧
        m.revert out = .ok v := by
  intro nodes
  induction nodes with
  | nil => intro _ _ _ n hn; simp at hn
  | cons node rest ih =>
    intro ma mr h n hn
    simp only [BijeciveModifier.is_valid_loop] at h
    cases hg : path.get_value s node with
    | error e => simp [hg, bind_error_eq] at h
    | ok val =>
      cases ha : m.apply val with
      | error e => simp [hg, ha, bind_ok_eq, bind_error_eq] at h
      | ok out =>
        cases hr : m.revert out with
        | error e => simp [hg, ha, hr, bind_ok_eq, bind_error_eq] at h
        | ok back =>
          simp only [hg, ha, hr, bind_ok_eq, pure_eq_ok] at h
          by_cases hne : val = back
          · rcases List.mem_cons.mp hn with rfl | hrest
            · exact ⟨val, out, hg, ha, by rw [hr, hne]⟩
            · simp only [hne, ne_eq, not_true_eq_false, if_false] at h
              split at h
              · simp at h
              · split at h
                · simp at h
                · exact ih _ _ h n hrest
          · simp [hne] at h

/-- A valid column has passed the bijectivity check of its modifier. -/
theorem Column.modifier_valid_of_is_valid [DecidableEq V] (c : Column S N V E) (s : S)
    (values : SelectiveView S N E) (h : c.is_valid s values = .ok true) :
    c.modifier_pipe.is_valid c.linked_attr s values.view_nodes = .ok true := by
  unfold Column.is_valid at h
  split at h
  · simp at h
  · exact h

/-- The first loop of `Column.is_valid` passes on nodes where `get_value` returns. -/
theorem Column.has_all_values_of_get [DecidableEq V] (c : Column S N V E) (s : S) :
    ∀ nodes : List N, (∀ n ∈ nodes, ∃ v, c.linked_attr.get_value s n = .ok v) →
      c.has_all_values s nodes = true := by
  intro nodes
  induction nodes with
  | nil => intro _; rfl
  | cons node rest ih =>
    intro h
    obtain ⟨v, hv⟩ := h node (List.mem_cons_self _ _)
    have hrest := ih fun n hn => h n (List.mem_cons_of_mem _ hn)
    simp only [Column.has_all_values, hrest]
    unfold AttributePath.get_value at hv
    unfold AttributePath.has_value
    cases hg : c.linked_attr.func_get s node with
    | ok w => simp
    | error e =>
      rw [hg] at hv
      cases hd : c.linked_attr.default_value with
      | none => rw [hd] at hv; simp at hv
      | some d => simp

/-- The loop of `build` on nodes that all render: it appends one cell per node. -/
theorem Column.build_loop_of_cells (c : Column S N V E) (s : S) :
    ∀ (nodes : List N) (acc : List String),
      (∀ n ∈ nodes, ∃ v out, c.linked_attr.get_value s n = .ok v ∧
        c.modifier_pipe.apply v = .ok out ∧ c.modifier_pipe.revert out = .ok v) →
      ∃ cells, c.build_loop s nodes acc = .ok (acc ++ cells) ∧
        List.Forall₂ (c.cell_of s) cells nodes := by
  intro nodes
  induction nodes with
  | nil => intro acc _; exact ⟨[], by simp [Column.build_loop], List.Forall₂.nil⟩
  | cons node rest ih =>
    intro acc h
    obtain ⟨v, out, hg, ha, hr⟩ := h node (List.mem_cons_self _ _)
    obtain ⟨cells, hcells, hrel⟩ := ih (acc ++ [out]) fun n hn => h n (List.mem_cons_of_mem _ hn)
    refine ⟨out :: cells, ?_, List.Forall₂.cons ⟨v, hg, ha, hr⟩ hrel⟩
    simp only [Column.build_loop, hg, ha, bind_ok_eq, hcells]
    simp

/-- A valid column builds: the header, then one cell per node of the view, each the
rendering of the node's value and reverting to it. -/
theorem Column.build_of_is_valid [DecidableEq V] (c : Column S N V E) (s : S)
    (values : SelectiveView S N E) (h : c.is_valid s values = .ok true) :
    ∃ cells, c.build s values = .ok (c.header :: cells) ∧
      List.Forall₂ (c.cell_of s) cells values.view_nodes := by
  have hm := c.modifier_valid_of_is_valid s values h
  have hrt := BijeciveModifier.is_valid_loop_round_trip c.modifier_pipe c.linked_attr s
    values.view_nodes [] [] hm
  obtain ⟨cells, hcells, hrel⟩ := c.build_loop_of_cells s values.view_nodes [c.header] hrt
  exact ⟨cells, by simpa [Column.build] using hcells, hrel⟩

/-- The expression `size() - 1` on a vector with a header is the number of its cells. -/
theorem size_sub_one_succ (n : Nat) (h : n < SIZE_MOD) : size_sub_one (n + 1) = n := by
  unfold size_sub_one SIZE_MOD at *
  omega

/-- The expression `size() - 1` on an empty vector wraps around. -/
theorem size_sub_one_zero : size_sub_one 0 = SIZE_MOD - 1 := by
  unfold size_sub_one SIZE_MOD
  rfl

/-- The loop that fills `col_originals` appends the reverted cells. -/
theorem Column.originals_loop_of_reverts (c : Column S N V E) :
    ∀ (cells : List String) (vals acc : List V),
      List.Forall₂ (fun cell v => c.modifier_pipe.revert cell = .ok v) cells vals →
      c.originals_loop cells acc = .ok (acc ++ vals) := by
  intro cells
  induction cells with
  | nil =>
    intro vals acc h
    cases h
    simp [Column.originals_loop]
  | cons cell rest ih =>
    intro vals acc h
    cases h with
    | cons hhead htail =>
      simp only [Column.originals_loop, hhead, bind_ok_eq, ih _ _ htail]
      simp

/-- The values behind the cells of a built column. -/
theorem Column.values_of_cells (c : Column S N V E) (s : S) :
    ∀ (cells : List String) (nodes : List N), List.Forall₂ (c.cell_of s) cells nodes →
      ∃ vals : List V,
        List.Forall₂ (fun cell v => c.modifier_pipe.revert cell = .ok v) cells vals ∧
        List.Forall₂ (fun v n => c.linked_attr.get_value s n = .ok v) vals nodes := by
  intro cells nodes h
  induction h with
  | nil => exact ⟨[], List.Forall₂.nil, List.Forall₂.nil⟩
  | cons hhead _ ih =>
    obtain ⟨v, hg, _, hr⟩ := hhead
    obtain ⟨vals, h1, h2⟩ := ih
    exact ⟨v :: vals, List.Forall₂.cons hr h1, List.Forall₂.cons hg h2⟩

/-- Cells that already occur in the built column pass the collision loop untouched. -/
theorem Column.collision_loop_of_present [DecidableEq V] (c : Column S N V E)
    (col_build : List String) (col_originals : List V) :
    ∀ (cells : List String) (rv : List V) (rk : List String),
      (∀ x ∈ cells, x ∈ col_build) →
      c.collision_loop col_build col_originals cells rv rk = .ok (some (rv, rk)) := by
  intro cells
  induction cells with
  | nil => intro rv rk _; rfl
  | cons x rest ih =>
    intro rv rk h
    have hx : x ∈ col_build := h x (List.mem_cons_self _ _)
    simp only [Column.collision_loop, hx, not_true_eq_false, if_false]
    exact ih rv rk fun y hy => h y (List.mem_cons_of_mem _ hy)

/-- The collision loop ends with `return false` when some cell absent from the built column
does not come back from `revert` and `apply`, or reverts to a value of `col_originals`,
provided the modifier raises on no absent cell. -/
theorem Column.collision_loop_reject [DecidableEq V] (c : Column S N V E)
    (col_build : List String) (col_originals : List V) :
    ∀ (cells : List String) (rv : List V) (rk : List String),
      (∀ x ∈ cells, x ∉ col_build →
        ∃ r a, c.modifier_pipe.revert x = .ok r ∧ c.modifier_pipe.apply r = .ok a) →
      (∃ x ∈ cells, x ∉ col_build ∧ ∃ r a, c.modifier_pipe.revert x = .ok r ∧
        c.modifier_pipe.apply r = .ok a ∧ (a ≠ x ∨ r ∈ col_originals)) →
      c.collision_loop col_build col_originals cells rv rk = .ok none := by
  intro cells
  induction cells with
  | nil => intro rv rk _ h; obtain ⟨x, hx, _⟩ := h; simp at hx
  | cons y rest ih =>
    intro rv rk hnr hbad
    have hnr' : ∀ x ∈ rest, x ∉ col_build →
        ∃ r a, c.modifier_pipe.revert x = .ok r ∧ c.modifier_pipe.apply r = .ok a :=
      fun x hx => hnr x (List.mem_cons_of_mem _ hx)
    obtain ⟨x, hx, hxnew, r, a, hr, ha, hcond⟩ := hbad
    by_cases hy : y ∈ col_build
    · simp only [Column.collision_loop, hy, not_true_eq_false, if_false]
      rcases List.mem_cons.mp hx with rfl | hxrest
      · exact absurd hy hxnew
      · exact ih rv rk hnr' ⟨x, hxrest, hxnew, r, a, hr, ha, hcond⟩
    · obtain ⟨ry, ay, hry, hay⟩ := hnr y (List.mem_cons_self _ _) hy
      simp only [Column.collision_loop, hy, not_false_eq_true, if_true, hry, hay, bind_ok_eq,
        pure_eq_ok]
      by_cases h1 : ay = y
      · by_cases h2 : ry ∈ col_originals
        · simp [h1, h2]
        · simp only [h1, ne_eq, not_true_eq_false, if_false, h2]
          rcases List.mem_cons.mp hx with rfl | hxrest
          · rw [hry] at hr
            cases hr
            rw [hay] at ha
            cases ha
            rcases hcond with hc | hc
            · exact absurd h1 hc
            · exact absurd hc h2
          · exact ih _ _ hnr' ⟨x, hxrest, hxnew, r, a, hr, ha, hcond⟩
      · simp [h1]

/-- The collision loop passes when every cell absent from the built column comes back from
`revert` and `apply` and reverts to no value of `col_originals`; it collects those cells and
their reverted values. -/
theorem Column.collision_loop_pass [DecidableEq V] (c : Column S N V E)
    (col_build : List String) (col_originals : List V) :
    ∀ (cells : List String) (rv : List V) (rk : List String),
      (∀ x ∈ cells, x ∉ col_build → ∃ r, c.modifier_pipe.revert x = .ok r ∧
        c.modifier_pipe.apply r = .ok x ∧ r ∉ col_originals) →
      ∃ (rv' : List V) (rk' : List String),
        c.collision_loop col_build col_originals cells rv rk = .ok (some (rv ++ rv', rk ++ rk')) ∧
        List.Forall₂ (fun r x => c.modifier_pipe.revert x = .ok r ∧
          c.modifier_pipe.apply r = .ok x) rv' rk' := by
  intro cells
  induction cells with
  | nil => intro rv rk _; exact ⟨[], [], by simp [Column.collision_loop], List.Forall₂.nil⟩
  | cons y rest ih =>
    intro rv rk h
    have h' : ∀ x ∈ rest, x ∉ col_build → ∃ r, c.modifier_pipe.revert x = .ok r ∧
        c.modifier_pipe.apply r = .ok x ∧ r ∉ col_originals :=
      fun x hx => h x (List.mem_cons_of_mem _ hx)
    by_cases hy : y ∈ col_build
    · simp only [Column.collision_loop, hy, not_true_eq_false, if_false]
      exact ih rv rk h'
    · obtain ⟨r, hr, ha, hno⟩ := h y (List.mem_cons_self _ _) hy
      obtain ⟨rv', rk', hloop, hrel⟩ := ih (rv ++ [r]) (rk ++ [y]) h'
      refine ⟨r :: rv', y :: rk', ?_, List.Forall₂.cons ⟨hr, ha⟩ hrel⟩
      simp only [Column.collision_loop, hy, not_false_eq_true, if_true, hr, ha, bind_ok_eq,
        pure_eq_ok, ne_eq, not_true_eq_false, if_false, hno, hloop]
      simp

/-- The call `at(i)` just behind a prefix of length `i`. -/
theorem vec_at_append {α : Type} (E : Type) :
    ∀ (pre : List α) (x : α) (xs : List α),
      (vec_at (pre ++ x :: xs) pre.length : Except (Failure E) α) = .ok x := by
  intro pre
  induction pre with
  | nil => intro x xs; rfl
  | cons p pre ih => intro x xs; simpa [vec_at] using ih x xs

/-- Pairs that `revert` and `apply` take to each other occur equally often on both sides. -/
theorem Column.count_eq_of_paired [DecidableEq V] (c : Column S N V E) (r0 : V) (x0 : String)
    (h0 : c.modifier_pipe.revert x0 = .ok r0 ∧ c.modifier_pipe.apply r0 = .ok x0) :
    ∀ (rv : List V) (rk : List String),
      List.Forall₂ (fun r x => c.modifier_pipe.revert x = .ok r ∧
        c.modifier_pipe.apply r = .ok x) rv rk →
      rv.count r0 = rk.count x0 := by
  intro rv rk h
  induction h with
  | nil => rfl
  | @cons r x rv' rk' hhead _ ih =>
    rw [List.count_cons, List.count_cons, ih]
    have hiff : r = r0 ↔ x = x0 := by
      constructor
      · intro e
        subst e
        have := hhead.2.symm.trans h0.2
        exact Except.ok.inj this
      · intro e
        subst e
        have := hhead.1.symm.trans h0.1
        exact Except.ok.inj this
    by_cases e : r = r0
    · simp [e, hiff.mp e]
    · have e' : ¬ x = x0 := fun hx => e (hiff.mpr hx)
      simp [e, e']

/-- The count loop passes on collected pairs that `revert` and `apply` take to each other. -/
theorem Column.count_loop_of_paired [DecidableEq V] (c : Column S N V E)
    (rv : List V) (rk : List String)
    (hall : List.Forall₂ (fun r x => c.modifier_pipe.revert x = .ok r ∧
      c.modifier_pipe.apply r = .ok x) rv rk) :
    ∀ (rv2 : List V) (rk2 : List String) (rv1 : List V) (rk1 : List String),
      rv = rv1 ++ rv2 → rk = rk1 ++ rk2 → rv1.length = rk1.length →
      List.Forall₂ (fun r x => c.modifier_pipe.revert x = .ok r ∧
        c.modifier_pipe.apply r = .ok x) rv2 rk2 →
      (Column.count_loop rv rk rv2.length rv1.length : Except (Failure E) Bool) = .ok true := by
  intro rv2 rk2 rv1 rk1 e1 e2 hlen h
  induction h generalizing rv1 rk1 with
  | nil => rfl
  | @cons r x rv' rk' hhead htail ih =>
    have hat1 : (vec_at rv rv1.length : Except (Failure E) V) = .ok r := by
      rw [e1]; exact vec_at_append E rv1 r rv'
    have hat2 : (vec_at rk rv1.length : Except (Failure E) String) = .ok x := by
      rw [e2, hlen]; exact vec_at_append E rk1 x rk'
    have hcount := c.count_eq_of_paired r x hhead rv rk hall
    have hnext := ih (rv1 ++ [r]) (rk1 ++ [x]) (by simp [e1]) (by simp [e2]) (by simp [hlen])
    simp only [List.length_append, List.length_singleton] at hnext
    simp only [List.length_cons, Column.count_loop, hat1, hat2, bind_ok_eq, hcount, ne_eq,
      not_true_eq_false, if_false, hnext]

/-- The flag of a list of setter calls, call by call. -/
theorem Column.calls_flag_cons {N V : Type} (call : N × V × Bool) (calls : List (N × V × Bool)) :
    Column.calls_flag (call :: calls) = (call.2.2 && Column.calls_flag calls) := by
  simp [Column.calls_flag]

/-- The loop that writes, started at row `i` behind prefixes of length `i`, makes the setter
calls of `write_calls` on the rows that are left and returns the conjunction of its flag
with their results. -/
theorem Column.write_loop_eq_write_calls [DecidableEq V] (c : Column S N V E)
    (values : SelectiveView S N E) (col_out : List String) :
    ∀ (nodes : List N) (cells : List String) (pre_n : List N) (pre_c : List String)
      (flag : Bool) (s : S),
      nodes.length = cells.length → pre_n.length = pre_c.length →
      values.view_nodes = pre_n ++ nodes → col_out = pre_c ++ cells →
      c.write_loop values col_out cells.length pre_c.length flag s =
        (c.write_calls (nodes.zip cells) s).map
          fun r => (flag && Column.calls_flag r.1, r.2) := by
  intro nodes
  induction nodes with
  | nil =>
    intro cells pre_n pre_c flag s hlen _ _ _
    cases cells with
    | nil => simp [Column.write_loop, Column.write_calls, Except.map, Column.calls_flag]
    | cons x xs => simp at hlen
  | cons node rest ih =>
    intro cells pre_n pre_c flag s hlen hpre hv hc
    cases cells with
    | nil => simp at hlen
    | cons cell cells' =>
      have hlen' : rest.length = cells'.length := by simpa using hlen
      have hat1 : (vec_at values.view_nodes pre_c.length : Except (Failure E) N) = .ok node := by
        rw [hv, ← hpre]; exact vec_at_append E pre_n node rest
      have hat2 : (vec_at col_out pre_c.length : Except (Failure E) String) = .ok cell := by
        rw [hc]; exact vec_at_append E pre_c cell cells'
      have hnext := fun (flag' : Bool) (s' : S) =>
        ih cells' (pre_n ++ [node]) (pre_c ++ [cell]) flag' s' hlen' (by simp [hpre])
          (by simp [hv]) (by simp [hc])
      simp only [List.length_append, List.length_singleton] at hnext
      have hz : (node :: rest).zip (cell :: cells') = (node, cell) :: rest.zip cells' := rfl
      rw [hz]
      simp only [List.length_cons, Column.write_loop, Column.write_calls, hat1, hat2,
        bind_ok_eq]
      cases hr : c.modifier_pipe.revert cell with
      | error e => simp [bind_error_eq, Except.map]
      | ok val_new =>
        cases hg : c.linked_attr.get_value s node with
        | error e => simp [bind_ok_eq, bind_error_eq, Except.map]
        | ok val_old =>
          simp only [bind_ok_eq]
          by_cases hne : val_old = val_new
          · simp only [hne, ne_eq, not_true_eq_false, if_false]
            exact hnext flag s
          · simp only [hne, ne_eq, not_false_eq_true, if_true]
            cases hs : c.linked_attr.set_value s node val_new with
            | error e => simp [bind_error_eq, Except.map]
            | ok r =>
              cases hw : c.write_calls (rest.zip cells') r.2 with
              | error e => simp only [bind_ok_eq, hnext, hw, bind_error_eq, Except.map]
              | ok later =>
                simp only [bind_ok_eq, hnext, hw, pure_eq_ok, Except.map,
                  Column.calls_flag_cons, Bool.and_assoc]

/-- Rows whose cell reverts to the value stored at their node make no setter call. -/
theorem Column.write_calls_of_unchanged [DecidableEq V] (c : Column S N V E) (s : S) :
    ∀ rows : List (N × String),
      (∀ row ∈ rows, ∃ v, c.linked_attr.get_value s row.1 = .ok v ∧
        c.modifier_pipe.revert row.2 = .ok v) →
      c.write_calls rows s = .ok ([], s) := by
  intro rows
  induction rows with
  | nil => intro _; rfl
  | cons row rest ih =>
    intro h
    obtain ⟨v, hg, hr⟩ := h row (List.mem_cons_self _ _)
    obtain ⟨node, cell⟩ := row
    simp only [Column.write_calls, hr, hg, bind_ok_eq, ne_eq, not_true_eq_false, if_false]
    exact ih fun row' hrow' => h row' (List.mem_cons_of_mem _ hrow')

/-- The checks of `admission` that are left for a valid column and a column of matching size:
the collision loop against the built cells and their values, then the count loop. -/
theorem Column.admission_of_valid [DecidableEq V] (c : Column S N V E) (s : S)
    (values : SelectiveView S N E) (hd : String) (cells built : List String) (vals : List V)
    (hvalid : c.is_valid s values = .ok true)
    (hsize : values.view_nodes.length = size_sub_one (hd :: cells).length)
    (hbuild : c.build s values = .ok (c.header :: built))
    (hvals : List.Forall₂ (fun cell v => c.modifier_pipe.revert cell = .ok v) built vals) :
    c.admission s values (hd :: cells) =
      (c.collision_loop built vals cells [] [] >>= fun reached =>
        match reached with
        | none => pure none
        | some (reached_vals, reached_val_keys) =>
          Column.count_loop reached_vals reached_val_keys reached_vals.length 0 >>=
            fun counts_ok => if !counts_ok then pure none else pure (some cells)) := by
  have horig := c.originals_loop_of_reverts built vals [] hvals
  simp only [List.nil_append] at horig
  simp only [Column.admission, hvalid, bind_ok_eq, Bool.not_true, Bool.false_eq_true, if_false,
    hsize, ne_eq, not_true_eq_false, hbuild, erase_begin, horig]

/-- An admitted column is the header followed by the admitted cells, and the size check
has passed. -/
theorem Column.admission_some [DecidableEq V] (c : Column S N V E) (s : S)
    (values : SelectiveView S N E) (col_out cells : List String)
    (h : c.admission s values col_out = .ok (some cells)) :
    (∃ hd, col_out = hd :: cells) ∧ c.is_valid s values = .ok true ∧
      values.view_nodes.length = size_sub_one col_out.length := by
  unfold Column.admission at h
  cases hv : c.is_valid s values with
  | error e => simp [hv, bind_error_eq] at h
  | ok valid =>
    cases valid with
    | false => simp [hv, bind_ok_eq, pure_eq_ok] at h
    | true =>
      simp only [hv, bind_ok_eq, Bool.not_true, Bool.false_eq_true, if_false] at h
      by_cases hs : values.view_nodes.length = size_sub_one col_out.length
      · refine ⟨?_, rfl, hs⟩
        simp only [hs, ne_eq, not_true_eq_false, if_false] at h
        cases hb : c.build s values with
        | error e => simp [hb, bind_error_eq] at h
        | ok col_build =>
          simp only [hb, bind_ok_eq] at h
          cases he : (erase_begin col_build : Except (Failure E) (List String)) with
          | error e => simp [he, bind_error_eq] at h
          | ok col_build' =>
            simp only [he, bind_ok_eq] at h
            cases ho : c.originals_loop col_build' [] with
            | error e => simp [ho, bind_error_eq] at h
            | ok col_originals =>
              simp only [ho, bind_ok_eq] at h
              cases col_out with
              | nil => simp [erase_begin, bind_error_eq] at h
              | cons hd tl =>
                simp only [erase_begin, bind_ok_eq] at h
                cases hc : c.collision_loop col_build' col_originals tl [] [] with
                | error e => simp [hc, bind_error_eq] at h
                | ok reached =>
                  simp only [hc, bind_ok_eq] at h
                  cases reached with
                  | none => simp [pure_eq_ok] at h
                  | some pair =>
                    obtain ⟨rv, rk⟩ := pair
                    simp only at h
                    cases hk : (Column.count_loop rv rk rv.length 0 :
                        Except (Failure E) Bool) with
                    | error e => simp [hk, bind_error_eq] at h
                    | ok counts_ok =>
                      cases counts_ok with
                      | false => simp [hk, bind_ok_eq, pure_eq_ok] at h
                      | true =>
                        simp only [hk, bind_ok_eq, pure_eq_ok, Bool.not_true,
                          Bool.false_eq_true, if_false] at h
                        cases h
                        exact ⟨hd, rfl⟩
      · simp [hs, pure_eq_ok] at h

/-- After admission the method `sync_with` makes the setter calls of `write_calls` on the rows
of the view and returns the conjunction of their results. -/
theorem Column.sync_with_of_admission [DecidableEq V] (c : Column S N V E) (s : S)
    (values : SelectiveView S N E) (col_out cells : List String)
    (hadm : c.admission s values col_out = .ok (some cells))
    (hlen : values.view_nodes.length = cells.length) :
    c.sync_with s values col_out =
      (c.write_calls (values.view_nodes.zip cells) s).map
        fun r => (Column.calls_flag r.1, r.2) := by
  have h := c.write_loop_eq_write_calls values cells values.view_nodes cells [] [] true s hlen
    rfl rfl rfl
  simp only [List.length_nil, Bool.true_and] at h
  simp only [Column.sync_with, hadm, bind_ok_eq, h]

/-- A rejected admission ends `sync_with` with `false` and the tree as it was. -/
theorem Column.sync_with_of_reject [DecidableEq V] (c : Column S N V E) (s : S)
    (values : SelectiveView S N E) (col_out : List String)
    (hadm : c.admission s values col_out = .ok none) :
    c.sync_with s values col_out = .ok (false, s) := by
  simp only [Column.sync_with, hadm, bind_ok_eq, pure_eq_ok]

/-- Related lists: every member on the left has a partner on the right. -/
theorem forall₂_mem_left {α β : Type} {R : α → β → Prop} {l₁ : List α} {l₂ : List β}
    (h : List.Forall₂ R l₁ l₂) : ∀ a ∈ l₁, ∃ b ∈ l₂, R a b := by
  induction h with
  | nil => intro a ha; simp at ha
  | @cons x y xs ys hxy _ ih =>
    intro a ha
    rcases List.mem_cons.mp ha with rfl | hmem
    · exact ⟨y, List.mem_cons_self _ _, hxy⟩
    · obtain ⟨b, hb, hab⟩ := ih a hmem
      exact ⟨b, List.mem_cons_of_mem _ hb, hab⟩

/-- Related lists: every member on the right has a partner on the left. -/
theorem forall₂_mem_right {α β : Type} {R : α → β → Prop} {l₁ : List α} {l₂ : List β}
    (h : List.Forall₂ R l₁ l₂) : ∀ b ∈ l₂, ∃ a ∈ l₁, R a b := by
  induction h with
  | nil => intro b hb; simp at hb
  | @cons x y xs ys hxy _ ih =>
    intro b hb
    rcases List.mem_cons.mp hb with rfl | hmem
    · exact ⟨x, List.mem_cons_self _ _, hxy⟩
    · obtain ⟨a, ha, hab⟩ := ih b hmem
      exact ⟨a, List.mem_cons_of_mem _ ha, hab⟩

/-- When every setter call returns `true`, so does the conjunction over the calls made. -/
theorem Column.calls_flag_of_setter_true [DecidableEq V] (c : Column S N V E)
    (hset : ∀ (s0 : S) (n : N) (v : V) (r : Bool × S),
      c.linked_attr.func_set s0 n v = .ok r → r.1 = true) :
    ∀ (rows : List (N × String)) (s : S) (r : List (N × V × Bool) × S),
      c.write_calls rows s = .ok r → Column.calls_flag r.1 = true := by
  intro rows
  induction rows with
  | nil =>
    intro s r h
    simp only [Column.write_calls] at h
    cases h
    rfl
  | cons row rest ih =>
    intro s r h
    obtain ⟨node, cell⟩ := row
    simp only [Column.write_calls] at h
    cases hr : c.modifier_pipe.revert cell with
    | error e => simp [hr, bind_error_eq] at h
    | ok val_new =>
      cases hg : c.linked_attr.get_value s node with
      | error e => simp [hr, hg, bind_ok_eq, bind_error_eq] at h
      | ok val_old =>
        simp only [hr, hg, bind_ok_eq] at h
        by_cases hne : val_old = val_new
        · simp only [hne, ne_eq, not_true_eq_false, if_false] at h
          exact ih s r h
        · simp only [hne, ne_eq, not_false_eq_true, if_true] at h
          cases hs : c.linked_attr.set_value s node val_new with
          | error e => simp [hs, bind_error_eq] at h
          | ok res =>
            simp only [hs, bind_ok_eq] at h
            cases hw : c.write_calls rest res.2 with
            | error e => simp [hw, bind_error_eq] at h
            | ok later =>
              simp only [hw, bind_ok_eq, pure_eq_ok] at h
              cases h
              have hres : res.1 = true := by
                unfold AttributePath.set_value at hs
                cases hf : c.linked_attr.func_set s node val_new with
                | error e => simp [hf] at hs
                | ok res' =>
                  simp only [hf] at hs
                  cases hs
                  exact hset s node val_new _ hf
              simp [Column.calls_flag_cons, hres, ih res.2 later hw]

/-- Related lists that are split behind prefixes of equal length are related part by part. -/
theorem forall₂_append_split {α β : Type} {R : α → β → Prop} :
    ∀ (a1 : List α) (b1 : List β) (a2 : List α) (b2 : List β), a1.length = b1.length →
      List.Forall₂ R (a1 ++ a2) (b1 ++ b2) → List.Forall₂ R a1 b1 ∧ List.Forall₂ R a2 b2 := by
  intro a1
  induction a1 with
  | nil =>
    intro b1 a2 b2 hlen h
    cases b1 with
    | nil => exact ⟨List.Forall₂.nil, h⟩
    | cons y ys => simp at hlen
  | cons x xs ih =>
    intro b1 a2 b2 hlen h
    cases b1 with
    | nil => simp at hlen
    | cons y ys =>
      simp only [List.cons_append] at h
      cases h with
      | cons hxy hrest =>
        obtain ⟨h1, h2⟩ := ih ys a2 b2 (by simpa using hlen) hrest
        exact ⟨List.Forall₂.cons hxy h1, h2⟩

/-- Leading rows whose cell reverts to the value stored at their node make no setter call:
the write phase goes on with the rows behind them, on the same tree. -/
theorem Column.write_calls_append_of_unchanged [DecidableEq V] (c : Column S N V E) (s : S)
    (rows : List (N × String)) :
    ∀ (nodes : List N) (cells : List String),
      List.Forall₂ (fun n cell => ∃ v, c.linked_attr.get_value s n = .ok v ∧
        c.modifier_pipe.revert cell = .ok v) nodes cells →
      c.write_calls (nodes.zip cells ++ rows) s = c.write_calls rows s := by
  intro nodes cells h
  induction h with
  | nil => rfl
  | @cons n cell nodes' cells' hhead _ ih =>
    obtain ⟨v, hg, hr⟩ := hhead
    have hz : (n :: nodes').zip (cell :: cells') ++ rows =
        (n, cell) :: (nodes'.zip cells' ++ rows) := rfl
    rw [hz]
    simp only [Column.write_calls, hr, hg, bind_ok_eq, ne_eq, not_true_eq_false, if_false]
    exact ih

/-- Built cells, read with their nodes first: each cell reverts to the value stored. -/
theorem Column.unchanged_of_cells (c : Column S N V E) (s : S) (cells : List String)
    (nodes : List N) (h : List.Forall₂ (c.cell_of s) cells nodes) :
    List.Forall₂ (fun n cell => ∃ v, c.linked_attr.get_value s n = .ok v ∧
      c.modifier_pipe.revert cell = .ok v) nodes cells := by
  induction h with
  | nil => exact List.Forall₂.nil
  | cons hhead _ ih =>
    obtain ⟨v, hg, _, hr⟩ := hhead
    exact List.Forall₂.cons ⟨v, hg, hr⟩ ih

/-- A valid column admits every edited column of matching size whose cells all occur among
the built cells. -/
theorem Column.admission_of_present [DecidableEq V] (c : Column S N V E) (s : S)
    (values : SelectiveView S N E) (hd : String) (cells built : List String)
    (hview : values.view_nodes.length < SIZE_MOD)
    (hvalid : c.is_valid s values = .ok true)
    (hlen : cells.length = values.view_nodes.length)
    (hbuild : c.build s values = .ok (c.header :: built))
    (hpresent : ∀ x ∈ cells, x ∈ built) :
    c.admission s values (hd :: cells) = .ok (some cells) := by
  obtain ⟨built', hb', hrel⟩ := c.build_of_is_valid s values hvalid
  have hsame : built' = built := by
    have := hb'.symm.trans hbuild
    simpa using this
  subst hsame
  obtain ⟨vals, hvals, _⟩ := c.values_of_cells s built' values.view_nodes hrel
  have hsize : values.view_nodes.length = size_sub_one (hd :: cells).length := by
    rw [List.length_cons, size_sub_one_succ _ (hlen ▸ hview), hlen]
  rw [c.admission_of_valid s values hd cells built' vals hvalid hsize hbuild hvals,
    c.collision_loop_of_present built' vals cells [] [] hpresent]
  rfl

/-- One row changed to a string that is new, comes back from `revert` and `apply` and
reverts to no value stored in the view: the column is admitted, and the write phase makes
one setter call, at the node of that row. -/
theorem Column.sync_with_single_new_cell [DecidableEq V] (c : Column S N V E) (s s' : S)
    (values : SelectiveView S N E) (hd : String) (pre post : List N) (node : N)
    (cpre cpost : List String) (old snew : String) (r : V) (b : Bool)
    (hnodes : values.view_nodes = pre ++ node :: post)
    (hview : values.view_nodes.length < SIZE_MOD)
    (hvalid : c.is_valid s values = .ok true)
    (hbuild : c.build s values = .ok (c.header :: (cpre ++ old :: cpost)))
    (hpre : cpre.length = pre.length)
    (hnew : snew ∉ cpre ++ old :: cpost)
    (hr : c.modifier_pipe.revert snew = .ok r)
    (ha : c.modifier_pipe.apply r = .ok snew)
    (hfresh : ∀ n ∈ values.view_nodes, c.linked_attr.get_value s n ≠ .ok r)
    (hset : c.linked_attr.func_set s node r = .ok (b, s'))
    (hframe : ∀ n ∈ post, c.linked_attr.get_value s' n = c.linked_attr.get_value s n) :
    c.write_calls (values.view_nodes.zip (cpre ++ snew :: cpost)) s =
        .ok ([(node, r, b)], s') ∧
      c.sync_with s values (hd :: (cpre ++ snew :: cpost)) = .ok (b, s') := by
  obtain ⟨built', hb', hrel⟩ := c.build_of_is_valid s values hvalid
  have hsame : built' = cpre ++ old :: cpost := by
    have := hb'.symm.trans hbuild
    simpa using this
  subst hsame
  obtain ⟨vals, hvals, hget⟩ := c.values_of_cells s _ values.view_nodes hrel
  have hlen : (cpre ++ snew :: cpost).length = values.view_nodes.length := by
    have := hrel.length_eq
    simpa using this
  have hsize : values.view_nodes.length =
      size_sub_one (hd :: (cpre ++ snew :: cpost)).length := by
    rw [List.length_cons, size_sub_one_succ _ (hlen ▸ hview), hlen]
  have hrnew : r ∉ vals := by
    intro hmem
    obtain ⟨n, hn, hgn⟩ := forall₂_mem_left hget r hmem
    exact hfresh n hn hgn
  have hpass : ∀ x ∈ cpre ++ snew :: cpost, x ∉ cpre ++ old :: cpost →
      ∃ r', c.modifier_pipe.revert x = .ok r' ∧ c.modifier_pipe.apply r' = .ok x ∧
        r' ∉ vals := by
    intro x hx hxnew
    have hx' : x ∈ cpre ∨ x = snew ∨ x ∈ cpost := by simpa using hx
    rcases hx' with h | h | h
    · exact absurd (List.mem_append_left _ h) hxnew
    · subst h; exact ⟨r, hr, ha, hrnew⟩
    · exact absurd (List.mem_append_right _ (List.mem_cons_of_mem _ h)) hxnew
  obtain ⟨rv', rk', hloop, hpaired⟩ :=
    c.collision_loop_pass (cpre ++ old :: cpost) vals (cpre ++ snew :: cpost) [] [] hpass
  simp only [List.nil_append] at hloop
  have hcount := c.count_loop_of_paired (E := E) rv' rk' hpaired rv' rk' [] [] rfl rfl rfl
    hpaired
  simp only [List.length_nil] at hcount
  have hadm : c.admission s values (hd :: (cpre ++ snew :: cpost)) =
      .ok (some (cpre ++ snew :: cpost)) := by
    rw [c.admission_of_valid s values hd _ _ vals hvalid hsize hbuild hvals, hloop]
    simp only [bind_ok_eq, hcount, Bool.not_true, Bool.false_eq_true, if_false, pure_eq_ok]
  rw [hnodes] at hrel
  obtain ⟨hrel1, hrel2⟩ := forall₂_append_split cpre pre (old :: cpost) (node :: post) hpre hrel
  cases hrel2 with
  | cons hold hrel3 =>
    have hcalls : c.write_calls (values.view_nodes.zip (cpre ++ snew :: cpost)) s =
        .ok ([(node, r, b)], s') := by
      rw [hnodes, List.zip_append hpre.symm]
      have hz : (node :: post).zip (snew :: cpost) = (node, snew) :: post.zip cpost := rfl
      rw [hz, c.write_calls_append_of_unchanged s _ pre cpre (c.unchanged_of_cells s _ _ hrel1)]
      obtain ⟨vold, hgold, _, _⟩ := hold
      have hne : vold ≠ r := by
        intro e
        subst e
        exact hfresh node (by rw [hnodes]; simp) hgold
      have hsv : c.linked_attr.set_value s node r = .ok (b, s') := by
        simp [AttributePath.set_value, hset]
      have hlater : c.write_calls (post.zip cpost) s' = .ok ([], s') := by
        have hun := c.unchanged_of_cells s _ _ hrel3
        have hun' : List.Forall₂ (fun n cell => ∃ v, c.linked_attr.get_value s' n = .ok v ∧
            c.modifier_pipe.revert cell = .ok v) post cpost := by
          have hmem : List.Forall₂ (fun n (_ : String) => n ∈ post) post cpost := by
            refine List.forall₂_iff_zip.mpr ⟨hun.length_eq, ?_⟩
            intro a b' hab
            exact (List.of_mem_zip hab).1
          refine List.Forall₂.mp ?_ hmem hun
          intro n cell hn hcell
          obtain ⟨v, hg, hrv⟩ := hcell
          exact ⟨v, by rw [hframe n hn]; exact hg, hrv⟩
        have := c.write_calls_append_of_unchanged s' [] post cpost hun'
        simpa [Column.write_calls] using this
      simp only [Column.write_calls, hr, hgold, bind_ok_eq, ne_eq, hne, not_false_eq_true,
        if_true, hsv, hlater, pure_eq_ok]
    refine ⟨hcalls, ?_⟩
    rw [c.sync_with_of_admission s values _ _ hadm hlen.symm, hcalls]
    simp [Except.map, Column.calls_flag]

/-- A valid column that is handed back the column it builds passes every check and makes no
setter call. -/
theorem Column.sync_with_built [DecidableEq V] (c : Column S N V E) (s : S)
    (values : SelectiveView S N E) (hview : values.view_nodes.length < SIZE_MOD)
    (hvalid : c.is_valid s values = .ok true) :
    ∃ cells, c.build s values = .ok (c.header :: cells) ∧
      cells.length = values.view_nodes.length ∧
      c.write_calls (values.view_nodes.zip cells) s = .ok ([], s) ∧
      c.sync_with s values (c.header :: cells) = .ok (true, s) := by
  obtain ⟨cells, hb, hrel⟩ := c.build_of_is_valid s values hvalid
  have hlen : cells.length = values.view_nodes.length := hrel.length_eq
  have hadm := c.admission_of_present s values c.header cells cells hview hvalid hlen hb
    fun x hx => hx
  have hcalls : c.write_calls (values.view_nodes.zip cells) s = .ok ([], s) := by
    have := c.write_calls_append_of_unchanged s [] values.view_nodes cells
      (c.unchanged_of_cells s _ _ hrel)
    simpa [Column.write_calls] using this
  refine ⟨cells, hb, hlen, hcalls, ?_⟩
  rw [c.sync_with_of_admission s values _ cells hadm hlen.symm, hcalls]
  rfl

/-- The loop of `BijectiveAlgorithm.is_valid` ends with `true` only if every column is
valid. -/
theorem BijectiveAlgorithm.is_valid_loop_true (a : BijectiveAlgorithm S N E) (s : S) :
    ∀ cols : List (ColumnBase S N E), a.is_valid_loop s cols = .ok true →
      ∀ cb ∈ cols, cb.is_valid s a.view = .ok true := by
  intro cols
  induction cols with
  | nil => intro _ cb hcb; simp at hcb
  | cons col rest ih =>
    intro h cb hcb
    simp only [BijectiveAlgorithm.is_valid_loop] at h
    cases hv : col.is_valid s a.view with
    | error e => simp [hv, bind_error_eq] at h
    | ok v =>
      cases v with
      | false => simp [hv, bind_ok_eq, pure_eq_ok] at h
      | true =>
        simp only [hv, bind_ok_eq, Bool.not_true, Bool.false_eq_true, if_false] at h
        rcases List.mem_cons.mp hcb with rfl | hrest
        · exact hv
        · exact ih h cb hrest

/-- The loop of `BijectiveAlgorithm.apply` appends what each column builds. -/
theorem BijectiveAlgorithm.apply_loop_of_builds (a : BijectiveAlgorithm S N E) (s : S) :
    ∀ (cols : List (ColumnBase S N E)) (built : List (List String))
      (table : List (List String)),
      List.Forall₂ (fun (cb : ColumnBase S N E) col => cb.build s a.view = .ok col)
        cols built →
      a.apply_loop s cols table = .ok (table ++ built) := by
  intro cols built table h
  induction h generalizing table with
  | nil => simp [BijectiveAlgorithm.apply_loop]
  | @cons cb col cols' built' hhead _ ih =>
    simp only [BijectiveAlgorithm.apply_loop, hhead, bind_ok_eq, ih]
    simp

/-- The size loop of `BijectiveAlgorithm.sync_with` passes when every supplied column has
as many cells as the view has nodes. -/
theorem BijectiveAlgorithm.sizes_loop_true (view_size : Nat) :
    ∀ table : List (List String),
      (∀ col ∈ table, size_sub_one col.length = view_size) →
      BijectiveAlgorithm.sizes_loop view_size table = true := by
  intro table
  induction table with
  | nil => intro _; rfl
  | cons col rest ih =>
    intro h
    simp only [BijectiveAlgorithm.sizes_loop, h col (List.mem_cons_self _ _), ne_eq,
      not_true_eq_false, if_false]
    exact ih fun c hc => h c (List.mem_cons_of_mem _ hc)

/-- The sync loop of `BijectiveAlgorithm.sync_with` over columns that each return `true`
and the tree as it was: the flag and the tree stay as they are. -/
theorem BijectiveAlgorithm.sync_loop_noop (a : BijectiveAlgorithm S N E) (s : S)
    (table : List (List String)) :
    ∀ (cols : List (ColumnBase S N E)) (tcols : List (List String))
      (pre : List (ColumnBase S N E)) (tpre : List (List String)) (flag : Bool),
      a.columns = pre ++ cols → table = tpre ++ tcols → pre.length = tpre.length →
      List.Forall₂ (fun (cb : ColumnBase S N E) col =>
        cb.sync_with s a.view col = .ok (true, s)) cols tcols →
      a.sync_loop table tcols.length tpre.length flag s = .ok (flag, s) := by
  intro cols tcols pre tpre flag hc ht hlen h
  induction h generalizing pre tpre flag with
  | nil => rfl
  | @cons cb col cols' tcols' hhead _ ih =>
    have hat1 : (vec_at a.columns tpre.length : Except (Failure E) (ColumnBase S N E)) =
        .ok cb := by
      rw [hc, ← hlen]; exact vec_at_append E pre cb cols'
    have hat2 : (vec_at table tpre.length : Except (Failure E) (List String)) = .ok col := by
      rw [ht]; exact vec_at_append E tpre col tcols'
    have hnext := ih (pre ++ [cb]) (tpre ++ [col]) flag (by simp [hc]) (by simp [ht])
      (by simp [hlen])
    simp only [List.length_append, List.length_singleton] at hnext
    simp only [List.length_cons, BijectiveAlgorithm.sync_loop, hat1, hat2, hhead, bind_ok_eq,
      Bool.and_true, hnext]

/-- Lists related element by element, from a partner for every member of the left list. -/
theorem forall₂_of_forall_exists {α β : Type} {R : α → β → Prop} :
    ∀ l : List α, (∀ a ∈ l, ∃ b, R a b) → ∃ l' : List β, List.Forall₂ R l l' := by
  intro l
  induction l with
  | nil => intro _; exact ⟨[], List.Forall₂.nil⟩
  | cons x xs ih =>
    intro h
    obtain ⟨b, hb⟩ := h x (List.mem_cons_self _ _)
    obtain ⟨l', hl'⟩ := ih fun a ha => h a (List.mem_cons_of_mem _ ha)
    exact ⟨b :: l', List.Forall₂.cons hb hl'⟩

/-- The size loop of `BijectiveAlgorithm.sync_with` ends with `return false` when some
supplied column has a cell count other than the size of the view. -/
theorem BijectiveAlgorithm.sizes_loop_false (view_size : Nat) :
    ∀ table : List (List String),
      (∃ col ∈ table, size_sub_one col.length ≠ view_size) →
      BijectiveAlgorithm.sizes_loop view_size table = false := by
  intro table
  induction table with
  | nil => intro h; obtain ⟨col, hcol, _⟩ := h; simp at hcol
  | cons c rest ih =>
    intro h
    by_cases hc : size_sub_one c.length = view_size
    · simp only [BijectiveAlgorithm.sizes_loop, hc, ne_eq, not_true_eq_false, if_false]
      obtain ⟨col, hcol, hne⟩ := h
      rcases List.mem_cons.mp hcol with rfl | hrest
      · exact absurd hc hne
      · exact ih ⟨col, hrest, hne⟩
    · simp [BijectiveAlgorithm.sizes_loop, hc]

/-- The conjunction of the booleans the columns returned, column by column. -/
theorem all_id_cons (b : Bool) (bs : List Bool) :
    (b :: bs).all id = (b && bs.all id) := by
  simp

/-- The sync loop, started at column `i` behind prefixes of length `i`, syncs the columns
that are left as `sync_columns` does and returns the conjunction of its flag with what
they return. -/
theorem BijectiveAlgorithm.sync_loop_eq_sync_columns (a : BijectiveAlgorithm S N E)
    (table : List (List String)) :
    ∀ (cols : List (ColumnBase S N E)) (tcols : List (List String))
      (pre : List (ColumnBase S N E)) (tpre : List (List String)) (flag : Bool) (s : S),
      cols.length = tcols.length → pre.length = tpre.length →
      a.columns = pre ++ cols → table = tpre ++ tcols →
      a.sync_loop table tcols.length tpre.length flag s =
        (a.sync_columns (cols.zip tcols) s).map fun r => (flag && r.1.all id, r.2) := by
  intro cols
  induction cols with
  | nil =>
    intro tcols pre tpre flag s hlen _ _ _
    cases tcols with
    | nil => simp [BijectiveAlgorithm.sync_loop, BijectiveAlgorithm.sync_columns, Except.map]
    | cons x xs => simp at hlen
  | cons cb rest ih =>
    intro tcols pre tpre flag s hlen hpre hc ht
    cases tcols with
    | nil => simp at hlen
    | cons col tcols' =>
      have hlen' : rest.length = tcols'.length := by simpa using hlen
      have hat1 : (vec_at a.columns tpre.length : Except (Failure E) (ColumnBase S N E)) =
          .ok cb := by
        rw [hc, ← hpre]; exact vec_at_append E pre cb rest
      have hat2 : (vec_at table tpre.length : Except (Failure E) (List String)) = .ok col := by
        rw [ht]; exact vec_at_append E tpre col tcols'
      have hnext := fun (flag' : Bool) (s' : S) =>
        ih tcols' (pre ++ [cb]) (tpre ++ [col]) flag' s' hlen' (by simp [hpre])
          (by simp [hc]) (by simp [ht])
      simp only [List.length_append, List.length_singleton] at hnext
      have hz : (cb :: rest).zip (col :: tcols') = (cb, col) :: rest.zip tcols' := rfl
      rw [hz]
      simp only [List.length_cons, BijectiveAlgorithm.sync_loop,
        BijectiveAlgorithm.sync_columns, hat1, hat2, bind_ok_eq]
      cases hs : cb.sync_with s a.view col with
      | error e => simp only [bind_error_eq, Except.map]
      | ok r =>
        cases hw : a.sync_columns (rest.zip tcols') r.2 with
        | error e => simp only [bind_ok_eq, hnext, hw, bind_error_eq, Except.map]
        | ok later =>
          simp only [bind_ok_eq, hnext, hw, pure_eq_ok, Except.map, all_id_cons,
            Bool.and_assoc]

/-- The method `Column.admission` does not look at the first entry of the edited column. -/
theorem Column.admission_header [DecidableEq V] (c : Column S N V E) (s : S)
    (values : SelectiveView S N E) (h1 h2 : String) (cells : List String) :
    c.admission s values (h1 :: cells) = c.admission s values (h2 :: cells) := by
  simp only [Column.admission, List.length_cons, erase_begin]

/-- The method `Column.sync_with` returns the same on two edited columns of equal length
that agree behind their first entry. -/
theorem Column.sync_with_header [DecidableEq V] (c : Column S N V E) (s : S)
    (values : SelectiveView S N E) (c1 c2 : List String)
    (h : c1.length = c2.length ∧ c1.tail = c2.tail) :
    c.sync_with s values c1 = c.sync_with s values c2 := by
  obtain ⟨hlen, htail⟩ := h
  cases c1 with
  | nil =>
    cases c2 with
    | nil => rfl
    | cons y ys => simp at hlen
  | cons x xs =>
    cases c2 with
    | nil => simp at hlen
    | cons y ys =>
      simp only [List.tail_cons] at htail
      subst htail
      simp only [Column.sync_with, c.admission_header s values x y xs]

/-- The column syncs of the specification return the same on two tables whose columns
agree outside their first entries, when no registered column looks at that entry. -/
theorem BijectiveAlgorithm.sync_columns_congr (a : BijectiveAlgorithm S N E) :
    ∀ (cols : List (ColumnBase S N E)) (t1 t2 : List (List String)),
      List.Forall₂ (fun c1 c2 : List String => c1.length = c2.length ∧ c1.tail = c2.tail)
        t1 t2 →
      (∀ cb ∈ cols, ∀ (s : S) (c1 c2 : List String),
        c1.length = c2.length ∧ c1.tail = c2.tail →
        cb.sync_with s a.view c1 = cb.sync_with s a.view c2) →
      ∀ s : S, a.sync_columns (cols.zip t1) s = a.sync_columns (cols.zip t2) s := by
  intro cols
  induction cols with
  | nil => intro t1 t2 _ _ s; rfl
  | cons cb rest ih =>
    intro t1 t2 hrel hcols s
    cases hrel with
    | nil => rfl
    | @cons c1 c2 t1' t2' hhead htail =>
      have hz1 : (cb :: rest).zip (c1 :: t1') = (cb, c1) :: rest.zip t1' := rfl
      have hz2 : (cb :: rest).zip (c2 :: t2') = (cb, c2) :: rest.zip t2' := rfl
      rw [hz1, hz2]
      simp only [BijectiveAlgorithm.sync_columns,
        hcols cb (List.mem_cons_self _ _) s c1 c2 hhead]
      have hrest := ih t1' t2' htail fun cb' hcb' => hcols cb' (List.mem_cons_of_mem _ hcb')
      simp only [hrest]

/-- The size loop returns the same on two tables whose columns have equal lengths. -/
theorem BijectiveAlgorithm.sizes_loop_congr (view_size : Nat) :
    ∀ (t1 t2 : List (List String)),
      List.Forall₂ (fun c1 c2 : List String => c1.length = c2.length ∧ c1.tail = c2.tail)
        t1 t2 →
      BijectiveAlgorithm.sizes_loop view_size t1 = BijectiveAlgorithm.sizes_loop view_size t2 := by
  intro t1 t2 h
  induction h with
  | nil => rfl
  | @cons c1 c2 t1' t2' hhead _ ih =>
    simp only [BijectiveAlgorithm.sizes_loop, hhead.1, ih]

/-- A run of the loop of `build` that returns has appended one cell per node, the rendering
of the value read there. -/
theorem Column.build_loop_cells_of_ok (c : Column S N V E) (s : S) :
    ∀ (nodes : List N) (acc col : List String), c.build_loop s nodes acc = .ok col →
      ∃ cells, col = acc ++ cells ∧
        List.Forall₂ (fun cell n => ∃ v, c.linked_attr.get_value s n = .ok v ∧
          c.modifier_pipe.apply v = .ok cell) cells nodes := by
  intro nodes
  induction nodes with
  | nil =>
    intro acc col h
    simp only [Column.build_loop] at h
    cases h
    exact ⟨[], by simp, List.Forall₂.nil⟩
  | cons node rest ih =>
    intro acc col h
    simp only [Column.build_loop] at h
    cases hg : c.linked_attr.get_value s node with
    | error e => simp [hg, bind_error_eq] at h
    | ok val =>
      cases ha : c.modifier_pipe.apply val with
      | error e => simp [hg, ha, bind_ok_eq, bind_error_eq] at h
      | ok cell =>
        simp only [hg, ha, bind_ok_eq] at h
        obtain ⟨cells, hcol, hrel⟩ := ih _ _ h
        exact ⟨cell :: cells, by simp [hcol], List.Forall₂.cons ⟨val, hg, ha⟩ hrel⟩

/-- The loop of `build` on nodes that all render appends their cells. -/
theorem Column.build_loop_of_rendered (c : Column S N V E) (s : S) :
    ∀ (nodes : List N) (acc cells : List String),
      List.Forall₂ (fun cell n => ∃ v, c.linked_attr.get_value s n = .ok v ∧
        c.modifier_pipe.apply v = .ok cell) cells nodes →
      c.build_loop s nodes acc = .ok (acc ++ cells) := by
  intro nodes acc cells h
  induction h generalizing acc with
  | nil => simp [Column.build_loop]
  | @cons cell node cells' nodes' hhead _ ih =>
    obtain ⟨v, hg, ha⟩ := hhead
    simp only [Column.build_loop, hg, ha, bind_ok_eq, ih]
    simp

/-- The loop of `build` fails when `get_value` fails at some node. -/
theorem Column.build_loop_fails (c : Column S N V E) (s : S) :
    ∀ (nodes : List N) (acc : List String),
      (∃ n ∈ nodes, ∃ f, c.linked_attr.get_value s n = .error f) →
      ∃ f, c.build_loop s nodes acc = .error f := by
  intro nodes
  induction nodes with
  | nil => intro acc h; obtain ⟨n, hn, _⟩ := h; simp at hn
  | cons node rest ih =>
    intro acc h
    cases hg : c.linked_attr.get_value s node with
    | error e => exact ⟨e, by simp only [Column.build_loop, hg, bind_error_eq]⟩
    | ok val =>
      cases ha : c.modifier_pipe.apply val with
      | error e => exact ⟨e, by simp only [Column.build_loop, hg, ha, bind_ok_eq, bind_error_eq]⟩
      | ok cell =>
        simp only [Column.build_loop, hg, ha, bind_ok_eq]
        obtain ⟨n, hn, f, hf⟩ := h
        rcases List.mem_cons.mp hn with rfl | hrest
        · rw [hg] at hf; cases hf
        · exact ih _ ⟨n, hrest, f, hf⟩

/-- The method `get_value` fails exactly when the getter raises and no default is set. -/
theorem AttributePath.get_value_error_iff (p : AttributePath S N V E) (s : S) (node : N) :
    (∃ f, p.get_value s node = .error f) ↔
      (∃ e, p.func_get s node = .error e) ∧ p.default_value = none := by
  unfold AttributePath.get_value
  cases hg : p.func_get s node with
  | ok v => simp
  | error e =>
    cases hd : p.default_value with
    | none => simp
    | some d => simp

/-- The method `has_value` returns `false` exactly when the getter raises. -/
theorem AttributePath.has_value_false_iff (p : AttributePath S N V E) (s : S) (node : N) :
    p.has_value s node = false ↔ ∃ e, p.func_get s node = .error e := by
  unfold AttributePath.has_value
  cases hg : p.func_get s node with
  | ok v => simp
  | error e => simp

/-- The first loop of `Column.is_valid` ends with `false` exactly when some node has no
value while no default is set. -/
theorem Column.has_all_values_false_iff (c : Column S N V E) (s : S) :
    ∀ nodes : List N, c.has_all_values s nodes = false ↔
      ∃ n ∈ nodes, (∃ e, c.linked_attr.func_get s n = .error e) ∧
        c.linked_attr.default_value = none := by
  intro nodes
  induction nodes with
  | nil => simp [Column.has_all_values]
  | cons node rest ih =>
    simp only [Column.has_all_values, List.mem_cons, exists_eq_or_imp,
      ← c.linked_attr.has_value_false_iff s node]
    cases hv : c.linked_attr.has_value s node with
    | true => simp [ih, AttributePath.has_value_false_iff]
    | false =>
      cases hd : c.linked_attr.default_value with
      | none => simp
      | some d => simp [ih, AttributePath.has_value_false_iff, hd]

/-- Behind the first loop of `Column.is_valid`, the method `get_value` returns at every
node. -/
theorem Column.get_value_of_has_all_values (c : Column S N V E) (s : S) (nodes : List N)
    (h : c.has_all_values s nodes = true) :
    ∀ n ∈ nodes, ∃ v, c.linked_attr.get_value s n = .ok v := by
  intro n hn
  cases hg : c.linked_attr.get_value s n with
  | ok v => exact ⟨v, rfl⟩
  | error f =>
    exfalso
    have hmiss := (c.linked_attr.get_value_error_iff s n).mp ⟨f, hg⟩
    have hfalse := (c.has_all_values_false_iff s nodes).mpr ⟨n, hn, hmiss⟩
    rw [h] at hfalse
    cases hfalse

/-- The loop of `BijeciveModifier.is_valid` does not end with a failure of the getter on
nodes where `get_value` returns. -/
theorem BijeciveModifier.is_valid_loop_no_getter_failure [DecidableEq I] [DecidableEq O]
    (m : BijeciveModifier I O E) (path : AttributePath S N I E) (s : S) :
    ∀ (nodes : List N) (ma : List (I × O)) (mr : List (O × I)),
      (∀ n ∈ nodes, ∃ v, path.get_value s n = .ok v) →
      ∀ e, m.is_valid_loop path s nodes ma mr ≠ .error (.getter e) := by
  intro nodes
  induction nodes with
  | nil => intro ma mr _ e h; simp [BijeciveModifier.is_valid_loop] at h
  | cons node rest ih =>
    intro ma mr hall e h
    obtain ⟨val, hg⟩ := hall node (List.mem_cons_self _ _)
    have hrest : ∀ n ∈ rest, ∃ v, path.get_value s n = .ok v :=
      fun n hn => hall n (List.mem_cons_of_mem _ hn)
    simp only [BijeciveModifier.is_valid_loop, hg, bind_ok_eq] at h
    cases hfa : m.func_apply val with
    | error e' => simp [BijeciveModifier.apply, hfa, bind_error_eq] at h
    | ok out =>
      have ha : m.apply val = .ok out := by simp [BijeciveModifier.apply, hfa]
      simp only [ha, bind_ok_eq] at h
      cases hfr : m.func_revert out with
      | error e' => simp [BijeciveModifier.revert, hfr, bind_error_eq] at h
      | ok back =>
        have hr : m.revert out = .ok back := by simp [BijeciveModifier.revert, hfr]
        simp only [hr, bind_ok_eq, pure_eq_ok] at h
        split at h
        · cases h
        · split at h
          · cases h
          · split at h
            · cases h
            · exact ih _ _ hrest e h

mutual
/-- With fuel for every level of a tree the child accessor describes, `node_traverser`
appends the proper descendants of its root in pre-order. -/
theorem SelectiveView.node_traverser_of_described (v : SelectiveView S N E) (s : S) :
    ∀ (t : Hierarchy N) (fuel : Nat) (nodes : List N),
      Hierarchy.described (v.func_get_children s) t → t.height ≤ fuel →
      v.node_traverser s fuel t.label nodes = .ok (some (nodes ++ t.descendants))
  | .node x ts, 0, nodes, _, hfuel => by
    simp [Hierarchy.height] at hfuel
  | .node x ts, fuel + 1, nodes, hd, hfuel => by
    simp only [Hierarchy.described] at hd
    simp only [Hierarchy.height, Nat.add_le_add_iff_right] at hfuel
    simp only [Hierarchy.label, SelectiveView.node_traverser, hd.1, Hierarchy.descendants]
    exact SelectiveView.traverse_children_of_described v s ts fuel nodes hd.2 hfuel
/-- With fuel for every level of the trees of a list, the loop over their roots appends
their nodes in pre-order. -/
theorem SelectiveView.traverse_children_of_described (v : SelectiveView S N E) (s : S) :
    ∀ (ts : List (Hierarchy N)) (fuel : Nat) (nodes : List N),
      Hierarchy.described_list (v.func_get_children s) ts → Hierarchy.height_list ts ≤ fuel →
      SelectiveView.traverse_children (v.node_traverser s fuel) (ts.map Hierarchy.label) nodes =
        .ok (some (nodes ++ Hierarchy.preorder_list ts))
  | [], fuel, nodes, _, _ => by
    simp [SelectiveView.traverse_children, Hierarchy.preorder_list]
  | t :: ts, fuel, nodes, hd, hfuel => by
    simp only [Hierarchy.described_list] at hd
    simp only [Hierarchy.height_list, Nat.max_le] at hfuel
    have h1 := SelectiveView.node_traverser_of_described v s t fuel (nodes ++ [t.label])
      hd.1 hfuel.1
    have h2 := SelectiveView.traverse_children_of_described v s ts fuel
      (nodes ++ [t.label] ++ t.descendants) hd.2 hfuel.2
    have hpre : t.preorder = t.label :: t.descendants := by
      cases t with
      | node x us => simp [Hierarchy.preorder, Hierarchy.label, Hierarchy.descendants]
    simp only [List.map_cons, SelectiveView.traverse_children, h1, bind_ok_eq, h2,
      Hierarchy.preorder_list, hpre]
    simp
end

/-- The inner loop over the filters, on filters that all return: the flag is the
conjunction of what they return. -/
theorem SelectiveView.filters_flag_of_returns (s : S) (node : N)
    (accepts : FilterBase S N E → Bool) :
    ∀ filters : List (FilterBase S N E),
      (∀ f ∈ filters, f.is_within s node = .ok (accepts f)) →
      SelectiveView.filters_flag s filters node = .ok (filters.all accepts) := by
  intro filters
  induction filters with
  | nil => intro _; rfl
  | cons f rest ih =>
    intro h
    have hf := h f (List.mem_cons_self _ _)
    have hrest := ih fun g hg => h g (List.mem_cons_of_mem _ hg)
    simp only [SelectiveView.filters_flag, hf, bind_ok_eq, pure_eq_ok, hrest, List.all_cons]
    cases hacc : accepts f <;> simp

/-- The inner loop over the filters stops at the first filter that returns `false`: the
filters behind it are not evaluated. -/
theorem SelectiveView.filters_flag_of_first_false (s : S) (node : N) :
    ∀ (pre : List (FilterBase S N E)) (f : FilterBase S N E) (post : List (FilterBase S N E)),
      (∀ g ∈ pre, g.is_within s node = .ok true) → f.is_within s node = .ok false →
      SelectiveView.filters_flag s (pre ++ f :: post) node = .ok false := by
  intro pre
  induction pre with
  | nil =>
    intro f post _ hf
    simp [SelectiveView.filters_flag, hf, bind_ok_eq, pure_eq_ok]
  | cons g rest ih =>
    intro f post hpre hf
    have hg := hpre g (List.mem_cons_self _ _)
    simp only [List.cons_append, SelectiveView.filters_flag, hg, bind_ok_eq, Bool.not_true,
      Bool.false_eq_true, if_false]
    exact ih f post (fun g' hg' => hpre g' (List.mem_cons_of_mem _ hg')) hf

/-- The outer loop over the collected nodes keeps, in order, the nodes whose flag is
`true`. -/
theorem SelectiveView.filter_loop_of_flags (s : S) (filters : List (FilterBase S N E))
    (keep : N → Bool) :
    ∀ (nodes view_nodes : List N),
      (∀ n ∈ nodes, SelectiveView.filters_flag s filters n = .ok (keep n)) →
      SelectiveView.filter_loop s filters nodes view_nodes =
        .ok (view_nodes ++ nodes.filter keep) := by
  intro nodes
  induction nodes with
  | nil => intro view_nodes _; simp [SelectiveView.filter_loop]
  | cons node rest ih =>
    intro view_nodes h
    have hn := h node (List.mem_cons_self _ _)
    have hrest := fun vn => ih vn fun n hn' => h n (List.mem_cons_of_mem _ hn')
    simp only [SelectiveView.filter_loop, hn, bind_ok_eq]
    cases hk : keep node with
    | true => simp [hrest, List.filter_cons, hk]
    | false => simp [hrest, List.filter_cons, hk]

/-- The method `apply_filter` on a tree the child accessor describes, when the flag of
every proper descendant of the root is known. -/
theorem SelectiveView.apply_filter_of_flags (v : SelectiveView S N E) (s : S) (fuel : Nat)
    (filters : List (FilterBase S N E)) (t : Hierarchy N) (keep : N → Bool)
    (hd : Hierarchy.described (v.func_get_children s) t) (hfuel : t.height ≤ fuel)
    (hflags : ∀ n ∈ t.descendants, SelectiveView.filters_flag s filters n = .ok (keep n)) :
    v.apply_filter s fuel t.label filters =
      .ok (some { v with view_nodes := t.descendants.filter keep }) := by
  have ht := v.node_traverser_of_described s t fuel [] hd hfuel
  simp only [List.nil_append] at ht
  have hf := SelectiveView.filter_loop_of_flags s filters keep t.descendants [] hflags
  simp only [List.nil_append] at hf
  simp only [SelectiveView.apply_filter, ht, bind_ok_eq, hf, pure_eq_ok]

/-- The loop of `FilterAttributePath.is_within` over the allowed values is membership. -/
theorem FilterAttributePath.allowed_loop_eq [DecidableEq V] (val : V) :
    ∀ allowed : List V, FilterAttributePath.allowed_loop val allowed = decide (val ∈ allowed) := by
  intro allowed
  induction allowed with
  | nil => simp [FilterAttributePath.allowed_loop]
  | cons x rest ih =>
    by_cases h : val = x
    · simp [FilterAttributePath.allowed_loop, h]
    · simp [FilterAttributePath.allowed_loop, h, ih]

/-- A value found in the map is stored there under the key. -/
theorem umap_find_mem {K W : Type} [DecidableEq K] :
    ∀ (m : List (K × W)) (k : K) (w : W), umap_find m k = some w → (k, w) ∈ m := by
  intro m
  induction m with
  | nil => intro k w h; simp [umap_find] at h
  | cons entry rest ih =>
    intro k w h
    obtain ⟨k', w'⟩ := entry
    simp only [umap_find] at h
    by_cases hk : k' = k
    · simp only [hk, if_true, Option.some.injEq] at h
      subst hk h
      exact List.mem_cons_self _ _
    · simp only [hk, if_false] at h
      exact List.mem_cons_of_mem _ (ih k w h)

/-- An entry of the map after `insert` was there before or is the inserted pair. -/
theorem umap_insert_mem {K W : Type} [DecidableEq K] (m : List (K × W)) (k : K) (w : W)
    (entry : K × W) (h : entry ∈ umap_insert m k w) : entry ∈ m ∨ entry = (k, w) := by
  unfold umap_insert at h
  cases hf : umap_find m k with
  | some w' =>
    rw [hf] at h
    exact Or.inl h
  | none =>
    rw [hf] at h
    rcases List.mem_cons.mp h with h' | h'
    · exact Or.inr h'
    · exact Or.inl h'

/-- No conflict with a map all of whose entries are values of a function, at a pair that is
a value of that function too. -/
theorem umap_conflict_of_function {K W ε : Type} [DecidableEq K] [DecidableEq W]
    (f : K → Except ε W) (m : List (K × W)) (hm : ∀ entry ∈ m, f entry.1 = .ok entry.2)
    (k : K) (w : W) (hk : f k = .ok w) : umap_conflict m k w = false := by
  unfold umap_conflict
  cases hf : umap_find m k with
  | none => rfl
  | some second =>
    have := hm (k, second) (umap_find_mem m k second hf)
    have hsame : second = w := Except.ok.inj (this.symm.trans hk)
    simp [hsame]

/-- The loop of `BijeciveModifier.is_valid`, started with maps that hold values of `apply`
and of `revert`, ends with `true` when every node comes back from `apply` and `revert`: the
two map checks do not end it. -/
theorem BijeciveModifier.is_valid_loop_of_round_trip [DecidableEq I] [DecidableEq O]
    (m : BijeciveModifier I O E) (path : AttributePath S N I E) (s : S) :
    ∀ (nodes : List N) (ma : List (I × O)) (mr : List (O × I)),
      (∀ entry ∈ ma, m.apply entry.1 = .ok entry.2) →
      (∀ entry ∈ mr, m.revert entry.1 = .ok entry.2) →
      (∀ n ∈ nodes, ∃ v out, path.get_value s n = .ok v ∧ m.apply v = .ok out ∧
        m.revert out = .ok v) →
      m.is_valid_loop path s nodes ma mr = .ok true := by
  intro nodes
  induction nodes with
  | nil => intro _ _ _ _ _; rfl
  | cons node rest ih =>
    intro ma mr hma hmr h
    obtain ⟨v, out, hg, ha, hr⟩ := h node (List.mem_cons_self _ _)
    have hc1 := umap_conflict_of_function m.apply ma hma v out ha
    have hc2 := umap_conflict_of_function m.revert mr hmr out v hr
    have hma' : ∀ entry ∈ umap_insert ma v out, m.apply entry.1 = .ok entry.2 := by
      intro entry he
      rcases umap_insert_mem ma v out entry he with h' | h'
      · exact hma entry h'
      · rw [h']; exact ha
    have hmr' : ∀ entry ∈ umap_insert mr out v, m.revert entry.1 = .ok entry.2 := by
      intro entry he
      rcases umap_insert_mem mr out v entry he with h' | h'
      · exact hmr entry h'
      · rw [h']; exact hr
    simp only [BijeciveModifier.is_valid_loop, hg, ha, hr, bind_ok_eq, ne_eq,
      not_true_eq_false, if_false, hc1, hc2, Bool.false_eq_true]
    exact ih _ _ hma' hmr' fun n hn => h n (List.mem_cons_of_mem _ hn)

/-- The loop of `BijeciveModifier.is_valid`, started with maps that hold values of `apply`
and of `revert`, ends with `false` when nothing raises and some node does not come back
from `apply` and `revert`. -/
theorem BijeciveModifier.is_valid_loop_of_broken [DecidableEq I] [DecidableEq O]
    (m : BijeciveModifier I O E) (path : AttributePath S N I E) (s : S) :
    ∀ (nodes : List N) (ma : List (I × O)) (mr : List (O × I)),
      (∀ entry ∈ ma, m.apply entry.1 = .ok entry.2) →
      (∀ entry ∈ mr, m.revert entry.1 = .ok entry.2) →
      (∀ n ∈ nodes, ∃ v out back, path.get_value s n = .ok v ∧ m.apply v = .ok out ∧
        m.revert out = .ok back) →
      (∃ n ∈ nodes, ∃ v out back, path.get_value s n = .ok v ∧ m.apply v = .ok out ∧
        m.revert out = .ok back ∧ back ≠ v) →
      m.is_valid_loop path s nodes ma mr = .ok false := by
  intro nodes
  induction nodes with
  | nil => intro _ _ _ _ _ h; obtain ⟨n, hn, _⟩ := h; simp at hn
  | cons node rest ih =>
    intro ma mr hma hmr hall hbroken
    obtain ⟨v, out, back, hg, ha, hr⟩ := hall node (List.mem_cons_self _ _)
    by_cases hvb : v = back
    · subst hvb
      have hc1 := umap_conflict_of_function m.apply ma hma v out ha
      have hc2 := umap_conflict_of_function m.revert mr hmr out v hr
      have hma' : ∀ entry ∈ umap_insert ma v out, m.apply entry.1 = .ok entry.2 := by
        intro entry he
        rcases umap_insert_mem ma v out entry he with h' | h'
        · exact hma entry h'
        · rw [h']; exact ha
      have hmr' : ∀ entry ∈ umap_insert mr out v, m.revert entry.1 = .ok entry.2 := by
        intro entry he
        rcases umap_insert_mem mr out v entry he with h' | h'
        · exact hmr entry h'
        · rw [h']; exact hr
      simp only [BijeciveModifier.is_valid_loop, hg, ha, hr, bind_ok_eq, ne_eq,
        not_true_eq_false, if_false, hc1, hc2, Bool.false_eq_true]
      apply ih _ _ hma' hmr' fun n hn => hall n (List.mem_cons_of_mem _ hn)
      obtain ⟨n, hn, w, o, b, hgw, hao, hrb, hne⟩ := hbroken
      rcases List.mem_cons.mp hn with rfl | hrest
      · exfalso
        have e1 : w = v := Except.ok.inj (hgw.symm.trans hg)
        subst e1
        have e2 : o = out := Except.ok.inj (hao.symm.trans ha)
        subst e2
        exact hne (Except.ok.inj (hrb.symm.trans hr))
      · exact ⟨n, hrest, w, o, b, hgw, hao, hrb, hne⟩
    · simp only [BijeciveModifier.is_valid_loop, hg, ha, hr, bind_ok_eq, ne_eq, hvb,
        not_false_eq_true, if_true, pure_eq_ok]

/-- For a built column whose cells render and revert, a string that is absent from it and
comes back from `revert` and `apply` reverts to the value of no built cell. -/
theorem Column.alias_free (c : Column S N V E) (s : S) (built : List String) (nodes : List N)
    (vals : List V) (hrel : List.Forall₂ (c.cell_of s) built nodes)
    (hvals : List.Forall₂ (fun cell v => c.modifier_pipe.revert cell = .ok v) built vals)
    (x : String) (r : V) (hnew : x ∉ built) (hr : c.modifier_pipe.revert x = .ok r)
    (ha : c.modifier_pipe.apply r = .ok x) :
    (∀ cell ∈ built, c.modifier_pipe.revert cell ≠ .ok r) ∧ r ∉ vals := by
  have hcells : ∀ cell ∈ built, c.modifier_pipe.revert cell ≠ .ok r := by
    intro cell hcell hcr
    obtain ⟨n, _, v, _, hav, hrv⟩ := forall₂_mem_left hrel cell hcell
    have hv : v = r := Except.ok.inj (hrv.symm.trans hcr)
    subst hv
    have hx : cell = x := Except.ok.inj (hav.symm.trans ha)
    subst hx
    exact hnew hcell
  refine ⟨hcells, ?_⟩
  intro hmem
  obtain ⟨cell, hcell, hcr⟩ := forall₂_mem_right hvals r hmem
  exact hcells cell hcell hcr

/-- Where no absent cell that comes back from `revert` and `apply` reverts to a value of
`col_originals`, the collision loop and its variant without that test agree. -/
theorem Column.collision_loop_eq_without_alias [DecidableEq V] (c : Column S N V E)
    (col_build : List String) (col_originals : List V)
    (hfree : ∀ (x : String) (r : V), x ∉ col_build → c.modifier_pipe.revert x = .ok r →
      c.modifier_pipe.apply r = .ok x → r ∉ col_originals) :
    ∀ (cells : List String) (rv : List V) (rk : List String),
      c.collision_loop col_build col_originals cells rv rk =
        c.collision_loop_without_alias col_build cells rv rk := by
  intro cells
  induction cells with
  | nil => intro rv rk; rfl
  | cons y rest ih =>
    intro rv rk
    by_cases hy : y ∈ col_build
    · simp only [Column.collision_loop, Column.collision_loop_without_alias, hy,
        not_true_eq_false, if_false]
      exact ih rv rk
    · cases hr : c.modifier_pipe.revert y with
      | error e =>
        simp only [Column.collision_loop, Column.collision_loop_without_alias, hy,
          not_false_eq_true, if_true, hr, bind_error_eq]
      | ok r =>
        cases ha : c.modifier_pipe.apply r with
        | error e =>
          simp only [Column.collision_loop, Column.collision_loop_without_alias, hy,
            not_false_eq_true, if_true, hr, ha, bind_ok_eq, bind_error_eq]
        | ok a =>
          by_cases hay : a = y
          · subst hay
            have hno := hfree a r hy hr ha
            simp only [Column.collision_loop, Column.collision_loop_without_alias, hy,
              not_false_eq_true, if_true, hr, ha, bind_ok_eq, ne_eq, not_true_eq_false,
              if_false, hno]
            exact ih _ _
          · simp only [Column.collision_loop, Column.collision_loop_without_alias, hy,
              not_false_eq_true, if_true, hr, ha, bind_ok_eq, ne_eq, hay]

/-- The checks of `sync_with` and their variant without the alias test agree. -/
theorem Column.admission_eq_without_alias [DecidableEq V] (c : Column S N V E) (s : S)
    (values : SelectiveView S N E) (col_out : List String) :
    c.admission s values col_out = c.admission_without_alias s values col_out := by
  cases hv : c.is_valid s values with
  | error e => simp only [Column.admission, Column.admission_without_alias, hv, bind_error_eq]
  | ok valid =>
    cases valid with
    | false =>
      simp only [Column.admission, Column.admission_without_alias, hv, bind_ok_eq,
        Bool.not_false, if_true]
    | true =>
      obtain ⟨built, hb, hrel⟩ := c.build_of_is_valid s values hv
      obtain ⟨vals, hvals, _⟩ := c.values_of_cells s built values.view_nodes hrel
      have horig := c.originals_loop_of_reverts built vals [] hvals
      simp only [List.nil_append] at horig
      have hfree : ∀ (x : String) (r : V), x ∉ built → c.modifier_pipe.revert x = .ok r →
          c.modifier_pipe.apply r = .ok x → r ∉ vals :=
        fun x r hnew hr ha => (c.alias_free s built values.view_nodes vals hrel hvals x r hnew
          hr ha).2
      cases col_out with
      | nil =>
        simp only [Column.admission, Column.admission_without_alias, hv, bind_ok_eq, hb,
          erase_begin, horig, bind_error_eq]
      | cons hd cells =>
        simp only [Column.admission, Column.admission_without_alias, hv, bind_ok_eq, hb,
          erase_begin, horig, c.collision_loop_eq_without_alias built vals hfree]

/-- What the collision loop has collected when it passes: pairs that `revert` and `apply`
take to each other, one for each cell absent from the built column. -/
theorem Column.collision_loop_some_paired [DecidableEq V] (c : Column S N V E)
    (col_build : List String) (col_originals : List V) :
    ∀ (cells : List String) (rv0 : List V) (rk0 : List String) (rv : List V)
      (rk : List String),
      c.collision_loop col_build col_originals cells rv0 rk0 = .ok (some (rv, rk)) →
      (∃ (rv' : List V) (rk' : List String), rv = rv0 ++ rv' ∧ rk = rk0 ++ rk' ∧
        List.Forall₂ (fun r x => c.modifier_pipe.revert x = .ok r ∧
          c.modifier_pipe.apply r = .ok x) rv' rk') ∧
      ∀ x ∈ cells, x ∉ col_build →
        ∃ r, c.modifier_pipe.revert x = .ok r ∧ c.modifier_pipe.apply r = .ok x := by
  intro cells
  induction cells with
  | nil =>
    intro rv0 rk0 rv rk h
    simp only [Column.collision_loop, Except.ok.injEq, Option.some.injEq, Prod.mk.injEq] at h
    obtain ⟨h1, h2⟩ := h
    subst h1 h2
    exact ⟨⟨[], [], by simp, by simp, List.Forall₂.nil⟩, by intro x hx; simp at hx⟩
  | cons y rest ih =>
    intro rv0 rk0 rv rk h
    by_cases hy : y ∈ col_build
    · simp only [Column.collision_loop, hy, not_true_eq_false, if_false] at h
      obtain ⟨hp, hcells⟩ := ih rv0 rk0 rv rk h
      refine ⟨hp, ?_⟩
      intro x hx hxnew
      rcases List.mem_cons.mp hx with rfl | hrest
      · exact absurd hy hxnew
      · exact hcells x hrest hxnew
    · simp only [Column.collision_loop, hy, not_false_eq_true, if_true] at h
      cases hr : c.modifier_pipe.revert y with
      | error e => simp [hr, bind_error_eq] at h
      | ok r =>
        cases ha : c.modifier_pipe.apply r with
        | error e => simp [hr, ha, bind_ok_eq, bind_error_eq] at h
        | ok a =>
          simp only [hr, ha, bind_ok_eq, pure_eq_ok] at h
          by_cases hay : a = y
          · subst hay
            simp only [ne_eq, not_true_eq_false, if_false] at h
            by_cases hmem : r ∈ col_originals
            · simp [hmem] at h
            · simp only [hmem, if_false] at h
              obtain ⟨⟨rv', rk', e1, e2, hrel⟩, hcells⟩ := ih _ _ rv rk h
              refine ⟨⟨r :: rv', a :: rk', by simp [e1], by simp [e2],
                List.Forall₂.cons ⟨hr, ha⟩ hrel⟩, ?_⟩
              intro x hx hxnew
              rcases List.mem_cons.mp hx with rfl | hrest
              · exact ⟨r, hr, ha⟩
              · exact hcells x hrest hxnew
          · simp [hay] at h

/-- A valid column, an edited column of matching size whose cells all occur among the built
cells, and setter calls that never return `false`: `sync_with` does not return `false`. -/
theorem Column.sync_with_true_of_present [DecidableEq V] (c : Column S N V E) (s : S)
    (values : SelectiveView S N E) (hd : String) (cells built : List String)
    (hview : values.view_nodes.length < SIZE_MOD)
    (hvalid : c.is_valid s values = .ok true)
    (hlen : cells.length = values.view_nodes.length)
    (hbuild : c.build s values = .ok (c.header :: built))
    (hpresent : ∀ x ∈ cells, x ∈ built)
    (hset : ∀ (s0 : S) (n : N) (v : V) (r : Bool × S),
      c.linked_attr.func_set s0 n v = .ok r → r.1 = true) :
    ∀ r : Bool × S, c.sync_with s values (hd :: cells) = .ok r → r.1 = true := by
  intro r h
  have hadm := c.admission_of_present s values hd cells built hview hvalid hlen hbuild hpresent
  rw [c.sync_with_of_admission s values _ cells hadm hlen.symm] at h
  cases hw : c.write_calls (values.view_nodes.zip cells) s with
  | error e => simp [hw, Except.map] at h
  | ok res =>
    have hflag := c.calls_flag_of_setter_true hset _ s res hw
    simp only [hw, Except.map, Except.ok.injEq] at h
    rw [← h]
    exact hflag

/-- The cells of the column a valid column builds are as many as the nodes of the view. -/
theorem Column.built_length [DecidableEq V] (c : Column S N V E) (s : S)
    (values : SelectiveView S N E) (built : List String)
    (hvalid : c.is_valid s values = .ok true)
    (hbuild : c.build s values = .ok (c.header :: built)) :
    built.length = values.view_nodes.length := by
  obtain ⟨built', hb', hrel⟩ := c.build_of_is_valid s values hvalid
  have hsame : built' = built := by
    have := hb'.symm.trans hbuild
    simpa using this
  subst hsame
  exact hrel.length_eq

/-- The method `get_value` reads the tree through the getter only. -/
theorem AttributePath.get_value_congr (p : AttributePath S N V E) (s1 s2 : S) (node : N)
    (h : p.func_get s1 node = p.func_get s2 node) :
    p.get_value s1 node = p.get_value s2 node := by
  simp only [AttributePath.get_value, h]

/-- Every cell of an admitted edit comes back from `revert` and `apply`. -/
theorem Column.admission_round_trips [DecidableEq V] (c : Column S N V E) (s : S)
    (values : SelectiveView S N E) (hd : String) (cells : List String)
    (hvalid : c.is_valid s values = .ok true)
    (hadm : c.admission s values (hd :: cells) = .ok (some cells)) :
    ∀ x ∈ cells, ∃ r, c.modifier_pipe.revert x = .ok r ∧ c.modifier_pipe.apply r = .ok x := by
  obtain ⟨built, hb, hrel⟩ := c.build_of_is_valid s values hvalid
  obtain ⟨vals, hvals, _⟩ := c.values_of_cells s built values.view_nodes hrel
  obtain ⟨_, _, hsize⟩ := c.admission_some s values (hd :: cells) cells hadm
  rw [c.admission_of_valid s values hd cells built vals hvalid hsize hb hvals] at hadm
  intro x hx
  by_cases hxb : x ∈ built
  · obtain ⟨n, _, v, _, hav, hrv⟩ := forall₂_mem_left hrel x hxb
    exact ⟨v, hrv, hav⟩
  · cases hc : c.collision_loop built vals cells [] [] with
    | error e => simp [hc, bind_error_eq] at hadm
    | ok reached =>
      cases reached with
      | none => simp [hc, bind_ok_eq, pure_eq_ok] at hadm
      | some pair =>
        obtain ⟨rv, rk⟩ := pair
        exact (c.collision_loop_some_paired built vals cells [] [] rv rk hc).2 x hx hxb

/-- With a setter that stores the value at the node and leaves the other nodes, the write
phase over rows with pairwise distinct nodes leaves at every row's node the value its cell
reverts to, and leaves the nodes outside the rows as they were. -/
theorem Column.write_calls_stored [DecidableEq V] (c : Column S N V E)
    (hlawful : ∀ (s0 : S) (n : N) (v : V) (r : Bool × S),
      c.linked_attr.func_set s0 n v = .ok r →
      c.linked_attr.func_get r.2 n = .ok v ∧
        ∀ m, m ≠ n → c.linked_attr.func_get r.2 m = c.linked_attr.func_get s0 m) :
    ∀ (rows : List (N × String)) (s : S) (res : List (N × V × Bool) × S),
      (rows.map Prod.fst).Nodup → c.write_calls rows s = .ok res →
      (∀ row ∈ rows, ∃ r, c.modifier_pipe.revert row.2 = .ok r ∧
        c.linked_attr.get_value res.2 row.1 = .ok r) ∧
      (∀ m, m ∉ rows.map Prod.fst →
        c.linked_attr.func_get res.2 m = c.linked_attr.func_get s m) := by
  intro rows
  induction rows with
  | nil =>
    intro s res _ h
    simp only [Column.write_calls, Except.ok.injEq] at h
    subst h
    exact ⟨by intro row hrow; simp at hrow, fun _ _ => rfl⟩
  | cons row rest ih =>
    intro s res hnd h
    obtain ⟨n, cell⟩ := row
    simp only [List.map_cons, List.nodup_cons] at hnd
    obtain ⟨hn, hnd'⟩ := hnd
    simp only [Column.write_calls] at h
    cases hr : c.modifier_pipe.revert cell with
    | error e => simp [hr, bind_error_eq] at h
    | ok val_new =>
      cases hg : c.linked_attr.get_value s n with
      | error e => simp [hr, hg, bind_ok_eq, bind_error_eq] at h
      | ok val_old =>
        simp only [hr, hg, bind_ok_eq] at h
        by_cases hne : val_old = val_new
        · simp only [hne, ne_eq, not_true_eq_false, if_false] at h
          obtain ⟨hstored, hframe⟩ := ih s res hnd' h
          refine ⟨?_, ?_⟩
          · intro row hrow
            rcases List.mem_cons.mp hrow with rfl | hrest
            · refine ⟨val_new, hr, ?_⟩
              rw [c.linked_attr.get_value_congr res.2 s n (hframe n hn), hg, hne]
            · exact hstored row hrest
          · intro m hm
            simp only [List.map_cons, List.mem_cons, not_or] at hm
            exact hframe m hm.2
        · simp only [hne, ne_eq, not_false_eq_true, if_true] at h
          cases hf : c.linked_attr.func_set s n val_new with
          | error e => simp [AttributePath.set_value, hf, bind_error_eq] at h
          | ok r1 =>
            have hsv : c.linked_attr.set_value s n val_new = .ok r1 := by
              simp only [AttributePath.set_value, hf]
            obtain ⟨hget1, hframe1⟩ := hlawful s n val_new r1 hf
            simp only [hsv, bind_ok_eq] at h
            cases hw : c.write_calls rest r1.2 with
            | error e => simp [hw, bind_error_eq] at h
            | ok later =>
              simp only [hw, bind_ok_eq, pure_eq_ok, Except.ok.injEq] at h
              subst h
              obtain ⟨hstored, hframe⟩ := ih r1.2 later hnd' hw
              refine ⟨?_, ?_⟩
              · intro row hrow
                rcases List.mem_cons.mp hrow with rfl | hrest
                · refine ⟨val_new, hr, ?_⟩
                  have hfg : c.linked_attr.func_get later.2 n = .ok val_new :=
                    (hframe n hn).trans hget1
                  simp only [AttributePath.get_value, hfg]
                · exact hstored row hrest
              · intro m hm
                simp only [List.map_cons, List.mem_cons, not_or] at hm
                exact (hframe m hm.2).trans (hframe1 m hm.1)

/-- After a sync that returned `true`, over pairwise distinct nodes and with a setter that
stores the value at the node and leaves the other nodes, every edited cell is the rendering
of the value now read at the node of its row and reverts to it. -/
theorem Column.cells_stored_after_sync [DecidableEq V] (c : Column S N V E) (s s' : S)
    (values : SelectiveView S N E) (hd : String) (cells : List String)
    (hcells : cells.length < SIZE_MOD)
    (hnodup : values.view_nodes.Nodup)
    (hlawful : ∀ (s0 : S) (n : N) (v : V) (r : Bool × S),
      c.linked_attr.func_set s0 n v = .ok r →
      c.linked_attr.func_get r.2 n = .ok v ∧
        ∀ m, m ≠ n → c.linked_attr.func_get r.2 m = c.linked_attr.func_get s0 m)
    (hsync : c.sync_with s values (hd :: cells) = .ok (true, s')) :
    List.Forall₂ (c.cell_of s') cells values.view_nodes := by
  cases hadm : c.admission s values (hd :: cells) with
  | error e => simp [Column.sync_with, hadm, bind_error_eq] at hsync
  | ok res =>
    cases res with
    | none =>
      rw [c.sync_with_of_reject s values _ hadm] at hsync
      simp at hsync
    | some cells0 =>
      obtain ⟨⟨hd0, hcol⟩, hvalid, hsz⟩ := c.admission_some s values (hd :: cells) cells0 hadm
      have hsame : cells0 = cells := by
        simp only [List.cons.injEq] at hcol
        exact hcol.2.symm
      subst hsame
      have hlen : values.view_nodes.length = cells0.length := by
        rw [hsz, List.length_cons, size_sub_one_succ _ hcells]
      have hrt := c.admission_round_trips s values hd cells0 hvalid hadm
      rw [c.sync_with_of_admission s values _ cells0 hadm hlen] at hsync
      cases hw : c.write_calls (values.view_nodes.zip cells0) s with
      | error e => simp [hw, Except.map] at hsync
      | ok res =>
        simp only [hw, Except.map, Except.ok.injEq, Prod.mk.injEq] at hsync
        have hs' : res.2 = s' := hsync.2
        have hmap : (values.view_nodes.zip cells0).map Prod.fst = values.view_nodes :=
          List.map_fst_zip _ _ (Nat.le_of_eq hlen)
        have hnd : ((values.view_nodes.zip cells0).map Prod.fst).Nodup := by
          rw [hmap]; exact hnodup
        obtain ⟨hstored, _⟩ := c.write_calls_stored hlawful _ s res hnd hw
        rw [hs'] at hstored
        have hflip : List.Forall₂ (fun n cell => c.cell_of s' cell n) values.view_nodes
            cells0 := by
          refine List.forall₂_iff_zip.mpr ⟨hlen, ?_⟩
          intro n cell hmem
          obtain ⟨r, hr, hg⟩ := hstored (n, cell) hmem
          obtain ⟨r', hr', ha'⟩ := hrt cell (List.of_mem_zip hmem).2
          have hsame : r' = r := Except.ok.inj (hr'.symm.trans hr)
          subst hsame
          exact ⟨r', hg, ha', hr⟩
        exact List.Forall₂.flip hflip

/-- The method `apply` of a chain is `apply` of the first, then `apply` of the second. -/
theorem BijeciveModifier.chain_with_apply {O2 : Type} (first : BijeciveModifier I O E)
    (second : BijeciveModifier O O2 E) (v : I) :
    (first.chain_with second).apply v = first.apply v >>= second.apply := by
  simp only [BijeciveModifier.apply, BijeciveModifier.chain_with]
  cases h1 : first.func_apply v with
  | error e => rfl
  | ok mid => rfl

/-- The method `revert` of a chain is `revert` of the second, then `revert` of the first. -/
theorem BijeciveModifier.chain_with_revert {O2 : Type} (first : BijeciveModifier I O E)
    (second : BijeciveModifier O O2 E) (w : O2) :
    (first.chain_with second).revert w = second.revert w >>= first.revert := by
  simp only [BijeciveModifier.revert, BijeciveModifier.chain_with]
  cases h1 : second.func_revert w with
  | error e => rfl
  | ok mid => rfl

/-- A value that comes back from the first modifier, and whose image comes back from the
second, passes through the chain and comes back from it. -/
theorem BijeciveModifier.chain_with_round_trip {O2 : Type} (first : BijeciveModifier I O E)
    (second : BijeciveModifier O O2 E) (v : I)
    (h1 : first.apply v >>= first.revert = .ok v)
    (h2 : first.apply v >>= second.apply >>= second.revert = first.apply v) :
    ∃ out, (first.chain_with second).apply v = .ok out ∧
      (first.chain_with second).revert out = .ok v := by
  cases ha : first.apply v with
  | error e => rw [ha, bind_error_eq] at h1; cases h1
  | ok mid =>
    rw [ha, bind_ok_eq] at h1
    rw [ha, bind_ok_eq] at h2
    cases hb : second.apply mid with
    | error e => rw [hb, bind_error_eq] at h2; cases h2
    | ok out =>
      rw [hb, bind_ok_eq] at h2
      refine ⟨out, ?_, ?_⟩
      · rw [BijeciveModifier.chain_with_apply, ha, bind_ok_eq, hb]
      · rw [BijeciveModifier.chain_with_revert, h2, bind_ok_eq, h1]

/-- An edited column without any entry does not pass the checks of `Column.sync_with`. -/
theorem Column.admission_nil [DecidableEq V] (c : Column S N V E) (s : S)
    (values : SelectiveView S N E) (b : Bool)
    (hview : values.view_nodes.length + 1 < SIZE_MOD)
    (hb : c.is_valid s values = .ok b) :
    c.admission s values [] = .ok none := by
  have hsz : values.view_nodes.length ≠ size_sub_one 0 := by
    rw [size_sub_one_zero]
    omega
  cases b with
  | false => simp [Column.admission, hb, bind_ok_eq, pure_eq_ok]
  | true => simp [Column.admission, hb, bind_ok_eq, pure_eq_ok, hsz]

/-- A table with a column without any entry does not pass the checks of
`BijectiveAlgorithm.sync_with`. -/
theorem BijectiveAlgorithm.sync_with_of_nil_column (a : BijectiveAlgorithm S N E) (s : S)
    (tree : N) (table : List (List String)) (b : Bool)
    (hview : a.view.view_nodes.length + 1 < SIZE_MOD)
    (hb : a.is_valid s = .ok b) (hnil : [] ∈ table) :
    a.sync_with s tree table = .ok (false, s) := by
  cases b with
  | false => simp [BijectiveAlgorithm.sync_with, hb, bind_ok_eq, pure_eq_ok]
  | true =>
    simp only [BijectiveAlgorithm.sync_with, hb, bind_ok_eq, Bool.not_true,
      Bool.false_eq_true, if_false]
    have hsz : size_sub_one ([] : List String).length ≠ a.view.view_nodes.length := by
      rw [List.length_nil, size_sub_one_zero]
      omega
    have hloop := BijectiveAlgorithm.sizes_loop_false a.view.view_nodes.length table
      ⟨[], hnil, hsz⟩
    by_cases hl : table.length = a.columns.length
    · simp [hl, hloop, pure_eq_ok]
    · simp [hl, pure_eq_ok]

/-- The loop of `find_node_with` raises no exception: when the recursive call ends in
nothing but the dereference of a pointer to no element, so does the loop. -/
theorem find_loop_error (find : Nat → Except DrawioFailure (Option (Option Nat)))
    (hfind : ∀ node e, find node = .error e → e = .null_dereference) :
    ∀ (owned : List (Option Nat)) (e : DrawioFailure),
      find_loop find owned = .error e → e = .null_dereference := by
  intro owned
  induction owned with
  | nil => intro e h; simp [find_loop] at h
  | cons node rest ih =>
    intro e h
    cases node with
    | none =>
      simp only [find_loop] at h
      cases h
      rfl
    | some node =>
      simp only [find_loop] at h
      cases hf : find node with
      | error e1 =>
        rw [hf] at h
        cases h
        exact hfind node _ hf
      | ok r =>
        rw [hf] at h
        match r, h with
        | none, h => cases h
        | some (some _), h => cases h
        | some none, h => exact ih e h

/-- The function `find_node_with` raises no exception. -/
theorem find_node_with_error (s : List DiagramElement) (key val : String) :
    ∀ (fuel root : Nat) (e : DrawioFailure),
      find_node_with s fuel root key val = .error e → e = .null_dereference := by
  intro fuel
  induction fuel with
  | zero => intro root e h; simp [find_node_with] at h
  | succ fuel ih =>
    intro root e h
    simp only [find_node_with] at h
    cases hs : s[root]? with
    | none =>
      rw [hs] at h
      cases h
      rfl
    | some element =>
      rw [hs] at h
      by_cases hit : umap_find element.properties key = some val
      · simp [hit] at h
      · simp only [hit, if_false] at h
        exact find_loop_error _ (fun node e1 h1 => ih node e1 h1) _ e h

/-- The resolution of one arrow never raises the exception about the source. -/
theorem resolve_arrow_error (s : List DiagramElement) (depth root node : Nat)
    (element : DiagramElement) (edge : Edge) :
    resolve_arrow s depth root node element edge ≠
      .error (.logic_error "Arrow source could not be resolved") := by
  intro h
  unfold resolve_arrow at h
  cases ht : umap_at element.properties "target" with
  | error e =>
    rw [ht] at h
    unfold umap_at at ht
    cases hf : umap_find element.properties "target" with
    | none => rw [hf] at ht; cases ht; cases h
    | some v => rw [hf] at ht; cases ht
  | ok id_target =>
    rw [ht] at h
    simp only at h
    cases hsrc : umap_at element.properties "source" with
    | error e =>
      rw [hsrc] at h
      unfold umap_at at hsrc
      cases hf : umap_find element.properties "source" with
      | none => rw [hf] at hsrc; cases hsrc; cases h
      | some v => rw [hf] at hsrc; cases hsrc
    | ok id_source =>
      rw [hsrc] at h
      simp only at h
      cases hft : find_node_with s depth root "id" id_target with
      | error e =>
        rw [hft] at h
        have := find_node_with_error s "id" id_target depth root e hft
        subst this
        cases h
      | ok target =>
        rw [hft] at h
        cases target with
        | none => cases h
        | some target =>
          cases hfs : find_node_with s depth root "id" id_source with
          | error e =>
            rw [hfs] at h
            have := find_node_with_error s "id" id_source depth root e hfs
            subst this
            cases h
          | ok source =>
            rw [hfs] at h
            cases source with
            | none => cases h
            | some source =>
              cases target with
              | none =>
                simp only [ne_eq, not_true_eq_false, if_false] at h
                have hne : "Arrow sarget could not be resolved" ≠
                    "Arrow source could not be resolved" := by decide
                exact hne (DrawioFailure.logic_error.inj (Except.error.inj h))
              | some found => simp at h

/-- The loop of `iterate_resolve_arrows` never raises the exception about the source when
the recursive call does not. -/
theorem resolve_loop_error (depth root : Nat)
    (recurse : List DiagramElement → Nat → Except DrawioFailure (Option (List DiagramElement)))
    (hrec : ∀ s node,
      recurse s node ≠ .error (.logic_error "Arrow source could not be resolved")) :
    ∀ (owned : List (Option Nat)) (s : List DiagramElement),
      resolve_loop depth root recurse owned s ≠
        .error (.logic_error "Arrow source could not be resolved") := by
  intro owned
  induction owned with
  | nil => intro s h; simp [resolve_loop] at h
  | cons node rest ih =>
    intro s h
    cases node with
    | none =>
      simp only [resolve_loop] at h
      exact ih s h
    | some node =>
      simp only [resolve_loop] at h
      cases hs : s[node]? with
      | none => rw [hs] at h; cases h
      | some element =>
        rw [hs] at h
        simp only at h
        cases harrow : element.arrow with
        | none =>
          rw [harrow] at h
          simp only at h
          by_cases hlen : element.owned_elements.length > 0
          · simp only [hlen, if_true] at h
            cases hr : recurse s node with
            | error e =>
              rw [hr] at h
              simp only at h
              cases h
              exact hrec s node hr
            | ok r =>
              rw [hr] at h
              cases r with
              | none => cases h
              | some s2 => exact ih s2 h
          · simp only [hlen, if_false] at h
            exact ih s h
        | some edge =>
          rw [harrow] at h
          simp only at h
          cases hres : resolve_arrow s depth root node element edge with
          | error e =>
            rw [hres] at h
            simp only at h
            cases h
            exact resolve_arrow_error s depth root node element edge hres
          | ok r =>
            rw [hres] at h
            cases r with
            | none => cases h
            | some s1 =>
              simp only at h
              by_cases hlen : element.owned_elements.length > 0
              · simp only [hlen, if_true] at h
                cases hr : recurse s1 node with
                | error e =>
                  rw [hr] at h
                  simp only at h
                  cases h
                  exact hrec s1 node hr
                | ok r =>
                  rw [hr] at h
                  cases r with
                  | none => cases h
                  | some s2 => exact ih s2 h
              · simp only [hlen, if_false] at h
                exact ih s1 h

/-- The function `iterate_resolve_arrows` never raises the exception about the source. -/
theorem iterate_resolve_arrows_error (depth root : Nat) :
    ∀ (fuel : Nat) (s : List DiagramElement) (parent : Nat),
      iterate_resolve_arrows depth root fuel s parent ≠
        .error (.logic_error "Arrow source could not be resolved") := by
  intro fuel
  induction fuel with
  | zero => intro s parent h; simp [iterate_resolve_arrows] at h
  | succ fuel ih =>
    intro s parent h
    simp only [iterate_resolve_arrows] at h
    cases hs : s[parent]? with
    | none => rw [hs] at h; cases h
    | some element =>
      rw [hs] at h
      exact resolve_loop_error depth root _ ih _ s h

end Lemmas

/-! ## The bijectivity check -/

section Claims

variable {S N V I O E : Type}

/-- C1 (round trip). If the bijectivity check `BijeciveModifier::is_valid` of a modifier
returns `true` for a path and the nodes of a view, then at every node of the view the path
reads a value, `apply` renders it and `revert` takes the rendering back to that value.
Consequently a column that is valid over a view builds the header followed by one cell per
node, and reverting each cell gives the value `get_value` reads at the node of its row. -/
theorem round_trip_of_is_valid [DecidableEq I] [DecidableEq O] (m : BijeciveModifier I O E)
    (path : AttributePath S N I E) (s : S) (nodes : List N)
    (h : m.is_valid path s nodes = .ok true) :
    (∀ n ∈ nodes, ∃ v out, path.get_value s n = .ok v ∧ m.apply v = .ok out ∧
      m.revert out = .ok v) ∧
    (∀ (c : Column S N I E) (values : SelectiveView S N E), c.is_valid s values = .ok true →
      ∃ cells, c.build s values = .ok (c.header :: cells) ∧
        List.Forall₂ (fun cell n => ∃ v, c.linked_attr.get_value s n = .ok v ∧
          c.modifier_pipe.revert cell = .ok v) cells values.view_nodes) := by
  refine ⟨BijeciveModifier.is_valid_loop_round_trip m path s nodes [] [] h, ?_⟩
  intro c values hc
  obtain ⟨cells, hb, hrel⟩ := c.build_of_is_valid s values hc
  refine ⟨cells, hb, ?_⟩
  refine List.Forall₂.imp ?_ hrel
  intro cell n hcell
  obtain ⟨v, hg, _, hr⟩ := hcell
  exact ⟨v, hg, hr⟩

/-- C1 at the test tree with values 5, 7, 9 and the modifier `m_int_to_str`. -/
theorem round_trip_of_is_valid_witness :
    m_int_to_str.is_valid p_cell [5, 7, 9] [0, 1, 2] = .ok true ∧
    (∀ n ∈ [0, 1, 2], ∃ v out, p_cell.get_value [5, 7, 9] n = .ok v ∧
      m_int_to_str.apply v = .ok out ∧ m_int_to_str.revert out = .ok v) ∧
    (∃ cells, col_cell.build [5, 7, 9] (view_cells 3) = .ok (col_cell.header :: cells) ∧
      List.Forall₂ (fun cell n => ∃ v, col_cell.linked_attr.get_value [5, 7, 9] n = .ok v ∧
        col_cell.modifier_pipe.revert cell = .ok v) cells (view_cells 3).view_nodes) :=
  have h := round_trip_of_is_valid m_int_to_str p_cell [5, 7, 9] [0, 1, 2] (by rfl)
  ⟨by rfl, h.1, h.2 col_cell (view_cells 3) (by rfl)⟩

/-- C2 (injectivity). If the bijectivity check of a modifier returns `true` for a path and
the nodes of a view, then two nodes of the view whose values differ are rendered to
different outputs. -/
theorem apply_injective_of_is_valid [DecidableEq I] [DecidableEq O]
    (m : BijeciveModifier I O E) (path : AttributePath S N I E) (s : S) (nodes : List N)
    (h : m.is_valid path s nodes = .ok true) (n1 n2 : N) (h1 : n1 ∈ nodes) (h2 : n2 ∈ nodes)
    (v1 v2 : I) (hg1 : path.get_value s n1 = .ok v1) (hg2 : path.get_value s n2 = .ok v2)
    (hne : v1 ≠ v2) :
    ∃ o1 o2, m.apply v1 = .ok o1 ∧ m.apply v2 = .ok o2 ∧ o1 ≠ o2 := by
  have hrt := BijeciveModifier.is_valid_loop_round_trip m path s nodes [] [] h
  obtain ⟨w1, o1, hw1, ha1, hr1⟩ := hrt n1 h1
  obtain ⟨w2, o2, hw2, ha2, hr2⟩ := hrt n2 h2
  have e1 : w1 = v1 := Except.ok.inj (hw1.symm.trans hg1)
  have e2 : w2 = v2 := Except.ok.inj (hw2.symm.trans hg2)
  subst e1 e2
  refine ⟨o1, o2, ha1, ha2, ?_⟩
  intro ho
  subst ho
  exact hne (Except.ok.inj (hr1.symm.trans hr2))

/-- C2 at the test tree with values 5, 7, 9: the nodes 0 and 2 are rendered differently. -/
theorem apply_injective_of_is_valid_witness :
    ∃ o1 o2, m_int_to_str.apply 5 = .ok o1 ∧ m_int_to_str.apply 9 = .ok o2 ∧ o1 ≠ o2 :=
  apply_injective_of_is_valid m_int_to_str p_cell [5, 7, 9] [0, 1, 2] (by rfl) 0 2
    (by decide) (by decide) 5 9 (by rfl) (by rfl) (by decide)

/-! ## `Column::sync_with`: rejection -/

/-- C3 (rejection before any check of the cells). When `Column::is_valid` returns, the
method `Column::sync_with` returns `false`, with the tree as it was, if `is_valid` returned
`false` and also if the number of edited cells, the length of the edited column minus one
for the header, differs from the number of nodes of the view. The sizes are values of
`size_t` that a vector can have. -/
theorem sync_with_false_of_invalid_or_size [DecidableEq V] (c : Column S N V E) (s : S)
    (values : SelectiveView S N E) (col_out : List String) (b : Bool)
    (hview : values.view_nodes.length + 1 < SIZE_MOD) (hcol : col_out.length < SIZE_MOD)
    (hb : c.is_valid s values = .ok b)
    (h : b = false ∨ (col_out.length : Int) - 1 ≠ (values.view_nodes.length : Int)) :
    c.sync_with s values col_out = .ok (false, s) := by
  apply c.sync_with_of_reject
  cases b with
  | false => simp [Column.admission, hb, bind_ok_eq, pure_eq_ok]
  | true =>
    have hsz : values.view_nodes.length ≠ size_sub_one col_out.length := by
      rcases h with h | h
      · cases h
      · unfold size_sub_one SIZE_MOD at *
        omega
    simp [Column.admission, hb, bind_ok_eq, pure_eq_ok, hsz]

/-- C3 at the test tree with values 5, 7, 9 and an edited column with two cells. -/
theorem sync_with_false_of_invalid_or_size_witness :
    col_cell.sync_with [5, 7, 9] (view_cells 3) ["Header", "5", "7"] = .ok (false, [5, 7, 9]) :=
  sync_with_false_of_invalid_or_size col_cell [5, 7, 9] (view_cells 3) ["Header", "5", "7"]
    true (by decide) (by decide) (by rfl) (Or.inr (by decide))

/-- C4 (veto of a newly introduced cell). For a column that is valid over the view and an
edited column of matching size: if some edited cell `x` does not occur among the built cells
and either `apply (revert x)` is not `x` or `revert x` is the reverted value of some built
cell, then `Column::sync_with` returns `false`, with the tree as it was. The modifier is
taken to raise on no edited cell that is absent from the built cells. -/
theorem sync_with_false_of_vetoed_cell [DecidableEq V] (c : Column S N V E) (s : S)
    (values : SelectiveView S N E) (hd : String) (cells built : List String)
    (hview : values.view_nodes.length < SIZE_MOD)
    (hvalid : c.is_valid s values = .ok true)
    (hlen : cells.length = values.view_nodes.length)
    (hbuild : c.build s values = .ok (c.header :: built))
    (hraise : ∀ y ∈ cells, y ∉ built →
      ∃ r a, c.modifier_pipe.revert y = .ok r ∧ c.modifier_pipe.apply r = .ok a)
    (x : String) (hx : x ∈ cells) (hnew : x ∉ built) (r : V) (a : String)
    (hr : c.modifier_pipe.revert x = .ok r) (ha : c.modifier_pipe.apply r = .ok a)
    (hveto : a ≠ x ∨ ∃ cell ∈ built, c.modifier_pipe.revert cell = .ok r) :
    c.sync_with s values (hd :: cells) = .ok (false, s) := by
  apply c.sync_with_of_reject
  obtain ⟨built', hb', hrel⟩ := c.build_of_is_valid s values hvalid
  have hsame : built' = built := by
    have := hb'.symm.trans hbuild
    simpa using this
  subst hsame
  obtain ⟨vals, hvals, _⟩ := c.values_of_cells s built' values.view_nodes hrel
  have hsize : values.view_nodes.length = size_sub_one (hd :: cells).length := by
    rw [List.length_cons, size_sub_one_succ _ (hlen ▸ hview), hlen]
  rw [c.admission_of_valid s values hd cells built' vals hvalid hsize hbuild hvals]
  have hloop := c.collision_loop_reject built' vals cells [] [] hraise
    ⟨x, hx, hnew, r, a, hr, ha, by
      rcases hveto with h | ⟨cell, hcell, hcr⟩
      · exact Or.inl h
      · obtain ⟨v, hv, hcv⟩ := forall₂_mem_left hvals cell hcell
        have : v = r := Except.ok.inj (hcv.symm.trans hcr)
        exact Or.inr (this ▸ hv)⟩
  simp only [hloop, bind_ok_eq, pure_eq_ok]

/-- C4 at the test tree with values 5, 7, 9 and the edited cell `05`, which reverts to 5
and is rendered as `5`. -/
theorem sync_with_false_of_vetoed_cell_witness :
    col_cell.sync_with [5, 7, 9] (view_cells 3) ["Header", "5", "7", "05"] =
      .ok (false, [5, 7, 9]) :=
  sync_with_false_of_vetoed_cell col_cell [5, 7, 9] (view_cells 3) "Header" ["5", "7", "05"]
    ["5", "7", "9"] (by decide) (by rfl) (by rfl) (by rfl)
    (by
      intro y hy hnew
      simp only [List.mem_cons, List.mem_singleton, List.not_mem_nil, or_false] at hy
      rcases hy with rfl | rfl | rfl
      · exact absurd (by decide) hnew
      · exact absurd (by decide) hnew
      · exact ⟨5, "5", by rfl, by rfl⟩)
    "05" (by decide) (by decide) 5 "5" (by rfl) (by rfl) (Or.inl (by decide))

/-- C5 (a rejection writes nothing). If one of the checks of `Column::sync_with` ends the
call, then it returns `false` and the tree it was given, whatever the setter is: no setter
call has been made. And when no setter call ever returns `false`, a call of `sync_with` that
returns `false` has been ended by one of those checks and leaves the tree as it was. The
edited column has a size that a vector can have. -/
theorem sync_with_false_leaves_tree [DecidableEq V] (c : Column S N V E) (s : S)
    (values : SelectiveView S N E) (col_out : List String)
    (hcol : col_out.length ≤ SIZE_MOD) :
    (c.admission s values col_out = .ok none → c.sync_with s values col_out = .ok (false, s)) ∧
    ((∀ (s0 : S) (n : N) (v : V) (r : Bool × S),
        c.linked_attr.func_set s0 n v = .ok r → r.1 = true) →
      ∀ s' : S, c.sync_with s values col_out = .ok (false, s') →
        c.admission s values col_out = .ok none ∧ s' = s) := by
  refine ⟨c.sync_with_of_reject s values col_out, ?_⟩
  intro hset s' h
  cases hadm : c.admission s values col_out with
  | error e => simp [Column.sync_with, hadm, bind_error_eq] at h
  | ok res =>
    cases res with
    | none =>
      rw [c.sync_with_of_reject s values col_out hadm] at h
      cases h
      exact ⟨rfl, rfl⟩
    | some cells =>
      exfalso
      obtain ⟨⟨hd, hcells⟩, _, hsz⟩ := c.admission_some s values col_out cells hadm
      subst hcells
      have hlen : values.view_nodes.length = cells.length := by
        rw [hsz, List.length_cons, size_sub_one_succ]
        simp only [List.length_cons] at hcol
        omega
      rw [c.sync_with_of_admission s values _ cells hadm hlen] at h
      cases hw : c.write_calls (values.view_nodes.zip cells) s with
      | error e => simp [hw, Except.map] at h
      | ok r =>
        have hflag := c.calls_flag_of_setter_true hset _ s r hw
        simp [hw, Except.map, hflag] at h

/-- C5 at the test tree with values 5, 7, 9, whose setter always returns `true`, and the
vetoed edited cell `05`. -/
theorem sync_with_false_leaves_tree_witness :
    col_cell.sync_with [5, 7, 9] (view_cells 3) ["Header", "5", "7", "05"] =
      .ok (false, [5, 7, 9]) ∧
    col_cell.admission [5, 7, 9] (view_cells 3) ["Header", "5", "7", "05"] = .ok none :=
  ⟨by rfl,
    ((sync_with_false_leaves_tree col_cell [5, 7, 9] (view_cells 3)
      ["Header", "5", "7", "05"] (by decide)).2
      (by
        intro s0 n v r h
        simp only [col_cell, p_cell, cell_set] at h
        cases h
        rfl)
      [5, 7, 9] (by rfl)).1⟩

/-! ## `Column::sync_with`: admitted edits -/

/-- C6 (one row changed to a new value). On the test tree with values 5, 7, 9 and the
modifier `m_int_to_str`, `build` yields `Header, 5, 7, 9`, and `sync_with` with
`Header, 5, 7, 10` returns `true` and leaves the values 5, 7, 10. In general, for a column
valid over the view: when exactly one row of the built column is changed to a string `snew`
that is absent from the built cells, comes back from `revert` and `apply`, and reverts to a
value `r` that no node of the view holds, and the setter call at the node of that row
returns `true`, then `sync_with` returns `true`, the only setter call made is the one at
that node with `r`, and the tree is the one this call leaves. The rows behind the changed
one read the same values after the call as before. -/
theorem sync_with_one_new_cell :
    (col_cell.build [5, 7, 9] (view_cells 3) = .ok ["Header", "5", "7", "9"] ∧
      col_cell.sync_with [5, 7, 9] (view_cells 3) ["Header", "5", "7", "10"] =
        .ok (true, [5, 7, 10])) ∧
    ∀ (S N V E : Type) [DecidableEq V] (c : Column S N V E) (s s' : S)
      (values : SelectiveView S N E) (hd : String) (pre post : List N) (node : N)
      (cpre cpost : List String) (old snew : String) (r : V),
      values.view_nodes = pre ++ node :: post →
      values.view_nodes.length < SIZE_MOD →
      c.is_valid s values = .ok true →
      c.build s values = .ok (c.header :: (cpre ++ old :: cpost)) →
      cpre.length = pre.length →
      snew ∉ cpre ++ old :: cpost →
      c.modifier_pipe.revert snew = .ok r →
      c.modifier_pipe.apply r = .ok snew →
      (∀ n ∈ values.view_nodes, c.linked_attr.get_value s n ≠ .ok r) →
      c.linked_attr.func_set s node r = .ok (true, s') →
      (∀ n ∈ post, c.linked_attr.get_value s' n = c.linked_attr.get_value s n) →
      c.sync_with s values (hd :: (cpre ++ snew :: cpost)) = .ok (true, s') ∧
        c.write_calls (values.view_nodes.zip (cpre ++ snew :: cpost)) s =
          .ok ([(node, r, true)], s') := by
  refine ⟨⟨by rfl, by rfl⟩, ?_⟩
  intro S N V E _ c s s' values hd pre post node cpre cpost old snew r hnodes hview hvalid
    hbuild hpre hnew hr ha hfresh hset hframe
  have h := c.sync_with_single_new_cell s s' values hd pre post node cpre cpost old snew r
    true hnodes hview hvalid hbuild hpre hnew hr ha hfresh hset hframe
  exact ⟨h.2, h.1⟩

/-- C6, general part, at the test tree with values 5, 7, 9: the last row changed to `10`. -/
theorem sync_with_one_new_cell_witness :
    col_cell.sync_with [5, 7, 9] (view_cells 3) ("Header" :: (["5", "7"] ++ "10" :: [])) =
        .ok (true, [5, 7, 10]) ∧
      col_cell.write_calls ((view_cells 3).view_nodes.zip (["5", "7"] ++ "10" :: []))
        [5, 7, 9] = .ok ([(2, 10, true)], [5, 7, 10]) :=
  sync_with_one_new_cell.2 (List Int) Nat Int Exn col_cell [5, 7, 9] [5, 7, 10] (view_cells 3)
    "Header" [0, 1] [] 2 ["5", "7"] [] "9" "10" 10 (by rfl) (by decide) (by rfl) (by rfl)
    (by rfl) (by decide) (by rfl) (by rfl)
    (by
      intro n hn
      have hn' : n = 0 ∨ n = 1 ∨ n = 2 := by
        simpa [view_cells, List.range, List.range.loop] using hn
      rcases hn' with rfl | rfl | rfl
      · intro h; cases h
      · intro h; cases h
      · intro h; cases h)
    (by rfl) (by intro n hn; simp at hn)

/-- C7 (cells already present are exempt). On the test tree with values 5, 7, 9 and the
modifier `m_int_to_str`, `sync_with` with `Header, 7, 7, 9` returns `true` and leaves the
values 7, 7, 9. In general, for a column valid over the view and an edited column of
matching size all of whose cells occur among the built cells: every check is passed, and
the write phase calls the setter at each row whose reverted cell differs from the value
stored at its node. -/
theorem sync_with_present_cells :
    col_cell.sync_with [5, 7, 9] (view_cells 3) ["Header", "7", "7", "9"] =
        .ok (true, [7, 7, 9]) ∧
    ∀ (S N V E : Type) [DecidableEq V] (c : Column S N V E) (s : S)
      (values : SelectiveView S N E) (hd : String) (cells built : List String),
      values.view_nodes.length < SIZE_MOD →
      c.is_valid s values = .ok true →
      cells.length = values.view_nodes.length →
      c.build s values = .ok (c.header :: built) →
      (∀ x ∈ cells, x ∈ built) →
      c.admission s values (hd :: cells) = .ok (some cells) ∧
        c.sync_with s values (hd :: cells) =
          (c.write_calls (values.view_nodes.zip cells) s).map
            fun r => (Column.calls_flag r.1, r.2) := by
  refine ⟨by rfl, ?_⟩
  intro S N V E _ c s values hd cells built hview hvalid hlen hbuild hpresent
  have hadm := c.admission_of_present s values hd cells built hview hvalid hlen hbuild hpresent
  exact ⟨hadm, c.sync_with_of_admission s values _ cells hadm hlen.symm⟩

/-- C7, general part, at the test tree with values 5, 7, 9 and the cells 7, 7, 9. -/
theorem sync_with_present_cells_witness :
    col_cell.admission [5, 7, 9] (view_cells 3) ["Header", "7", "7", "9"] =
        .ok (some ["7", "7", "9"]) ∧
      col_cell.sync_with [5, 7, 9] (view_cells 3) ["Header", "7", "7", "9"] =
        (col_cell.write_calls ((view_cells 3).view_nodes.zip ["7", "7", "9"]) [5, 7, 9]).map
          fun r => (Column.calls_flag r.1, r.2) :=
  sync_with_present_cells.2 (List Int) Nat Int Exn col_cell [5, 7, 9] (view_cells 3) "Header"
    ["7", "7", "9"] ["5", "7", "9"] (by decide) (by rfl) (by rfl) (by rfl) (by decide)

/-- C8, as the code behaves. On the test tree with values 1, 2 and the modifier
`m_int_to_str`, the edited cells 2, 2 are admitted, since the string `2` occurs in the built
column: `sync_with` returns `true`, writes 2 to the first node and leaves the second. Only
without a header, as the two-entry column `2, 2`, is the edit rejected, for its size. -/
theorem sync_with_collapse_admitted :
    col_cell.build [1, 2] (view_cells 2) = .ok ["Header", "1", "2"] ∧
    col_cell.admission [1, 2] (view_cells 2) ["Header", "2", "2"] = .ok (some ["2", "2"]) ∧
    col_cell.write_calls ((view_cells 2).view_nodes.zip ["2", "2"]) [1, 2] =
      .ok ([(0, 2, true)], [2, 2]) ∧
    col_cell.sync_with [1, 2] (view_cells 2) ["Header", "2", "2"] = .ok (true, [2, 2]) ∧
    col_cell.sync_with [1, 2] (view_cells 2) ["2", "2"] = .ok (false, [1, 2]) :=
  ⟨by rfl, by rfl, by rfl, by rfl, by rfl⟩

/-- C8 fails as stated: with the edited cells 2, 2 on the values 1, 2 the method
`sync_with` does not return `false` with the tree unchanged. -/
theorem sync_with_collapse_not_rejected :
    col_cell.sync_with [1, 2] (view_cells 2) ["Header", "2", "2"] ≠ .ok (false, [1, 2]) := by
  have h : col_cell.sync_with [1, 2] (view_cells 2) ["Header", "2", "2"] =
      .ok (true, [2, 2]) := by rfl
  rw [h]
  intro h'
  cases h'

/-- C10 (write phase). Once every check of `Column::sync_with` has passed, the call is the
write phase of the specification on the rows of the view paired with the admitted cells:
the rows are taken in view order, the stored value is read afresh on the tree the earlier
setter calls have left, the setter is called with the reverted cell exactly when it differs
from that value, a setter returning `false` does not stop the later rows, and the boolean
returned is the conjunction of the results of the setter calls. Every node of the view is
paired with a cell. -/
theorem sync_with_write_phase [DecidableEq V] (c : Column S N V E) (s : S)
    (values : SelectiveView S N E) (col_out cells : List String)
    (hcol : col_out.length ≤ SIZE_MOD)
    (hadm : c.admission s values col_out = .ok (some cells)) :
    cells.length = values.view_nodes.length ∧
      c.sync_with s values col_out =
        (c.write_calls (values.view_nodes.zip cells) s).map
          fun r => (Column.calls_flag r.1, r.2) := by
  obtain ⟨⟨hd, hcells⟩, _, hsz⟩ := c.admission_some s values col_out cells hadm
  subst hcells
  have hlen : values.view_nodes.length = cells.length := by
    rw [hsz, List.length_cons, size_sub_one_succ]
    simp only [List.length_cons] at hcol
    omega
  exact ⟨hlen.symm, c.sync_with_of_admission s values _ cells hadm hlen⟩

/-- C10 at the test tree with values 5, 7, 9 and the setter that refuses node 0: the edit
7, 7, 5 calls the setter at the first row, which returns `false`, and still at the third. -/
theorem sync_with_write_phase_witness :
    col_locked.write_calls ((view_cells 3).view_nodes.zip ["7", "7", "5"]) [5, 7, 9] =
        .ok ([(0, 7, false), (2, 5, true)], [5, 7, 5]) ∧
      col_locked.sync_with [5, 7, 9] (view_cells 3) ["Header", "7", "7", "5"] =
        (col_locked.write_calls ((view_cells 3).view_nodes.zip ["7", "7", "5"]) [5, 7, 9]).map
          fun r => (Column.calls_flag r.1, r.2) :=
  ⟨by rfl,
    (sync_with_write_phase col_locked [5, 7, 9] (view_cells 3) ["Header", "7", "7", "5"]
      ["7", "7", "5"] (by decide) (by rfl)).2⟩

/-! ## `BijectiveAlgorithm::sync_with` -/

/-- C9 (feeding back the built table is a no-op). For an algorithm whose registered columns
are `Column` objects and for which `BijectiveAlgorithm::is_valid` returns `true`: `apply`
returns a table, and `sync_with` with that table returns `true` and the tree as it was,
whatever the setters are. No setter call is made: for every registered column the write
phase on the cells it has built makes none. The view has a size that `size_t` holds. -/
theorem sync_with_apply_noop (a : BijectiveAlgorithm S N E) (s : S) (tree : N)
    (hcols : ∀ cb ∈ a.columns, ∃ (V : Type) (_ : DecidableEq V) (c : Column S N V E),
      cb = c.toColumnBase)
    (hview : a.view.view_nodes.length < SIZE_MOD)
    (hvalid : a.is_valid s = .ok true) :
    ∃ table, a.apply s = .ok table ∧ a.sync_with s tree table = .ok (true, s) ∧
      ∀ (V : Type) [DecidableEq V] (c : Column S N V E), c.toColumnBase ∈ a.columns →
        ∃ cells, c.build s a.view = .ok (c.header :: cells) ∧
          c.write_calls (a.view.view_nodes.zip cells) s = .ok ([], s) := by
  have hall := a.is_valid_loop_true s a.columns hvalid
  have hq : ∀ cb ∈ a.columns, ∃ col : List String, cb.build s a.view = .ok col ∧
      size_sub_one col.length = a.view.view_nodes.length ∧
      cb.sync_with s a.view col = .ok (true, s) := by
    intro cb hcb
    obtain ⟨V, inst, c, rfl⟩ := hcols cb hcb
    obtain ⟨cells, hb, hlen, _, hsync⟩ := c.sync_with_built s a.view hview (hall _ hcb)
    refine ⟨c.header :: cells, hb, ?_, hsync⟩
    rw [List.length_cons, size_sub_one_succ _ (hlen ▸ hview), hlen]
  obtain ⟨table, htable⟩ := forall₂_of_forall_exists a.columns hq
  have hbuilds : List.Forall₂ (fun (cb : ColumnBase S N E) col =>
      cb.build s a.view = .ok col) a.columns table := htable.imp fun _ _ h => h.1
  have hsyncs : List.Forall₂ (fun (cb : ColumnBase S N E) col =>
      cb.sync_with s a.view col = .ok (true, s)) a.columns table :=
    htable.imp fun _ _ h => h.2.2
  have hsizes : ∀ col ∈ table, size_sub_one col.length = a.view.view_nodes.length := by
    intro col hcol
    obtain ⟨cb, _, hcb⟩ := forall₂_mem_right htable col hcol
    exact hcb.2.1
  have happly : a.apply s = .ok table := by
    have := a.apply_loop_of_builds s a.columns table [] hbuilds
    simpa [BijectiveAlgorithm.apply] using this
  refine ⟨table, happly, ?_, ?_⟩
  · have hloop := a.sync_loop_noop s table a.columns table [] [] true rfl rfl rfl hsyncs
    simp only [List.length_nil] at hloop
    simp only [BijectiveAlgorithm.sync_with, hvalid, bind_ok_eq, Bool.not_true,
      Bool.false_eq_true, if_false, htable.length_eq, ne_eq, not_true_eq_false,
      BijectiveAlgorithm.sizes_loop_true _ table hsizes, hloop]
  · intro V _ c hc
    obtain ⟨cells, hb, _, hcalls, _⟩ := c.sync_with_built s a.view hview (hall _ hc)
    exact ⟨cells, hb, hcalls⟩

/-- C9 at the algorithm with two columns over the test tree with values 5, 7, 9. -/
theorem sync_with_apply_noop_witness :
    alg_cells.is_valid [5, 7, 9] = .ok true ∧
    ∃ table, alg_cells.apply [5, 7, 9] = .ok table ∧
      alg_cells.sync_with [5, 7, 9] 0 table = .ok (true, [5, 7, 9]) :=
  ⟨by rfl,
    have h := sync_with_apply_noop alg_cells [5, 7, 9] 0
      (by
        intro cb hcb
        simp only [alg_cells, List.mem_cons, List.mem_singleton, List.not_mem_nil,
          or_false] at hcb
        rcases hcb with rfl | rfl
        · exact ⟨Int, inferInstance, col_cell, rfl⟩
        · exact ⟨Int, inferInstance, col_locked, rfl⟩)
      (by decide) (by rfl)
    h.imp fun _ ht => ⟨ht.1, ht.2.1⟩⟩

/-- C11 (pre-checks of the table sync). When `BijectiveAlgorithm::is_valid` returns, the
method `BijectiveAlgorithm::sync_with` returns `false`, with the tree as it was and whatever
the registered columns would do, if `is_valid` returned `false`, if the number of supplied
columns is not the number of registered columns, or if some supplied column, wherever it
stands in the table, has a cell count, its length minus one for the header, other than the
size of the view. The sizes are values of `size_t` that a vector can have. -/
theorem algorithm_sync_with_false_of_precheck (a : BijectiveAlgorithm S N E) (s : S)
    (tree : N) (table : List (List String)) (b : Bool)
    (hview : a.view.view_nodes.length + 1 < SIZE_MOD)
    (hcols : ∀ col ∈ table, col.length < SIZE_MOD)
    (hb : a.is_valid s = .ok b)
    (h : b = false ∨ table.length ≠ a.columns.length ∨
      ∃ col ∈ table, (col.length : Int) - 1 ≠ (a.view.view_nodes.length : Int)) :
    a.sync_with s tree table = .ok (false, s) := by
  cases b with
  | false => simp [BijectiveAlgorithm.sync_with, hb, bind_ok_eq, pure_eq_ok]
  | true =>
    simp only [BijectiveAlgorithm.sync_with, hb, bind_ok_eq, Bool.not_true,
      Bool.false_eq_true, if_false]
    rcases h with h | h | ⟨col, hcol, hne⟩
    · cases h
    · simp [h, pure_eq_ok]
    · have hsz : size_sub_one col.length ≠ a.view.view_nodes.length := by
        have hc := hcols col hcol
        unfold size_sub_one SIZE_MOD at *
        omega
      have hloop := BijectiveAlgorithm.sizes_loop_false a.view.view_nodes.length table
        ⟨col, hcol, hsz⟩
      by_cases hl : table.length = a.columns.length
      · simp [hl, hloop, pure_eq_ok]
      · simp [hl, pure_eq_ok]

/-- C11 at the algorithm with three columns over the second test tree: the last supplied
column lacks a cell. -/
theorem algorithm_sync_with_false_of_precheck_witness :
    alg_forest.sync_with forest 0 [["A", "21", "41"], ["B", "1", "1"], ["C", "201"]] =
      .ok (false, forest) :=
  algorithm_sync_with_false_of_precheck alg_forest forest 0
    [["A", "21", "41"], ["B", "1", "1"], ["C", "201"]] true (by decide) (by decide) (by rfl)
    (Or.inr (Or.inr ⟨["C", "201"], by decide, by decide⟩))

/-- C12 (every column is synced, in order, without rollback). For a table that has passed
the pre-checks, `BijectiveAlgorithm::sync_with` is the column syncs of the specification on
the registered columns paired by position with the supplied ones: each column is synced
once, in registration order, on the tree the column before it has left, a column returning
`false` does not stop the later ones, and the result is the conjunction of what the columns
returned. On the second test tree, with a second column whose setter refuses every value,
the call returns `false` while the first and the third column have been written. -/
theorem algorithm_sync_with_all_columns :
    (∀ (S N E : Type) (a : BijectiveAlgorithm S N E) (s : S) (tree : N)
      (table : List (List String)),
      a.view.view_nodes.length < SIZE_MOD →
      a.is_valid s = .ok true →
      table.length = a.columns.length →
      (∀ col ∈ table, col.length = a.view.view_nodes.length + 1) →
      a.sync_with s tree table =
        (a.sync_columns (a.columns.zip table) s).map fun r => (r.1.all id, r.2)) ∧
    (alg_forest.sync_columns (alg_forest.columns.zip
        [["A", "21", "41"], ["B", "5", "6"], ["C", "201", "401"]]) forest =
      .ok ([true, false, true],
        [ { properties := [], owned_elements := [1, 4] },
          { properties := [some 0], owned_elements := [2, 3] },
          { properties := [some 1, some 21, some 201], owned_elements := [] },
          { properties := [some 0], owned_elements := [] },
          { properties := [some 1, some 41, some 401], owned_elements := [] } ]) ∧
     alg_forest.sync_with forest 0 [["A", "21", "41"], ["B", "5", "6"], ["C", "201", "401"]] =
      .ok (false,
        [ { properties := [], owned_elements := [1, 4] },
          { properties := [some 0], owned_elements := [2, 3] },
          { properties := [some 1, some 21, some 201], owned_elements := [] },
          { properties := [some 0], owned_elements := [] },
          { properties := [some 1, some 41, some 401], owned_elements := [] } ])) := by
  refine ⟨?_, by rfl, by rfl⟩
  intro S N E a s tree table hview hvalid hlen hsizes
  have hloop := BijectiveAlgorithm.sizes_loop_true a.view.view_nodes.length table (by
    intro col hcol
    rw [hsizes col hcol, size_sub_one_succ _ hview])
  have h := a.sync_loop_eq_sync_columns table a.columns table [] [] true s hlen.symm rfl rfl rfl
  simp only [List.length_nil, Bool.true_and] at h
  rw [hlen] at h
  simp only [BijectiveAlgorithm.sync_with, hvalid, bind_ok_eq, Bool.not_true,
    Bool.false_eq_true, if_false, hlen, ne_eq, not_true_eq_false, hloop, h]

/-- C12, general part, at the algorithm with three columns over the second test tree. -/
theorem algorithm_sync_with_all_columns_witness :
    alg_forest.sync_with forest 0 [["A", "21", "41"], ["B", "5", "6"], ["C", "201", "401"]] =
      (alg_forest.sync_columns (alg_forest.columns.zip
        [["A", "21", "41"], ["B", "5", "6"], ["C", "201", "401"]]) forest).map
        fun r => (r.1.all id, r.2) :=
  algorithm_sync_with_all_columns.1 (List Element) Nat Exn alg_forest forest 0
    [["A", "21", "41"], ["B", "5", "6"], ["C", "201", "401"]] (by decide) (by rfl) (by rfl)
    (by decide)

/-- C13 (columns are matched by position). For an algorithm whose registered columns are
`Column` objects and two tables of the same shape that agree in every cell and differ at
most in their header entries, `BijectiveAlgorithm::sync_with` returns the same boolean and
leaves the same tree. On the second test tree with the columns of the properties 1 and 2,
supplying the two columns in swapped order, with or without their headers swapped, writes
the cells meant for property 2 to property 1 and those meant for property 1 to
property 2. -/
theorem algorithm_sync_with_positional :
    (∀ (S N E : Type) (a : BijectiveAlgorithm S N E) (s : S) (tree : N)
      (t1 t2 : List (List String)),
      (∀ cb ∈ a.columns, ∃ (V : Type) (_ : DecidableEq V) (c : Column S N V E),
        cb = c.toColumnBase) →
      List.Forall₂ (fun c1 c2 : List String => c1.length = c2.length ∧ c1.tail = c2.tail)
        t1 t2 →
      a.sync_with s tree t1 = a.sync_with s tree t2) ∧
    (alg_pair.sync_with forest 0 [["A", "21", "41"], ["C", "201", "401"]] =
      .ok (true,
        [ { properties := [], owned_elements := [1, 4] },
          { properties := [some 0], owned_elements := [2, 3] },
          { properties := [some 1, some 21, some 201], owned_elements := [] },
          { properties := [some 0], owned_elements := [] },
          { properties := [some 1, some 41, some 401], owned_elements := [] } ]) ∧
     alg_pair.sync_with forest 0 [["C", "201", "401"], ["A", "21", "41"]] =
      .ok (true,
        [ { properties := [], owned_elements := [1, 4] },
          { properties := [some 0], owned_elements := [2, 3] },
          { properties := [some 1, some 201, some 21], owned_elements := [] },
          { properties := [some 0], owned_elements := [] },
          { properties := [some 1, some 401, some 41], owned_elements := [] } ]) ∧
     alg_pair.sync_with forest 0 [["A", "201", "401"], ["C", "21", "41"]] =
      alg_pair.sync_with forest 0 [["C", "201", "401"], ["A", "21", "41"]]) := by
  refine ⟨?_, by rfl, by rfl, by rfl⟩
  intro S N E a s tree t1 t2 hcols hrel
  have hlen : t1.length = t2.length := hrel.length_eq
  have hsizes := BijectiveAlgorithm.sizes_loop_congr a.view.view_nodes.length t1 t2 hrel
  have hcong : ∀ cb ∈ a.columns, ∀ (s : S) (c1 c2 : List String),
      c1.length = c2.length ∧ c1.tail = c2.tail →
      cb.sync_with s a.view c1 = cb.sync_with s a.view c2 := by
    intro cb hcb s' c1 c2 hc
    obtain ⟨V, inst, c, rfl⟩ := hcols cb hcb
    exact c.sync_with_header s' a.view c1 c2 hc
  cases hv : a.is_valid s with
  | error e => simp only [BijectiveAlgorithm.sync_with, hv, bind_error_eq]
  | ok valid =>
    cases valid with
    | false => simp only [BijectiveAlgorithm.sync_with, hv, bind_ok_eq, Bool.not_false, if_true]
    | true =>
      by_cases hl : t2.length = a.columns.length
      · have h1 := a.sync_loop_eq_sync_columns t1 a.columns t1 [] [] true s
          (hlen.trans hl).symm rfl rfl rfl
        have h2 := a.sync_loop_eq_sync_columns t2 a.columns t2 [] [] true s hl.symm rfl rfl rfl
        simp only [List.length_nil] at h1 h2
        rw [hlen.trans hl] at h1
        rw [hl] at h2
        simp only [BijectiveAlgorithm.sync_with, hv, bind_ok_eq, Bool.not_true,
          Bool.false_eq_true, if_false, hlen, hl, ne_eq, not_true_eq_false, hsizes]
        rw [h1, h2, a.sync_columns_congr a.columns t1 t2 hrel hcong s]
      · simp only [BijectiveAlgorithm.sync_with, hv, bind_ok_eq, Bool.not_true,
          Bool.false_eq_true, if_false, hlen, hl, ne_eq, not_false_eq_true, if_true]

/-- C13, general part, at the algorithm with two columns over the second test tree: the
headers of the supplied columns are exchanged, the cells are not. -/
theorem algorithm_sync_with_positional_witness :
    alg_pair.sync_with forest 0 [["A", "201", "401"], ["C", "21", "41"]] =
      alg_pair.sync_with forest 0 [["C", "201", "401"], ["A", "21", "41"]] :=
  algorithm_sync_with_positional.1 (List Element) Nat Exn alg_pair forest 0
    [["A", "201", "401"], ["C", "21", "41"]] [["C", "201", "401"], ["A", "21", "41"]]
    (by
      intro cb hcb
      simp only [alg_pair, List.mem_cons, List.mem_singleton, List.not_mem_nil,
        or_false] at hcb
      rcases hcb with rfl | rfl
      · exact ⟨Int, inferInstance, col_prop 1 "A", rfl⟩
      · exact ⟨Int, inferInstance, col_prop 2 "C", rfl⟩)
    (List.Forall₂.cons ⟨rfl, rfl⟩ (List.Forall₂.cons ⟨rfl, rfl⟩ List.Forall₂.nil))

/-! ## `Column::build` and `Column::is_valid` -/

/-- C14 (shape of a built column). When `get_value` returns at every node of the view, and
`apply` returns on the values read, `Column::build` returns the header followed by one cell
per node in view order, the cell at row `i + 1` being the rendering of the value read at
the `i`-th node, so its length is the size of the view plus one. Whatever `build` returns
has that shape. When `get_value` fails at some node, `build` fails: no value is put in its
place. -/
theorem build_header_and_cells (c : Column S N V E) (s : S) (values : SelectiveView S N E) :
    ((∀ n ∈ values.view_nodes, ∃ v cell, c.linked_attr.get_value s n = .ok v ∧
        c.modifier_pipe.apply v = .ok cell) →
      ∃ cells, c.build s values = .ok (c.header :: cells) ∧
        (c.header :: cells).length = values.view_nodes.length + 1 ∧
        List.Forall₂ (fun cell n => ∃ v, c.linked_attr.get_value s n = .ok v ∧
          c.modifier_pipe.apply v = .ok cell) cells values.view_nodes) ∧
    (∀ col, c.build s values = .ok col →
      ∃ cells, col = c.header :: cells ∧
        List.Forall₂ (fun cell n => ∃ v, c.linked_attr.get_value s n = .ok v ∧
          c.modifier_pipe.apply v = .ok cell) cells values.view_nodes) ∧
    ((∃ n ∈ values.view_nodes, ∃ f, c.linked_attr.get_value s n = .error f) →
      ∃ f, c.build s values = .error f) := by
  refine ⟨?_, ?_, ?_⟩
  · intro h
    obtain ⟨cells, hrel⟩ := forall₂_of_forall_exists
      (R := fun n cell => ∃ v, c.linked_attr.get_value s n = .ok v ∧
        c.modifier_pipe.apply v = .ok cell) values.view_nodes
      (fun n hn => by
        obtain ⟨v, cell, hg, ha⟩ := h n hn
        exact ⟨cell, v, hg, ha⟩)
    have hrel' : List.Forall₂ (fun cell n => ∃ v, c.linked_attr.get_value s n = .ok v ∧
        c.modifier_pipe.apply v = .ok cell) cells values.view_nodes := List.Forall₂.flip hrel
    refine ⟨cells, ?_, ?_, hrel'⟩
    · have := c.build_loop_of_rendered s values.view_nodes [c.header] cells hrel'
      simpa [Column.build] using this
    · simp [hrel'.length_eq]
  · intro col h
    obtain ⟨cells, hcol, hrel⟩ := c.build_loop_cells_of_ok s values.view_nodes [c.header] col h
    exact ⟨cells, by simpa using hcol, hrel⟩
  · intro h
    exact c.build_loop_fails s values.view_nodes [c.header] h

/-- C14 at the column of property 1 of the second test tree: over the elements 2 and 4 it
builds, over the elements 1 and 2 it fails. -/
theorem build_header_and_cells_witness :
    (∃ cells, (col_prop 1 "A").build forest (view_forest [2, 4]) =
        .ok ((col_prop 1 "A").header :: cells) ∧
      ((col_prop 1 "A").header :: cells).length = (view_forest [2, 4]).view_nodes.length + 1 ∧
      List.Forall₂ (fun cell n => ∃ v, (col_prop 1 "A").linked_attr.get_value forest n = .ok v ∧
        (col_prop 1 "A").modifier_pipe.apply v = .ok cell) cells
        (view_forest [2, 4]).view_nodes) ∧
    ∃ f, (col_prop 1 "A").build forest (view_forest [1, 2]) = .error f :=
  ⟨(build_header_and_cells (col_prop 1 "A") forest (view_forest [2, 4])).1 (by
      intro n hn
      have hn' : n = 2 ∨ n = 4 := by simpa [view_forest] using hn
      rcases hn' with rfl | rfl
      · exact ⟨20, "20", by rfl, by rfl⟩
      · exact ⟨40, "40", by rfl, by rfl⟩),
    (build_header_and_cells (col_prop 1 "A") forest (view_forest [1, 2])).2.2
      ⟨1, by decide, _, by rfl⟩⟩

/-- C15 (the two stages of `Column::is_valid`). If at some node of the view the getter
raises while the path has no default, `Column::is_valid` returns `false`; otherwise it is
the bijectivity check of the modifier over the path and the view. -/
theorem column_is_valid_stages [DecidableEq V] (c : Column S N V E) (s : S)
    (values : SelectiveView S N E) :
    ((∃ n ∈ values.view_nodes, (∃ e, c.linked_attr.func_get s n = .error e) ∧
        c.linked_attr.default_value = none) →
      c.is_valid s values = .ok false) ∧
    ((¬ ∃ n ∈ values.view_nodes, (∃ e, c.linked_attr.func_get s n = .error e) ∧
        c.linked_attr.default_value = none) →
      c.is_valid s values = c.modifier_pipe.is_valid c.linked_attr s values.view_nodes) := by
  constructor
  · intro h
    have hf := (c.has_all_values_false_iff s values.view_nodes).mpr h
    simp [Column.is_valid, hf]
  · intro h
    have ht : c.has_all_values s values.view_nodes = true := by
      cases hv : c.has_all_values s values.view_nodes with
      | true => rfl
      | false => exact absurd ((c.has_all_values_false_iff s values.view_nodes).mp hv) h
    simp [Column.is_valid, ht]

/-- C15 at the column of property 1 of the second test tree: element 1 lacks the property,
the elements 2 and 4 have it. -/
theorem column_is_valid_stages_witness :
    (col_prop 1 "A").is_valid forest (view_forest [1, 2]) = .ok false ∧
    (col_prop 1 "A").is_valid forest (view_forest [2, 4]) =
      (col_prop 1 "A").modifier_pipe.is_valid (col_prop 1 "A").linked_attr forest
        (view_forest [2, 4]).view_nodes :=
  ⟨(column_is_valid_stages (col_prop 1 "A") forest (view_forest [1, 2])).1
      ⟨1, by decide, ⟨_, by rfl⟩, by rfl⟩,
    (column_is_valid_stages (col_prop 1 "A") forest (view_forest [2, 4])).2 (by
      intro h
      obtain ⟨n, hn, ⟨e, he⟩, _⟩ := h
      have hn' : n = 2 ∨ n = 4 := by simpa [view_forest] using hn
      rcases hn' with rfl | rfl
      · cases he
      · cases he)⟩

/-- C16 (the pre-check predicts the failure of `build`). The method `Column::is_valid`
never ends with the failure of the getter. If at some node of the view the getter raises
while the path has no default, `is_valid` returns `false` and `build` fails. If `is_valid`
returns `true`, `build` returns. -/
theorem is_valid_predicts_build [DecidableEq V] (c : Column S N V E) (s : S)
    (values : SelectiveView S N E) :
    (∀ e, c.is_valid s values ≠ .error (.getter e)) ∧
    ((∃ n ∈ values.view_nodes, (∃ e, c.linked_attr.func_get s n = .error e) ∧
        c.linked_attr.default_value = none) →
      c.is_valid s values = .ok false ∧ ∃ f, c.build s values = .error f) ∧
    (c.is_valid s values = .ok true → ∃ cells, c.build s values = .ok (c.header :: cells)) := by
  refine ⟨?_, ?_, ?_⟩
  · intro e h
    unfold Column.is_valid at h
    cases hv : c.has_all_values s values.view_nodes with
    | false => simp [hv] at h
    | true =>
      simp only [hv, Bool.not_true, Bool.false_eq_true, if_false] at h
      exact BijeciveModifier.is_valid_loop_no_getter_failure c.modifier_pipe c.linked_attr s
        values.view_nodes [] [] (c.get_value_of_has_all_values s _ hv) e h
  · intro h
    refine ⟨?_, ?_⟩
    · have hf := (c.has_all_values_false_iff s values.view_nodes).mpr h
      simp [Column.is_valid, hf]
    · obtain ⟨n, hn, hmiss⟩ := h
      exact c.build_loop_fails s values.view_nodes [c.header]
        ⟨n, hn, (c.linked_attr.get_value_error_iff s n).mpr hmiss⟩
  · intro h
    obtain ⟨cells, hb, _⟩ := c.build_of_is_valid s values h
    exact ⟨cells, hb⟩

/-- C16 at the column of property 1 of the second test tree, over the elements 1 and 2 and
over the elements 2 and 4. -/
theorem is_valid_predicts_build_witness :
    ((col_prop 1 "A").is_valid forest (view_forest [1, 2]) = .ok false ∧
      ∃ f, (col_prop 1 "A").build forest (view_forest [1, 2]) = .error f) ∧
    ∃ cells, (col_prop 1 "A").build forest (view_forest [2, 4]) =
      .ok ((col_prop 1 "A").header :: cells) :=
  ⟨(is_valid_predicts_build (col_prop 1 "A") forest (view_forest [1, 2])).2.1
      ⟨1, by decide, ⟨_, by rfl⟩, by rfl⟩,
    (is_valid_predicts_build (col_prop 1 "A") forest (view_forest [2, 4])).2.2 (by rfl)⟩

/-! ## `BijectiveAlgorithm::apply` -/

/-- C17 (shape of the table). When every registered column builds, `apply` returns a table
with one column per registered column, in registration order, the `i`-th being what the
`i`-th registered column builds over the view. For a registered `Column` object that is the
header followed by one cell per node of the view, the cell of a row being the rendering of
the value read at the node of that row; so when all registered columns are `Column`
objects every column of the table has the size of the view plus one entries. -/
theorem apply_table_shape (a : BijectiveAlgorithm S N E) (s : S)
    (hbuilds : ∀ cb ∈ a.columns, ∃ col, cb.build s a.view = .ok col) :
    ∃ table, a.apply s = .ok table ∧ table.length = a.columns.length ∧
      List.Forall₂ (fun (cb : ColumnBase S N E) col => cb.build s a.view = .ok col)
        a.columns table ∧
      (∀ (V : Type) [DecidableEq V] (c : Column S N V E), c.toColumnBase ∈ a.columns →
        ∃ cells, c.build s a.view = .ok (c.header :: cells) ∧
          List.Forall₂ (fun cell n => ∃ v, c.linked_attr.get_value s n = .ok v ∧
            c.modifier_pipe.apply v = .ok cell) cells a.view.view_nodes) ∧
      ((∀ cb ∈ a.columns, ∃ (V : Type) (_ : DecidableEq V) (c : Column S N V E),
          cb = c.toColumnBase) →
        ∀ col ∈ table, col.length = a.view.view_nodes.length + 1) := by
  obtain ⟨table, htable⟩ := forall₂_of_forall_exists a.columns hbuilds
  have hshape : ∀ (V : Type) [DecidableEq V] (c : Column S N V E),
      c.toColumnBase ∈ a.columns →
      ∃ cells, c.build s a.view = .ok (c.header :: cells) ∧
        List.Forall₂ (fun cell n => ∃ v, c.linked_attr.get_value s n = .ok v ∧
          c.modifier_pipe.apply v = .ok cell) cells a.view.view_nodes := by
    intro V _ c hc
    obtain ⟨col, hcol⟩ := hbuilds _ hc
    have hcol' : c.build s a.view = .ok col := hcol
    obtain ⟨cells, he, hrel⟩ :=
      c.build_loop_cells_of_ok s a.view.view_nodes [c.header] col hcol'
    have he' : col = c.header :: cells := by simpa using he
    subst he'
    exact ⟨cells, hcol', hrel⟩
  refine ⟨table, ?_, htable.length_eq.symm, htable, hshape, ?_⟩
  · have := a.apply_loop_of_builds s a.columns table [] htable
    simpa [BijectiveAlgorithm.apply] using this
  · intro hcols col hcol
    obtain ⟨cb, hcb, hbuild⟩ := forall₂_mem_right htable col hcol
    obtain ⟨V, inst, c, rfl⟩ := hcols cb hcb
    obtain ⟨cells, hb, hrel⟩ := hshape V c hcb
    have hb' : c.build s a.view = .ok col := hbuild
    rw [hb] at hb'
    cases hb'
    simp [hrel.length_eq]

/-- C17 at the algorithm with three columns over the second test tree. -/
theorem apply_table_shape_witness :
    alg_forest.apply forest = .ok [["A", "20", "40"], ["B", "1", "1"], ["C", "200", "400"]] ∧
    ∃ table, alg_forest.apply forest = .ok table ∧
      table.length = alg_forest.columns.length ∧
      List.Forall₂ (fun (cb : ColumnBase (List Element) Nat Exn) col =>
        cb.build forest alg_forest.view = .ok col) alg_forest.columns table :=
  ⟨by rfl,
    have h := apply_table_shape alg_forest forest (by
      intro cb hcb
      simp only [alg_forest, List.mem_cons, List.mem_singleton, List.not_mem_nil,
        or_false] at hcb
      rcases hcb with rfl | rfl | rfl
      · exact ⟨_, by rfl⟩
      · exact ⟨_, by rfl⟩
      · exact ⟨_, by rfl⟩)
    h.imp fun _ ht => ⟨ht.1, ht.2.1, ht.2.2.1⟩⟩

/-! ## Filters and `SelectiveView::apply_filter` -/

/-- C18 (the view is the filtered pre-order list of the proper descendants). For a finite
tree that the child accessor describes, with fuel for each of its levels, and filters that
return at every proper descendant of the root: `apply_filter` returns, and the view is the
list of the proper descendants of the root in pre-order, the root left out and the children
in the order of the child accessor, restricted to the nodes that every filter accepts. The
selection the view held before does not matter, and without filters the view is the list of
all proper descendants. -/
theorem apply_filter_preorder (v : SelectiveView S N E) (s : S) (fuel : Nat)
    (filters : List (FilterBase S N E)) (t : Hierarchy N)
    (accepts : FilterBase S N E → N → Bool)
    (hdescribed : Hierarchy.described (v.func_get_children s) t) (hfuel : t.height ≤ fuel)
    (hfilters : ∀ f ∈ filters, ∀ n ∈ t.descendants, f.is_within s n = .ok (accepts f n)) :
    v.apply_filter s fuel t.label filters =
      .ok (some { v with
        view_nodes := t.descendants.filter fun n => filters.all fun f => accepts f n }) ∧
    (∀ previous : List N,
      ({ v with view_nodes := previous } : SelectiveView S N E).apply_filter s fuel t.label
        filters = v.apply_filter s fuel t.label filters) ∧
    v.apply_filter s fuel t.label [] = .ok (some { v with view_nodes := t.descendants }) := by
  have hflags : ∀ (w : SelectiveView S N E), ∀ n ∈ t.descendants,
      SelectiveView.filters_flag s filters n = .ok (filters.all fun f => accepts f n) :=
    fun _ n hn => SelectiveView.filters_flag_of_returns s n (fun f => accepts f n) filters
      fun f hf => hfilters f hf n hn
  have hmain := v.apply_filter_of_flags s fuel filters t
    (fun n => filters.all fun f => accepts f n) hdescribed hfuel (hflags v)
  refine ⟨hmain, ?_, ?_⟩
  · intro previous
    have hprev := ({ v with view_nodes := previous } : SelectiveView S N E).apply_filter_of_flags
      s fuel filters t (fun n => filters.all fun f => accepts f n) hdescribed hfuel (hflags v)
    rw [hprev, hmain]
  · have hnone := v.apply_filter_of_flags s fuel [] t (fun _ => true) hdescribed hfuel
      (fun n _ => rfl)
    simpa using hnone

/-- C18 at the second test tree with the filter `property 0 is 1`: element 1 is rejected,
element 2, which it owns, is selected. -/
theorem apply_filter_preorder_witness :
    (view_forest [0, 3]).apply_filter forest 3 0 [f_kind.toFilterBase] =
      .ok (some (view_forest [2, 4])) ∧
    (view_forest [0, 3]).apply_filter forest 3 0 [] = .ok (some (view_forest [1, 2, 3, 4])) :=
  have h := apply_filter_preorder (view_forest [0, 3]) forest 3 [f_kind.toFilterBase]
    forest_tree (fun _ n => n == 2 || n == 4)
    (by simp [forest_tree, Hierarchy.described, Hierarchy.described_list, Hierarchy.label,
      view_forest, func_get_childs, forest])
    (by decide)
    (by
      intro f hf n hn
      simp only [List.mem_singleton] at hf
      subst hf
      have hdesc : forest_tree.descendants = [1, 2, 3, 4] := by rfl
      rw [hdesc] at hn
      simp only [List.mem_cons, List.mem_singleton, List.not_mem_nil, or_false] at hn
      rcases hn with rfl | rfl | rfl | rfl
      · rfl
      · rfl
      · rfl
      · rfl)
  ⟨h.1, h.2.2⟩

/-- C19 (the filters are evaluated in order, up to the first that rejects). The inner loop
of `apply_filter` returns `false` at a node as soon as a filter returns `false` there after
the filters before it have returned `true`, whatever the filters behind it would do. Hence
`apply_filter` returns when every proper descendant of the root is either accepted by all
filters or rejected by some filter whose predecessors accept it. On the second test tree
the filter over property 1, which fails at element 1, does not fail the call when it
stands behind the filter that rejects element 1, and fails it when it stands in front. -/
theorem apply_filter_short_circuit :
    (∀ (S N E : Type) (s : S) (node : N) (pre : List (FilterBase S N E))
      (f : FilterBase S N E) (post : List (FilterBase S N E)),
      (∀ g ∈ pre, g.is_within s node = .ok true) → f.is_within s node = .ok false →
      SelectiveView.filters_flag s (pre ++ f :: post) node = .ok false) ∧
    (∀ (S N E : Type) (v : SelectiveView S N E) (s : S) (fuel : Nat)
      (filters : List (FilterBase S N E)) (t : Hierarchy N) (keep : N → Bool),
      Hierarchy.described (v.func_get_children s) t → t.height ≤ fuel →
      (∀ n ∈ t.descendants,
        (keep n = true ∧ ∀ g ∈ filters, g.is_within s n = .ok true) ∨
        (keep n = false ∧ ∃ (pre : List (FilterBase S N E)) (f : FilterBase S N E)
          (post : List (FilterBase S N E)), filters = pre ++ f :: post ∧
          (∀ g ∈ pre, g.is_within s n = .ok true) ∧ f.is_within s n = .ok false)) →
      v.apply_filter s fuel t.label filters =
        .ok (some { v with view_nodes := t.descendants.filter keep })) ∧
    (f_size.toFilterBase.is_within forest 1 =
        .error (.getter (.logic_error "value not present")) ∧
      (view_forest []).apply_filter forest 3 0 [f_kind.toFilterBase, f_size.toFilterBase] =
        .ok (some (view_forest [2, 4])) ∧
      (view_forest []).apply_filter forest 3 0 [f_size.toFilterBase, f_kind.toFilterBase] =
        .error (.getter (.logic_error "value not present"))) := by
  refine ⟨?_, ?_, by rfl, by rfl, by rfl⟩
  · intro S N E s node pre f post hpre hf
    exact SelectiveView.filters_flag_of_first_false s node pre f post hpre hf
  · intro S N E v s fuel filters t keep hd hfuel h
    apply v.apply_filter_of_flags s fuel filters t keep hd hfuel
    intro n hn
    rcases h n hn with ⟨hk, hall⟩ | ⟨hk, pre, f, post, hsplit, hpre, hf⟩
    · rw [hk]
      have hflag := SelectiveView.filters_flag_of_returns s n (fun _ => true) filters hall
      have hall_true : (filters.all fun _ => true) = true := by
        rw [List.all_eq_true]
        intro _ _
        rfl
      rw [hflag, hall_true]
    · rw [hk, hsplit]
      exact SelectiveView.filters_flag_of_first_false s n pre f post hpre hf

/-- C19, at the second test tree: the failing filter behind the rejecting one. -/
theorem apply_filter_short_circuit_witness :
    (view_forest []).apply_filter forest 3 forest_tree.label
        [f_kind.toFilterBase, f_size.toFilterBase] =
      .ok (some { view_forest [] with
        view_nodes := forest_tree.descendants.filter fun n => n == 2 || n == 4 }) :=
  apply_filter_short_circuit.2.1 (List Element) Nat Exn (view_forest []) forest 3
    [f_kind.toFilterBase, f_size.toFilterBase] forest_tree (fun n => n == 2 || n == 4)
    (by simp [forest_tree, Hierarchy.described, Hierarchy.described_list, Hierarchy.label,
      view_forest, func_get_childs, forest])
    (by decide)
    (by
      intro n hn
      have hdesc : forest_tree.descendants = [1, 2, 3, 4] := by rfl
      rw [hdesc] at hn
      simp only [List.mem_cons, List.mem_singleton, List.not_mem_nil, or_false] at hn
      have hin : ∀ (m : Nat) (b : Bool),
          f_kind.toFilterBase.is_within forest m = .ok b →
          f_size.toFilterBase.is_within forest m = .ok b →
          ∀ g ∈ [f_kind.toFilterBase, f_size.toFilterBase], g.is_within forest m = .ok b := by
        intro m b h1 h2 g hg
        simp only [List.mem_cons, List.mem_singleton, List.not_mem_nil, or_false] at hg
        rcases hg with rfl | rfl
        · exact h1
        · exact h2
      rcases hn with rfl | rfl | rfl | rfl
      · exact Or.inr ⟨rfl, [], f_kind.toFilterBase, [f_size.toFilterBase], rfl,
          by intro g hg; simp at hg, by rfl⟩
      · exact Or.inl ⟨rfl, hin 2 true (by rfl) (by rfl)⟩
      · exact Or.inr ⟨rfl, [], f_kind.toFilterBase, [f_size.toFilterBase], rfl,
          by intro g hg; simp at hg, by rfl⟩
      · exact Or.inl ⟨rfl, hin 4 true (by rfl) (by rfl)⟩)

/-- C20 (the attribute filter). `FilterAttributePath::is_within` returns `true` exactly when
the value `get_value` reads at the node is one of the allowed values, so never for an empty
list of allowed values. When the getter raises, the failure propagates if the path has no
default, and the default is compared with the allowed values if it has one. -/
theorem attribute_filter_is_within [DecidableEq V] (f : FilterAttributePath S N V E) (s : S)
    (node : N) :
    (∀ v, f.path.get_value s node = .ok v →
      f.is_within s node = .ok (decide (v ∈ f.allowed_vals))) ∧
    (∀ v, f.path.get_value s node = .ok v → f.allowed_vals = [] →
      f.is_within s node = .ok false) ∧
    (∀ e, f.path.func_get s node = .error e → f.path.default_value = none →
      f.is_within s node = .error (.getter e)) ∧
    (∀ e d, f.path.func_get s node = .error e → f.path.default_value = some d →
      f.is_within s node = .ok (decide (d ∈ f.allowed_vals))) := by
  refine ⟨?_, ?_, ?_, ?_⟩
  · intro v hv
    simp only [FilterAttributePath.is_within, hv, bind_ok_eq, pure_eq_ok,
      FilterAttributePath.allowed_loop_eq]
  · intro v hv hempty
    simp only [FilterAttributePath.is_within, hv, bind_ok_eq, pure_eq_ok, hempty,
      FilterAttributePath.allowed_loop]
  · intro e he hd
    simp only [FilterAttributePath.is_within, AttributePath.get_value, he, hd, bind_error_eq]
  · intro e d he hd
    simp only [FilterAttributePath.is_within, AttributePath.get_value, he, hd, bind_ok_eq,
      pure_eq_ok, FilterAttributePath.allowed_loop_eq]

/-- C20 at the second test tree and the filter `property 1 is 20 or 40`: element 2 has the
value 20, element 1 lacks the property. -/
theorem attribute_filter_is_within_witness :
    f_size.is_within forest 2 = .ok (decide ((20 : Int) ∈ f_size.allowed_vals)) ∧
    f_size.is_within forest 1 = .error (.getter (.logic_error "value not present")) :=
  ⟨(attribute_filter_is_within f_size forest 2).1 20 (by rfl),
    (attribute_filter_is_within f_size forest 1).2.2.1 _ (by rfl) (by rfl)⟩

/-! ## `AttributePath` -/

/-- C21 (the accessor methods). `get_value` returns the value of the getter when the getter
returns; when the getter raises it returns the default if one is set and fails with the
getter's exception otherwise. `set_value` returns what the setter returns, boolean and tree
unchanged, and lets an exception of the setter through. -/
theorem get_value_and_set_value (p : AttributePath S N V E) (s : S) (node : N) :
    (∀ v, p.func_get s node = .ok v → p.get_value s node = .ok v) ∧
    (∀ e d, p.func_get s node = .error e → p.default_value = some d →
      p.get_value s node = .ok d) ∧
    (∀ e, p.func_get s node = .error e → p.default_value = none →
      p.get_value s node = .error (.getter e)) ∧
    (∀ val r, p.func_set s node val = .ok r → p.set_value s node val = .ok r) ∧
    (∀ val e, p.func_set s node val = .error e →
      p.set_value s node val = .error (.setter e)) := by
  refine ⟨?_, ?_, ?_, ?_, ?_⟩
  · intro v h
    simp only [AttributePath.get_value, h]
  · intro e d h hd
    simp only [AttributePath.get_value, h, hd]
  · intro e h hd
    simp only [AttributePath.get_value, h, hd]
  · intro val r h
    simp only [AttributePath.set_value, h]
  · intro val e h
    simp only [AttributePath.set_value, h]

/-- C21 at the test tree with the single value 5: the stored value at node 0, the default
of the path with default at the missing node 3, the failure of the path without default
there, and the result of the setter. -/
theorem get_value_and_set_value_witness :
    p_cell.get_value [5] 0 = .ok 5 ∧
    p_cell_default.get_value [5] 3 = .ok 0 ∧
    p_cell.get_value [5] 3 = .error (.getter (.logic_error "value not present")) ∧
    p_cell.set_value [5] 0 8 = .ok (true, [8]) :=
  ⟨(get_value_and_set_value p_cell [5] 0).1 5 (by rfl),
    (get_value_and_set_value p_cell_default [5] 3).2.1 _ 0 (by rfl) (by rfl),
    (get_value_and_set_value p_cell [5] 3).2.2.1 _ (by rfl) (by rfl),
    (get_value_and_set_value p_cell [5] 0).2.2.2.1 8 (true, [8]) (by rfl)⟩

/-- C22 (`has_value` ignores the default). `has_value` is `true` exactly when the getter
returns, whatever default the path has; for a path with a default and a node at which the
getter raises, `has_value` is `false` although `get_value` returns the default. -/
theorem has_value_raw_getter (p : AttributePath S N V E) (s : S) (node : N) :
    (p.has_value s node = true ↔ ∃ v, p.func_get s node = .ok v) ∧
    (∀ d : Option V, ({ p with default_value := d } : AttributePath S N V E).has_value s node =
      p.has_value s node) ∧
    (∀ e d, p.func_get s node = .error e → p.default_value = some d →
      p.has_value s node = false ∧ p.get_value s node = .ok d) := by
  refine ⟨?_, ?_, ?_⟩
  · unfold AttributePath.has_value
    cases hg : p.func_get s node with
    | ok v => simp
    | error e => simp
  · intro d
    rfl
  · intro e d h hd
    exact ⟨(p.has_value_false_iff s node).mpr ⟨e, h⟩,
      by simp only [AttributePath.get_value, h, hd]⟩

/-- C22 at the path with default 0 and the missing node 3 of the test tree. -/
theorem has_value_raw_getter_witness :
    p_cell_default.has_value [5] 3 = false ∧ p_cell_default.get_value [5] 3 = .ok 0 :=
  (has_value_raw_getter p_cell_default [5] 3).2.2 _ 0 (by rfl) (by rfl)

/-- C23, as the code behaves. For a path without default, `has_value` is `true` exactly when
`get_value` returns. Whatever the default, `has_value` being `true` makes `get_value`
return; and with a default `get_value` always returns, also where `has_value` is `false`. -/
theorem has_value_and_get_value (p : AttributePath S N V E) (s : S) (node : N) :
    (p.default_value = none →
      (p.has_value s node = true ↔ ∃ v, p.get_value s node = .ok v)) ∧
    (p.has_value s node = true → ∃ v, p.get_value s node = .ok v) ∧
    (∀ d, p.default_value = some d → ∃ v, p.get_value s node = .ok v) := by
  unfold AttributePath.has_value AttributePath.get_value
  cases hg : p.func_get s node with
  | ok v => simp
  | error e =>
    cases hd : p.default_value with
    | none => simp
    | some d => simp

/-- C23, amended, at the test tree: without default `has_value` and `get_value` agree at
the missing node 3. -/
theorem has_value_and_get_value_witness :
    (p_cell.has_value [5] 3 = true ↔ ∃ v, p_cell.get_value [5] 3 = .ok v) :=
  (has_value_and_get_value p_cell [5] 3).1 (by rfl)

/-- C23 fails as stated: for the path with default 0 and the missing node 3 of the test
tree, `get_value` returns while `has_value` is `false`. -/
theorem has_value_not_iff_get_value :
    ¬ (p_cell_default.has_value [5] 3 = true ↔ ∃ v, p_cell_default.get_value [5] 3 = .ok v) := by
  intro h
  have hget : ∃ v, p_cell_default.get_value [5] 3 = .ok v := ⟨0, by rfl⟩
  have hhas : p_cell_default.has_value [5] 3 = false := by rfl
  rw [h.mpr hget] at hhas
  cases hhas

/-! ## `BijeciveModifier::chain_with` -/

/-- C24 (composition). The modifier `first.chain_with second` applies `first`, then
`second`, and reverts `second`, then `first`; a failure of either function propagates. The
chain of `main.cpp`, increment then integer to string, takes 4 to `5` and `5` back to 4. -/
theorem chain_with_composes {O2 : Type} (first : BijeciveModifier I O E)
    (second : BijeciveModifier O O2 E) :
    (∀ v, (first.chain_with second).apply v = first.apply v >>= second.apply) ∧
    (∀ w, (first.chain_with second).revert w = second.revert w >>= first.revert) ∧
    (∀ v mid out, first.apply v = .ok mid → second.apply mid = .ok out →
      (first.chain_with second).apply v = .ok out) ∧
    (∀ w mid back, second.revert w = .ok mid → first.revert mid = .ok back →
      (first.chain_with second).revert w = .ok back) ∧
    chain.apply 4 = .ok "5" ∧ chain.revert "5" = .ok 4 := by
  have happly : ∀ v, (first.chain_with second).apply v = first.apply v >>= second.apply := by
    intro v
    simp only [BijeciveModifier.apply, BijeciveModifier.chain_with]
    cases h1 : first.func_apply v with
    | error e => rfl
    | ok mid => rfl
  have hrevert : ∀ w, (first.chain_with second).revert w = second.revert w >>= first.revert := by
    intro w
    simp only [BijeciveModifier.revert, BijeciveModifier.chain_with]
    cases h1 : second.func_revert w with
    | error e => rfl
    | ok mid => rfl
  refine ⟨happly, hrevert, ?_, ?_, by rfl, by rfl⟩
  · intro v mid out h1 h2
    rw [happly, h1, bind_ok_eq, h2]
  · intro w mid back h1 h2
    rw [hrevert, h1, bind_ok_eq, h2]

/-- C24 at the chain of `main.cpp` and the value 4. -/
theorem chain_with_composes_witness :
    (m_int_add_one.chain_with m_int_to_str).apply 4 = .ok "5" ∧
    (m_int_add_one.chain_with m_int_to_str).revert "5" = .ok 4 :=
  ⟨(chain_with_composes m_int_add_one m_int_to_str).2.2.1 4 5 "5" (by rfl) (by rfl),
    (chain_with_composes m_int_add_one m_int_to_str).2.2.2.1 "5" 5 4 (by rfl) (by rfl)⟩

/-! ## What the checks amount to -/

/-- C30 (the bijectivity check is the round-trip test). `BijeciveModifier::is_valid` returns
`true` exactly when at every node of the view the value read comes back from `apply` and
`revert`: once the round-trip test has passed at every node, neither of the two map checks
returns `false`. When nothing raises and some node does not come back, it returns `false`.
On the empty view it returns `true`. -/
theorem modifier_is_valid_iff_round_trip [DecidableEq I] [DecidableEq O]
    (m : BijeciveModifier I O E) (path : AttributePath S N I E) (s : S) (nodes : List N) :
    (m.is_valid path s nodes = .ok true ↔
      ∀ n ∈ nodes, ∃ v out, path.get_value s n = .ok v ∧ m.apply v = .ok out ∧
        m.revert out = .ok v) ∧
    ((∀ n ∈ nodes, ∃ v out back, path.get_value s n = .ok v ∧ m.apply v = .ok out ∧
        m.revert out = .ok back) →
      (∃ n ∈ nodes, ∃ v out back, path.get_value s n = .ok v ∧ m.apply v = .ok out ∧
        m.revert out = .ok back ∧ back ≠ v) →
      m.is_valid path s nodes = .ok false) ∧
    m.is_valid path s [] = .ok true := by
  refine ⟨⟨?_, ?_⟩, ?_, by rfl⟩
  · exact BijeciveModifier.is_valid_loop_round_trip m path s nodes [] []
  · intro h
    exact BijeciveModifier.is_valid_loop_of_round_trip m path s nodes [] []
      (by intro entry he; simp at he) (by intro entry he; simp at he) h
  · intro hall hbroken
    exact BijeciveModifier.is_valid_loop_of_broken m path s nodes [] []
      (by intro entry he; simp at he) (by intro entry he; simp at he) hall hbroken

/-- C30 at the test tree with values 5, 7, 9 and the modifier `m_int_to_str`. -/
theorem modifier_is_valid_iff_round_trip_witness :
    m_int_to_str.is_valid p_cell [5, 7, 9] [0, 1, 2] = .ok true :=
  (modifier_is_valid_iff_round_trip m_int_to_str p_cell [5, 7, 9] [0, 1, 2]).1.mpr (by
    intro n hn
    simp only [List.mem_cons, List.mem_singleton, List.not_mem_nil, or_false] at hn
    rcases hn with rfl | rfl | rfl
    · exact ⟨5, "5", by rfl, by rfl, by rfl⟩
    · exact ⟨7, "7", by rfl, by rfl, by rfl⟩
    · exact ⟨9, "9", by rfl, by rfl, by rfl⟩)

/-- C28 (the alias test never decides). For a column valid over the view, a string that is
absent from the built cells and comes back from `revert` and `apply` reverts to a value
other than the reverted value of every built cell. Hence the checks of `sync_with`, and
`sync_with` itself with the writes it makes, are those of the variant without the test
`reverted value already in set`, for every edited column. -/
theorem alias_veto_never_decides [DecidableEq V] (c : Column S N V E) (s : S)
    (values : SelectiveView S N E) :
    (∀ (built : List String) (x : String) (r : V), c.is_valid s values = .ok true →
      c.build s values = .ok (c.header :: built) → x ∉ built →
      c.modifier_pipe.revert x = .ok r → c.modifier_pipe.apply r = .ok x →
      ∀ cell ∈ built, c.modifier_pipe.revert cell ≠ .ok r) ∧
    (∀ col_out : List String,
      c.admission s values col_out = c.admission_without_alias s values col_out ∧
      c.sync_with s values col_out = c.sync_with_without_alias s values col_out) := by
  constructor
  · intro built x r hvalid hbuild hnew hr ha
    obtain ⟨built', hb', hrel⟩ := c.build_of_is_valid s values hvalid
    have hsame : built' = built := by
      have := hb'.symm.trans hbuild
      simpa using this
    subst hsame
    obtain ⟨vals, hvals, _⟩ := c.values_of_cells s built' values.view_nodes hrel
    exact (c.alias_free s built' values.view_nodes vals hrel hvals x r hnew hr ha).1
  · intro col_out
    have hadm := c.admission_eq_without_alias s values col_out
    refine ⟨hadm, ?_⟩
    simp only [Column.sync_with, Column.sync_with_without_alias, hadm]

/-- C28 at the test tree with values 5, 7, 9: the new string `10` reverts to none of the
stored values, and the vetoed edit `05` is rejected by the variant as well. -/
theorem alias_veto_never_decides_witness :
    (∀ cell ∈ ["5", "7", "9"], col_cell.modifier_pipe.revert cell ≠ .ok 10) ∧
    col_cell.sync_with_without_alias [5, 7, 9] (view_cells 3) ["Header", "5", "7", "05"] =
      .ok (false, [5, 7, 9]) :=
  ⟨(alias_veto_never_decides col_cell [5, 7, 9] (view_cells 3)).1 ["5", "7", "9"] "10" 10
      (by rfl) (by rfl) (by decide) (by rfl) (by rfl),
    ((alias_veto_never_decides col_cell [5, 7, 9] (view_cells 3)).2
      ["Header", "5", "7", "05"]).2.symm.trans (by rfl)⟩

/-- C29 (the count check never rejects). Whenever the collision loop has passed, the values
and strings it has collected are paired so that each value occurs among the values as often
as its string among the strings, and the count loop returns `true`. So for a column valid
over the view and an edited column of matching size, the edit reaches the write phase
exactly when every edited cell comes back from `revert` and `apply`. -/
theorem count_check_never_rejects [DecidableEq V] (c : Column S N V E) (s : S)
    (values : SelectiveView S N E) (hd : String) (cells : List String)
    (hview : values.view_nodes.length < SIZE_MOD)
    (hvalid : c.is_valid s values = .ok true)
    (hlen : cells.length = values.view_nodes.length) :
    (∀ (col_build : List String) (col_originals : List V) (edited : List String)
      (rv : List V) (rk : List String),
      c.collision_loop col_build col_originals edited [] [] = .ok (some (rv, rk)) →
      List.Forall₂ (fun r x => rv.count r = rk.count x) rv rk ∧
        (Column.count_loop rv rk rv.length 0 : Except (Failure E) Bool) = .ok true) ∧
    (c.admission s values (hd :: cells) = .ok (some cells) ↔
      ∀ x ∈ cells, ∃ r, c.modifier_pipe.revert x = .ok r ∧ c.modifier_pipe.apply r = .ok x) := by
  have hcount : ∀ (col_build : List String) (col_originals : List V) (edited : List String)
      (rv : List V) (rk : List String),
      c.collision_loop col_build col_originals edited [] [] = .ok (some (rv, rk)) →
      List.Forall₂ (fun r x => rv.count r = rk.count x) rv rk ∧
        (Column.count_loop rv rk rv.length 0 : Except (Failure E) Bool) = .ok true := by
    intro col_build col_originals edited rv rk h
    obtain ⟨⟨rv', rk', e1, e2, hrel⟩, _⟩ :=
      c.collision_loop_some_paired col_build col_originals edited [] [] rv rk h
    simp only [List.nil_append] at e1 e2
    subst e1 e2
    refine ⟨?_, ?_⟩
    · exact hrel.imp fun r x hrx => c.count_eq_of_paired r x hrx rv rk hrel
    · have := c.count_loop_of_paired (E := E) rv rk hrel rv rk [] [] rfl rfl rfl hrel
      simpa using this
  refine ⟨hcount, ?_⟩
  obtain ⟨built, hb, hrel⟩ := c.build_of_is_valid s values hvalid
  obtain ⟨vals, hvals, _⟩ := c.values_of_cells s built values.view_nodes hrel
  have hsize : values.view_nodes.length = size_sub_one (hd :: cells).length := by
    rw [List.length_cons, size_sub_one_succ _ (hlen ▸ hview), hlen]
  rw [c.admission_of_valid s values hd cells built vals hvalid hsize hb hvals]
  constructor
  · intro h x hx
    by_cases hxb : x ∈ built
    · obtain ⟨n, _, v, _, hav, hrv⟩ := forall₂_mem_left hrel x hxb
      exact ⟨v, hrv, hav⟩
    · cases hc : c.collision_loop built vals cells [] [] with
      | error e => simp [hc, bind_error_eq] at h
      | ok reached =>
        cases reached with
        | none => simp [hc, bind_ok_eq, pure_eq_ok] at h
        | some pair =>
          obtain ⟨rv, rk⟩ := pair
          exact (c.collision_loop_some_paired built vals cells [] [] rv rk hc).2 x hx hxb
  · intro h
    have hpass : ∀ x ∈ cells, x ∉ built → ∃ r, c.modifier_pipe.revert x = .ok r ∧
        c.modifier_pipe.apply r = .ok x ∧ r ∉ vals := by
      intro x hx hxb
      obtain ⟨r, hr, ha⟩ := h x hx
      exact ⟨r, hr, ha, (c.alias_free s built values.view_nodes vals hrel hvals x r hxb hr ha).2⟩
    obtain ⟨rv', rk', hloop, hpaired⟩ := c.collision_loop_pass built vals cells [] [] hpass
    simp only [List.nil_append] at hloop
    have hcnt := c.count_loop_of_paired (E := E) rv' rk' hpaired rv' rk' [] [] rfl rfl rfl
      hpaired
    simp only [List.length_nil] at hcnt
    simp only [hloop, bind_ok_eq, hcnt, Bool.not_true, Bool.false_eq_true, if_false,
      pure_eq_ok]

/-- C29 at the test tree with values 5, 7, 9: the edit 5, 7, 10 reaches the write phase. -/
theorem count_check_never_rejects_witness :
    col_cell.admission [5, 7, 9] (view_cells 3) ["Header", "5", "7", "10"] =
      .ok (some ["5", "7", "10"]) :=
  (count_check_never_rejects col_cell [5, 7, 9] (view_cells 3) "Header" ["5", "7", "10"]
    (by decide) (by rfl) (by rfl)).2.mpr (by
      intro x hx
      simp only [List.mem_cons, List.mem_singleton, List.not_mem_nil, or_false] at hx
      rcases hx with rfl | rfl | rfl
      · exact ⟨5, by rfl, by rfl⟩
      · exact ⟨7, by rfl, by rfl⟩
      · exact ⟨10, by rfl, by rfl⟩)

/-- C25, as the code behaves. For a column valid over the view, an edited column whose
cells are a permutation of the built cells passes every check of `sync_with`, since none of
its cells is new; and when no setter call returns `false`, `sync_with` does not return
`false` on it. -/
theorem permutation_is_admitted [DecidableEq V] (c : Column S N V E) (s : S)
    (values : SelectiveView S N E) (hd : String) (cells built : List String)
    (hview : values.view_nodes.length < SIZE_MOD)
    (hvalid : c.is_valid s values = .ok true)
    (hbuild : c.build s values = .ok (c.header :: built))
    (hperm : cells.Perm built) :
    c.admission s values (hd :: cells) = .ok (some cells) ∧
    ((∀ (s0 : S) (n : N) (v : V) (r : Bool × S),
        c.linked_attr.func_set s0 n v = .ok r → r.1 = true) →
      ∀ r : Bool × S, c.sync_with s values (hd :: cells) = .ok r → r.1 = true) := by
  have hlen : cells.length = values.view_nodes.length :=
    hperm.length_eq.trans (c.built_length s values built hvalid hbuild)
  have hpresent : ∀ x ∈ cells, x ∈ built := fun x hx => hperm.subset hx
  exact ⟨c.admission_of_present s values hd cells built hview hvalid hlen hbuild hpresent,
    c.sync_with_true_of_present s values hd cells built hview hvalid hlen hbuild hpresent⟩

/-- C25, amended, at the test tree with values 5, 7, 9: the edit 9, 5, 7, in which every
row changes, is admitted, returns `true` and is written. -/
theorem permutation_is_admitted_witness :
    col_cell.admission [5, 7, 9] (view_cells 3) ["Header", "9", "5", "7"] =
      .ok (some ["9", "5", "7"]) ∧
    col_cell.sync_with [5, 7, 9] (view_cells 3) ["Header", "9", "5", "7"] =
      .ok (true, [9, 5, 7]) :=
  ⟨(permutation_is_admitted col_cell [5, 7, 9] (view_cells 3) "Header" ["9", "5", "7"]
      ["5", "7", "9"] (by decide) (by rfl) (by rfl) (by decide)).1,
    by rfl⟩

/-- C25 fails as stated: there is no valid column, view and edited column whose cells are
a permutation of the built cells with every row changed that `sync_with` answers with
`false` while no setter call returns `false`. -/
theorem no_rejected_permutation :
    ¬ ∃ (S N V E : Type) (_ : DecidableEq V) (c : Column S N V E) (s s' : S)
      (values : SelectiveView S N E) (hd : String) (cells built : List String),
      values.view_nodes.length < SIZE_MOD ∧
      c.is_valid s values = .ok true ∧
      c.build s values = .ok (c.header :: built) ∧
      cells.Perm built ∧
      List.Forall₂ (fun cell old => cell ≠ old) cells built ∧
      (∀ (s0 : S) (n : N) (v : V) (r : Bool × S),
        c.linked_attr.func_set s0 n v = .ok r → r.1 = true) ∧
      c.sync_with s values (hd :: cells) = .ok (false, s') := by
  rintro ⟨S, N, V, E, inst, c, s, s', values, hd, cells, built, hview, hvalid, hbuild, hperm,
    _, hset, hsync⟩
  have hlen : cells.length = values.view_nodes.length :=
    hperm.length_eq.trans (c.built_length s values built hvalid hbuild)
  have h := c.sync_with_true_of_present s values hd cells built hview hvalid hlen hbuild
    (fun x hx => hperm.subset hx) hset (false, s') hsync
  cases h

/-! ## After a successful sync -/

/-- C26 (sync, then build). Over a view of pairwise distinct nodes and with a setter that
stores the value at its node and leaves the other nodes: if `Column::sync_with` returns
`true` on an edited column, then `build` on the tree it leaves returns the header of the
column followed by exactly the edited cells. A sync that returns `true` has found the
column valid. The edited column has a size that a vector can have. -/
theorem build_after_sync [DecidableEq V] (c : Column S N V E) (s s' : S)
    (values : SelectiveView S N E) (hd : String) (cells : List String)
    (hcells : cells.length < SIZE_MOD)
    (hnodup : values.view_nodes.Nodup)
    (hlawful : ∀ (s0 : S) (n : N) (v : V) (r : Bool × S),
      c.linked_attr.func_set s0 n v = .ok r →
      c.linked_attr.func_get r.2 n = .ok v ∧
        ∀ m, m ≠ n → c.linked_attr.func_get r.2 m = c.linked_attr.func_get s0 m)
    (hsync : c.sync_with s values (hd :: cells) = .ok (true, s')) :
    c.build s' values = .ok (c.header :: cells) := by
  have hrel := c.cells_stored_after_sync s s' values hd cells hcells hnodup hlawful hsync
  have hrendered : List.Forall₂ (fun cell n => ∃ v, c.linked_attr.get_value s' n = .ok v ∧
      c.modifier_pipe.apply v = .ok cell) cells values.view_nodes := by
    refine List.Forall₂.imp ?_ hrel
    intro cell n hcell
    obtain ⟨v, hg, ha, _⟩ := hcell
    exact ⟨v, hg, ha⟩
  have := c.build_loop_of_rendered s' values.view_nodes [c.header] cells hrendered
  simpa [Column.build] using this

/-- C26 at the store with the values 5, 7, 9: after the edit 5, 7, 10 the column builds
`Header, 5, 7, 10`. -/
theorem build_after_sync_witness :
    col_store.build (fun n => if n = 2 then 10 else store_579 n) view_store =
      .ok (col_store.header :: ["5", "7", "10"]) :=
  build_after_sync col_store store_579 (fun n => if n = 2 then 10 else store_579 n) view_store
    "Header" ["5", "7", "10"] (by decide) (by decide)
    (by
      intro s0 n v r h
      simp only [col_store, store_set, Except.ok.injEq] at h
      subst h
      refine ⟨by simp [col_store, store_get], ?_⟩
      intro m hm
      simp [col_store, store_get, hm])
    (by rfl)

/-- C27 (a successful sync keeps the column valid). Over a view of pairwise distinct nodes
and with a setter that stores the value at its node and leaves the other nodes: if
`Column::sync_with` returns `true`, which it only does on a valid column, then
`Column::is_valid` returns `true` on the tree it leaves. The edited column has a size that
a vector can have. -/
theorem is_valid_after_sync [DecidableEq V] (c : Column S N V E) (s s' : S)
    (values : SelectiveView S N E) (hd : String) (cells : List String)
    (hcells : cells.length < SIZE_MOD)
    (hnodup : values.view_nodes.Nodup)
    (hlawful : ∀ (s0 : S) (n : N) (v : V) (r : Bool × S),
      c.linked_attr.func_set s0 n v = .ok r →
      c.linked_attr.func_get r.2 n = .ok v ∧
        ∀ m, m ≠ n → c.linked_attr.func_get r.2 m = c.linked_attr.func_get s0 m)
    (hsync : c.sync_with s values (hd :: cells) = .ok (true, s')) :
    c.is_valid s values = .ok true ∧ c.is_valid s' values = .ok true := by
  constructor
  · cases hadm : c.admission s values (hd :: cells) with
    | error e => simp [Column.sync_with, hadm, bind_error_eq] at hsync
    | ok res =>
      cases res with
      | none =>
        rw [c.sync_with_of_reject s values _ hadm] at hsync
        simp at hsync
      | some cells0 => exact (c.admission_some s values (hd :: cells) cells0 hadm).2.1
  · have hrel := c.cells_stored_after_sync s s' values hd cells hcells hnodup hlawful hsync
    have hrt : ∀ n ∈ values.view_nodes, ∃ v out, c.linked_attr.get_value s' n = .ok v ∧
        c.modifier_pipe.apply v = .ok out ∧ c.modifier_pipe.revert out = .ok v := by
      intro n hn
      obtain ⟨cell, _, v, hg, ha, hr⟩ := forall₂_mem_right hrel n hn
      exact ⟨v, cell, hg, ha, hr⟩
    have hall := c.has_all_values_of_get s' values.view_nodes fun n hn => by
      obtain ⟨v, _, hg, _⟩ := hrt n hn
      exact ⟨v, hg⟩
    have hloop := BijeciveModifier.is_valid_loop_of_round_trip c.modifier_pipe c.linked_attr s'
      values.view_nodes [] [] (by intro entry he; simp at he) (by intro entry he; simp at he)
      hrt
    simp only [Column.is_valid, hall, Bool.not_true, Bool.false_eq_true, if_false,
      BijeciveModifier.is_valid, hloop]

/-- C27 at the store with the values 5, 7, 9 and the edit 5, 7, 10. -/
theorem is_valid_after_sync_witness :
    col_store.is_valid store_579 view_store = .ok true ∧
    col_store.is_valid (fun n => if n = 2 then 10 else store_579 n) view_store = .ok true :=
  is_valid_after_sync col_store store_579 (fun n => if n = 2 then 10 else store_579 n)
    view_store "Header" ["5", "7", "10"] (by decide) (by decide)
    (by
      intro s0 n v r h
      simp only [col_store, store_set, Except.ok.injEq] at h
      subst h
      refine ⟨by simp [col_store, store_get], ?_⟩
      intro m hm
      simp [col_store, store_get, hm])
    (by rfl)

/-! ## An edited column without entries, chains, and the arrows of the drawio import -/

/-- C31 (an edited column without any entry). The cell count of an edited column without any
entry, not even a header, is `0 - 1` in `size_t`, which is `2^64 - 1` and the size of no
view. When `is_valid` returns, `Column::sync_with` returns `false` for such a column, with
the tree as it was, for every view, the empty one included: the call ends at the comparison
of the sizes, so that `erase`, which is undefined on the empty column, and every `at` are
not reached. `BijectiveAlgorithm::sync_with` returns `false` in the same way for every table
that holds such a column, wherever it stands. -/
theorem sync_with_false_of_empty_column [DecidableEq V] (c : Column S N V E) (s : S)
    (values : SelectiveView S N E) (b : Bool)
    (hview : values.view_nodes.length + 1 < SIZE_MOD)
    (hb : c.is_valid s values = .ok b) :
    size_sub_one ([] : List String).length = 2 ^ 64 - 1 ∧
    erase_begin ([] : List String) = (.error .undefined : Except (Failure E) (List String)) ∧
    c.admission s values [] = .ok none ∧
    c.sync_with s values [] = .ok (false, s) ∧
    ∀ (a : BijectiveAlgorithm S N E) (tree : N) (table : List (List String)) (valid : Bool),
      a.view.view_nodes.length + 1 < SIZE_MOD → a.is_valid s = .ok valid → [] ∈ table →
      a.sync_with s tree table = .ok (false, s) := by
  have hadm := c.admission_nil s values b hview hb
  refine ⟨by rfl, by rfl, hadm, c.sync_with_of_reject s values [] hadm, ?_⟩
  intro a tree table valid hv hvalid hnil
  exact a.sync_with_of_nil_column s tree table valid hv hvalid hnil

/-- C31 at the column of the test tree with the empty view, and at the algorithm with two
columns with a table of two columns without entries. -/
theorem sync_with_false_of_empty_column_witness :
    col_cell.sync_with [5, 7, 9] (view_cells 0) [] = .ok (false, [5, 7, 9]) ∧
    alg_cells.sync_with [5, 7, 9] 0 [[], []] = .ok (false, [5, 7, 9]) :=
  ⟨(sync_with_false_of_empty_column col_cell [5, 7, 9] (view_cells 0) true (by decide)
      (by rfl)).2.2.2.1,
    (sync_with_false_of_empty_column col_cell [5, 7, 9] (view_cells 0) true (by decide)
      (by rfl)).2.2.2.2 alg_cells 0 [[], []] true (by decide) (by rfl) (by decide)⟩

/-- C32 (chaining preserves the round trip). If a value `v` comes back from `first`, that is
`first.revert (first.apply v) = v`, and its image comes back from `second`, that is
`second.revert (second.apply (first.apply v)) = first.apply v`, then `v` comes back from
the chain `first.chain_with second`. Hence the chain passes the bijectivity check
`is_valid` on every view at whose nodes the values read come back in this way. -/
theorem chain_preserves_round_trip [DecidableEq I] {O2 : Type} [DecidableEq O2]
    (first : BijeciveModifier I O E) (second : BijeciveModifier O O2 E)
    (path : AttributePath S N I E) (s : S) (nodes : List N) :
    (∀ v, first.apply v >>= first.revert = .ok v →
      first.apply v >>= second.apply >>= second.revert = first.apply v →
      (first.chain_with second).apply v >>= (first.chain_with second).revert = .ok v) ∧
    ((∀ n ∈ nodes, ∃ v, path.get_value s n = .ok v ∧
        first.apply v >>= first.revert = .ok v ∧
        first.apply v >>= second.apply >>= second.revert = first.apply v) →
      (first.chain_with second).is_valid path s nodes = .ok true) := by
  constructor
  · intro v h1 h2
    obtain ⟨out, ha, hr⟩ := first.chain_with_round_trip second v h1 h2
    rw [ha, bind_ok_eq, hr]
  · intro h
    apply BijeciveModifier.is_valid_loop_of_round_trip
    · intro entry he
      simp at he
    · intro entry he
      simp at he
    · intro n hn
      obtain ⟨v, hg, h1, h2⟩ := h n hn
      obtain ⟨out, ha, hr⟩ := first.chain_with_round_trip second v h1 h2
      exact ⟨v, out, hg, ha, hr⟩

/-- C32 at the chain of `main.cpp`, increment then integer to string, on the test tree with
the values 5, 7, 9. -/
theorem chain_preserves_round_trip_witness :
    (m_int_add_one.chain_with m_int_to_str).apply 5 >>=
      (m_int_add_one.chain_with m_int_to_str).revert = .ok 5 ∧
    (m_int_add_one.chain_with m_int_to_str).is_valid p_cell [5, 7, 9] [0, 1, 2] = .ok true :=
  ⟨(chain_preserves_round_trip m_int_add_one m_int_to_str p_cell [5, 7, 9] [0, 1, 2]).1 5
      (by rfl) (by rfl),
    (chain_preserves_round_trip m_int_add_one m_int_to_str p_cell [5, 7, 9] [0, 1, 2]).2 (by
      intro n hn
      simp only [List.mem_cons, List.mem_singleton, List.not_mem_nil, or_false] at hn
      rcases hn with rfl | rfl | rfl
      · exact ⟨5, by rfl, by rfl, by rfl⟩
      · exact ⟨7, by rfl, by rfl, by rfl⟩
      · exact ⟨9, by rfl, by rfl, by rfl⟩)⟩

/-- C33 (arrow resolution). In `iterate_resolve_arrows` the test in front of
`arrow->source = source` looks at `target`, as the test in front of `arrow->target = target`
does. On the diagram whose root owns the element `n1` and an arrow with target `n1` and
source `missing`, an id that no element has, the call returns: the arrow has the target
`n1` and the null pointer as source, and its two keys are erased. No call raises
`Arrow source could not be resolved`, on any diagram. With the target `missing` the call
raises the exception about the target, whose message is spelled `Arrow sarget could not be
resolved`. -/
theorem iterate_resolve_arrows_null_source :
    (∀ element ∈ diagram_with_arrow "missing" "n1",
      umap_find element.properties "id" ≠ some "missing") ∧
    find_node_with (diagram_with_arrow "missing" "n1") 2 0 "id" "missing" = .ok (some none) ∧
    iterate_resolve_arrows 2 0 2 (diagram_with_arrow "missing" "n1") 0 =
      .ok (some
        [ { properties := [("id", "0")], owned_elements := [some 1, some 2], arrow := none },
          { properties := [("id", "n1")], owned_elements := [], arrow := none },
          { properties := [("id", "a"), ("edge", "1")], owned_elements := [],
            arrow := some { source := none, target := some 1 } } ]) ∧
    (∀ (depth root fuel : Nat) (s : List DiagramElement) (parent : Nat),
      iterate_resolve_arrows depth root fuel s parent ≠
        .error (.logic_error "Arrow source could not be resolved")) ∧
    iterate_resolve_arrows 2 0 2 (diagram_with_arrow "n1" "missing") 0 =
      .error (.logic_error "Arrow sarget could not be resolved") := by
  refine ⟨by decide, by rfl, by rfl, ?_, by rfl⟩
  intro depth root fuel s parent
  exact iterate_resolve_arrows_error depth root fuel s parent

end Claims

end WAB
